import Mathlib

/-!
# Dust: shaping layer and identity records

A shallow embedding of `Dust/shaping_layer.go` (the supervisor side of the
shaper) and of `go/Dust/identity_repr.go` with `go/Dust/prim/asym_repr.go`
(the identity record parser and emitter), followed by theorems about them.

Conventions of the embedding.

* Go byte slices are lists of bytes; a sub-slice that shares its backing array
  with a buffer (`outTail` over `outBuf`) is a window (offset and length) over
  the list that models the buffer.
* The collaborators of the shaper (crypto session, encode and decode model,
  outbound sink) are stateful objects outside the file: their joint state is a
  value of an arbitrary type `W`, their methods are functions that take and
  return it.
* Every call the shaper makes on a collaborator is appended to a trace of
  events, so that statements about which calls were made, and in which order,
  can be made about the result of a handler.
* A loop that need not terminate takes a bound on its number of iterations
  and reports when the bound was reached.
* A Go map is a list of entries with distinct keys; a `range` over the map
  visits the entries in the order of the list, so that a statement proved for
  every list is proved for every order a `range` can take.
* A function that returns `(value, error)` returns an `Except`; a function
  that also writes to a map it was given returns the map afterwards as well.
* What the identity code calls and the embedded files do not define is a
  field of the structure `Deps`, or is modelled from the spec where the spec
  describes it; such a definition says so.
* `LoadServerPrivateFile` is embedded on what the reads of the opened file
  deliver: the content, and the error that ends it if it is not `io.EOF`; the
  scanner over it has the token limit of `bufio.Scanner`.  `SavePrivateFile`
  is embedded up to the content it writes, and takes the order in which its
  `range` meets the entries of the parameter map as an argument.  Opening and
  writing the file are outside the model.
-/

namespace Dust

/-! ## Errors -/

/-- A Go string.  Every character the embedded code looks for (`:`, `[`,
`]`, `=`, `.`, CR, LF, the decimal digits) is ASCII, so scanning by character
and scanning by byte find the same positions. -/
abbrev Str := List Char

/-- Modelled from the spec: the type `ParameterErrorKind` is declared outside
the embedded files, which use its values `ParameterMissing` and
`ParameterInvalid`; by the spec the kinds are Missing, Invalid and Unknown. -/
inductive ParameterErrorKind
  | ParameterMissing
  | ParameterInvalid
  | ParameterUnknown
  deriving DecidableEq, Repr

/-- Go error values that occur in the embedded code.  `NumError` is the error
of `strconv.ParseUint` (bad syntax, or out of range); `ErrTooLong` is
`bufio.ErrTooLong`; `other` stands for any error value of a collaborator that
the code only passes on. -/
inductive Error
  | ErrNoProgress
  | EOF
  | ErrSyntax
  | ErrBadPublicKey
  | ErrBadPrivateKey
  | ErrTooLong
  | NumError (num : List Char) (outOfRange : Bool)
  | ParameterError (kind : ParameterErrorKind) (name : List Char) (detail : List Char)
  | other (code : Nat)
  deriving DecidableEq, Repr

abbrev Byte := UInt8

/-! ## Slices over a buffer -/

/-- A Go slice `buf[off : off+len]` that shares the backing array of `buf`. -/
structure Window where
  off : Nat
  len : Nat
  deriving DecidableEq, Repr

/-- The slice expression `w[n:]`. -/
def Window.drop (w : Window) (n : Nat) : Window :=
  { off := w.off + n, len := w.len - n }

/-- Go `copy(dst, src)` where `dst` is the window `w` over `buf`: the new
content of `buf` and the number of bytes copied. -/
def copyInto (buf : List Byte) (w : Window) (src : List Byte) : List Byte × Nat :=
  let copied := min w.len src.length
  (buf.take w.off ++ src.take copied ++ buf.drop (w.off + copied), copied)

/-! ## Shaper -/

/-- One call made on a collaborator or on a child actor. -/
inductive Event
  | timerCycle (dur : Nat)
  | readerCycle (offset : Nat)
  | PullWrite (n : Int) (err : Option Error)
  | EncodeBytes (plain encoded : List Byte)
  | DecodeBytes (wire decoded : List Byte)
  | PushRead (p : List Byte) (err : Option Error)
  | Write (p : List Byte)
  deriving DecidableEq, Repr

/-- The methods of the crypto session, of the two models and of the outbound
sink, over their joint state `W`.  `PullWrite` returns the bytes it stored at
the start of the buffer it was given (of the given length), the count and the
error. -/
structure Collaborators (W : Type) where
  PullWrite : W → Nat → (List Byte × Int × Option Error) × W
  PushRead : W → List Byte → (Int × Option Error) × W
  DecodeBytes : W → List Byte → List Byte × W
  MaxPacketLength : W → Nat
  NextPacketLength : W → Int × W
  NextPacketSleep : W → Nat × W
  EncodeBytes : W → List Byte → List Byte × W
  Write : W → List Byte → (Int × Option Error) × W

/-- The reader child: only its error slot is state of the supervisor's side. -/
structure shaperReader where
  heldError : Option Error
  deriving DecidableEq, Repr

/-- The timer child. -/
structure shaperTimer where
  heldError : Option Error
  deriving DecidableEq, Repr

def shaperBufSize : Nat := 1024

structure Shaper (W : Type) where
  world : W
  heldError : Option Error
  reader : shaperReader
  inBuf : List Byte
  timer : shaperTimer
  outBuf : List Byte
  outPending : List Byte
  pullBuf : List Byte

/-- How a handler ended: it returned a value, it panicked (a slice bound out
of range), or the iteration bound of the model was reached. -/
inductive Exit (α : Type)
  | returned (a : α)
  | panicked
  | outOfFuel
  deriving DecidableEq, Repr

/-- The local variables of the loop of `handleTimer`, with the shaper and the
trace so far. -/
structure FillState (W : Type) where
  sh : Shaper W
  outValid : Nat
  outTail : Window
  trace : List Event

/-- How the loop of `handleTimer` ended: `done` is the loop condition failing
or the `break`, `fatal` is the `return err` inside the loop. -/
inductive FillExit
  | done
  | fatal (err : Error)
  | panicked
  | outOfFuel
  deriving DecidableEq, Repr

/-- The loop `for len(outTail) > 0 { ... }` of `Shaper.handleTimer`, at most
`fuel` iterations. -/
def fillLoop {W : Type} (c : Collaborators W) : Nat → FillState W → FillState W × FillExit
  | 0, st => (st, if st.outTail.len > 0 then FillExit.outOfFuel else FillExit.done)
  | fuel + 1, st =>
    if st.outTail.len > 0 then
      if st.sh.outPending.length > 0 then
        let r := copyInto st.sh.outBuf st.outTail st.sh.outPending
        let copied := r.2
        fillLoop c fuel
          { sh := { st.sh with outBuf := r.1, outPending := st.sh.outPending.drop copied }
            outValid := st.outValid + copied
            outTail := st.outTail.drop copied
            trace := st.trace }
      else
        let pr := c.PullWrite st.sh.world st.sh.pullBuf.length
        let pullN := pr.1.2.1
        let err := pr.1.2.2
        let pullBuf := (pr.1.1.take st.sh.pullBuf.length) ++ st.sh.pullBuf.drop pr.1.1.length
        let trace1 := st.trace ++ [Event.PullWrite pullN err]
        let sh1 : Shaper W := { st.sh with world := pr.2, pullBuf := pullBuf }
        if err ≠ none ∧ err ≠ some Error.ErrNoProgress then
          ({ st with sh := sh1, trace := trace1 }, FillExit.fatal (err.getD Error.ErrNoProgress))
        else if pullN < 0 ∨ pullN > (pullBuf.length : Int) then
          ({ st with sh := sh1, trace := trace1 }, FillExit.panicked)
        else
          let plain := pullBuf.take pullN.toNat
          let er := c.EncodeBytes pr.2 plain
          let encoded := er.1
          let trace2 := trace1 ++ [Event.EncodeBytes plain encoded]
          let r := copyInto st.sh.outBuf st.outTail encoded
          let copied := r.2
          let encodedTail := encoded.drop copied
          let outPending :=
            if encodedTail.length > 0 then st.sh.outPending ++ encodedTail else st.sh.outPending
          let st2 : FillState W :=
            { sh := { sh1 with world := er.2, outBuf := r.1, outPending := outPending }
              outValid := st.outValid + copied
              outTail := st.outTail.drop copied
              trace := trace2 }
          if err ≠ none then (st2, FillExit.done) else fillLoop c fuel st2
    else (st, FillExit.done)

/-- The result of a handler: the shaper afterwards, the calls made, and how
the handler ended. -/
structure Handled (W : Type) (α : Type) where
  sh : Shaper W
  trace : List Event
  exit : Exit α

/-- `Shaper.handleTimer`; the returned value is the Go `error`. -/
def Shaper.handleTimer {W : Type} (c : Collaborators W) (fuel : Nat) (sh : Shaper W) :
    Handled W (Option Error) :=
  let lr := c.NextPacketLength sh.world
  let outLen := lr.1
  let sr := c.NextPacketSleep lr.2
  let sh0 : Shaper W := { sh with world := sr.2 }
  let trace0 := [Event.timerCycle sr.1]
  if outLen < 0 ∨ outLen > (sh.outBuf.length : Int) then
    { sh := sh0, trace := trace0, exit := Exit.panicked }
  else
    let fr := fillLoop c fuel
      { sh := sh0, outValid := 0, outTail := { off := 0, len := outLen.toNat }, trace := trace0 }
    match fr.2 with
    | FillExit.fatal err => { sh := fr.1.sh, trace := fr.1.trace, exit := Exit.returned (some err) }
    | FillExit.panicked => { sh := fr.1.sh, trace := fr.1.trace, exit := Exit.panicked }
    | FillExit.outOfFuel => { sh := fr.1.sh, trace := fr.1.trace, exit := Exit.outOfFuel }
    | FillExit.done =>
      let p := fr.1.sh.outBuf.take fr.1.outValid
      let wr := c.Write fr.1.sh.world p
      { sh := { fr.1.sh with world := wr.2 }
        trace := fr.1.trace ++ [Event.Write p]
        exit := Exit.returned wr.1.2 }

/-- `Shaper.handleRead`; the returned value is the Go `error`. -/
def Shaper.handleRead {W : Type} (c : Collaborators W) (sh : Shaper W) (subn : Int) :
    Handled W (Option Error) :=
  if subn < 0 ∨ subn > (sh.inBuf.length : Int) then
    { sh := sh, trace := [], exit := Exit.panicked }
  else
    let wire := sh.inBuf.take subn.toNat
    let dr := c.DecodeBytes sh.world wire
    let decoded := dr.1
    let pr := c.PushRead dr.2 decoded
    let err := pr.1.2
    let sh1 : Shaper W := { sh with world := pr.2 }
    let trace1 := [Event.DecodeBytes wire decoded, Event.PushRead decoded err]
    if err ≠ none then
      { sh := sh1, trace := trace1, exit := Exit.returned err }
    else
      { sh := sh1, trace := trace1 ++ [Event.readerCycle 0], exit := Exit.returned none }

/-- What the `select` of `handleOneStateChange` received: a count on the
reader's advance channel or its closure, a time on the timer's timing channel
or its closure, or an event on the control channel.  With the count come the
bytes `stored` that the reader's `Read` put at the start of the shared buffer
before the reader sent the count. -/
inductive StateChange
  | advance (subn : Int) (stored : List Byte)
  | advanceClosed
  | timing
  | timingClosed
  | control
  deriving DecidableEq, Repr

/-- The shaper as the supervisor finds it when the reader has handed the
shared buffer back: `inBuf` starts with the bytes `stored`. -/
def Shaper.readerStored {W : Type} (sh : Shaper W) (stored : List Byte) : Shaper W :=
  { sh with inBuf := stored.take sh.inBuf.length ++ sh.inBuf.drop stored.length }

/-- `Shaper.handleOneStateChange`; the returned value is the Go `bool`. -/
def Shaper.handleOneStateChange {W : Type} (c : Collaborators W) (fuel : Nat) (sh : Shaper W)
    (ev : StateChange) : Handled W Bool :=
  match ev with
  | StateChange.advanceClosed => { sh := sh, trace := [], exit := Exit.returned true }
  | StateChange.advance subn stored =>
    let r := (sh.readerStored stored).handleRead c subn
    match r.exit with
    | Exit.returned (some err) =>
      { sh := { r.sh with heldError := some err }, trace := r.trace, exit := Exit.returned true }
    | Exit.returned none => { sh := r.sh, trace := r.trace, exit := Exit.returned false }
    | Exit.panicked => { sh := r.sh, trace := r.trace, exit := Exit.panicked }
    | Exit.outOfFuel => { sh := r.sh, trace := r.trace, exit := Exit.outOfFuel }
  | StateChange.timingClosed => { sh := sh, trace := [], exit := Exit.returned true }
  | StateChange.timing =>
    let r := sh.handleTimer c fuel
    match r.exit with
    | Exit.returned (some err) =>
      { sh := { r.sh with heldError := some err }, trace := r.trace, exit := Exit.returned true }
    | Exit.returned none => { sh := r.sh, trace := r.trace, exit := Exit.returned false }
    | Exit.panicked => { sh := r.sh, trace := r.trace, exit := Exit.panicked }
    | Exit.outOfFuel => { sh := r.sh, trace := r.trace, exit := Exit.outOfFuel }
  | StateChange.control => { sh := sh, trace := [], exit := Exit.returned true }

/-- How far the loop of `Shaper.run` got on a given sequence of state changes:
`exited` is the `break`, `running` is the loop waiting for a next state
change after the given ones are used up. -/
inductive LoopStatus
  | exited
  | running
  | panicked
  | outOfFuel
  deriving DecidableEq, Repr

/-- The loop `for { shouldExit := sh.handleOneStateChange(); ... }` of
`Shaper.run` on the state changes `evs`, in the order the `select` takes them. -/
def runLoop {W : Type} (c : Collaborators W) (fuel : Nat) :
    Shaper W → List StateChange → Shaper W × List Event × LoopStatus
  | sh, [] => (sh, [], LoopStatus.running)
  | sh, ev :: evs =>
    let r := sh.handleOneStateChange c fuel ev
    match r.exit with
    | Exit.returned true => (r.sh, r.trace, LoopStatus.exited)
    | Exit.returned false =>
      let rest := runLoop c fuel r.sh evs
      (rest.1, r.trace ++ rest.2.1, rest.2.2)
    | Exit.panicked => (r.sh, r.trace, LoopStatus.panicked)
    | Exit.outOfFuel => (r.sh, r.trace, LoopStatus.outOfFuel)

/-- `Shaper.run` on the state changes `evs`.  `ReportExitTo` is declared
outside the embedded files: it is a parameter, a function of whether the
goroutine is panicking and of the error slot it is given, to the new content
of that slot.  The deferred function runs when the loop was left. -/
def Shaper.run {W : Type} (c : Collaborators W) (ReportExitTo : Bool → Option Error → Option Error)
    (fuel : Nat) (sh : Shaper W) (evs : List StateChange) : Shaper W × List Event × LoopStatus :=
  let r := runLoop c fuel sh evs
  match r.2.2 with
  | LoopStatus.exited =>
    ({ r.1 with heldError := ReportExitTo false r.1.heldError },
      Event.readerCycle 0 :: r.2.1, LoopStatus.exited)
  | LoopStatus.panicked =>
    ({ r.1 with heldError := ReportExitTo true r.1.heldError },
      Event.readerCycle 0 :: r.2.1, LoopStatus.panicked)
  | LoopStatus.running => (r.1, Event.readerCycle 0 :: r.2.1, LoopStatus.running)
  | LoopStatus.outOfFuel => (r.1, Event.readerCycle 0 :: r.2.1, LoopStatus.outOfFuel)

/-- `NewShaper`: the collaborators are in state `w`. -/
def NewShaper {W : Type} (c : Collaborators W) (w : W) : Shaper W × Option Error :=
  ({ world := w
     reader := { heldError := none }
     inBuf := List.replicate shaperBufSize 0
     timer := { heldError := none }
     outBuf := List.replicate (c.MaxPacketLength w) 0
     outPending := []
     pullBuf := List.replicate shaperBufSize 0
     heldError := none }, none)

/-- `Shaper.Error`. -/
def Shaper.Error {W : Type} (sh : Shaper W) : Option Error :=
  sh.heldError

/-- One iteration of the loop of `shaperReader.run` after an offset was
received: `rd` is what `readFrom.Read` returned.  The result is the reader
and what its advance channel then carries, `none` for its closure. -/
def shaperReader.runOnce (sr : shaperReader) (rd : Int × Option Error) : shaperReader × Option Int :=
  if rd.2 ≠ none then ({ sr with heldError := rd.2 }, none) else (sr, some rd.1)

/-! ## Reading a trace -/

/-- The concatenation of the results of the `EncodeBytes` calls of a trace. -/
def encodedOf : List Event → List Byte
  | [] => []
  | Event.EncodeBytes _ encoded :: evs => encoded ++ encodedOf evs
  | _ :: evs => encodedOf evs

/-- The concatenation of the arguments of the `Write` calls of a trace. -/
def writtenOf : List Event → List Byte
  | [] => []
  | Event.Write p :: evs => p ++ writtenOf evs
  | _ :: evs => writtenOf evs

/-- The arguments of the `Write` calls of a trace, one per call. -/
def writesOf : List Event → List (List Byte)
  | [] => []
  | Event.Write p :: evs => p :: writesOf evs
  | _ :: evs => writesOf evs

/-- The errors returned by the `PullWrite` calls of a trace, one per call. -/
def pullErrsOf : List Event → List (Option Error)
  | [] => []
  | Event.PullWrite _ err :: evs => err :: pullErrsOf evs
  | _ :: evs => pullErrsOf evs

/-- The number of `EncodeBytes` calls of a trace. -/
def encodeCount : List Event → Nat
  | [] => 0
  | Event.EncodeBytes _ _ :: evs => encodeCount evs + 1
  | _ :: evs => encodeCount evs

/-! ## The loop of `handleTimer`, one iteration at a time -/

/-- The loop state after the branch that drains the pending queue. -/
def pendStep {W : Type} (st : FillState W) : FillState W :=
  { sh := { st.sh with
      outBuf := (copyInto st.sh.outBuf st.outTail st.sh.outPending).1
      outPending := st.sh.outPending.drop (copyInto st.sh.outBuf st.outTail st.sh.outPending).2 }
    outValid := st.outValid + (copyInto st.sh.outBuf st.outTail st.sh.outPending).2
    outTail := st.outTail.drop (copyInto st.sh.outBuf st.outTail st.sh.outPending).2
    trace := st.trace }

/-- The error of the `PullWrite` call made from loop state `st`. -/
def pullErr {W : Type} (c : Collaborators W) (st : FillState W) : Option Error :=
  (c.PullWrite st.sh.world st.sh.pullBuf.length).1.2.2

/-- The count of the `PullWrite` call made from loop state `st`. -/
def pullCount {W : Type} (c : Collaborators W) (st : FillState W) : Int :=
  (c.PullWrite st.sh.world st.sh.pullBuf.length).1.2.1

/-- The pull buffer after the `PullWrite` call made from loop state `st`. -/
def pulledBuf {W : Type} (c : Collaborators W) (st : FillState W) : List Byte :=
  ((c.PullWrite st.sh.world st.sh.pullBuf.length).1.1.take st.sh.pullBuf.length) ++
    st.sh.pullBuf.drop (c.PullWrite st.sh.world st.sh.pullBuf.length).1.1.length

/-- The loop state right after the `PullWrite` call. -/
def pullPre {W : Type} (c : Collaborators W) (st : FillState W) : FillState W :=
  { st with
    sh := { st.sh with
      world := (c.PullWrite st.sh.world st.sh.pullBuf.length).2
      pullBuf := pulledBuf c st }
    trace := st.trace ++ [Event.PullWrite (pullCount c st) (pullErr c st)] }

/-- The argument of the `EncodeBytes` call of the iteration from `st`. -/
def pullPlain {W : Type} (c : Collaborators W) (st : FillState W) : List Byte :=
  (pulledBuf c st).take (pullCount c st).toNat

/-- The result of the `EncodeBytes` call of the iteration from `st`. -/
def pullEncoded {W : Type} (c : Collaborators W) (st : FillState W) : List Byte :=
  (c.EncodeBytes (c.PullWrite st.sh.world st.sh.pullBuf.length).2 (pullPlain c st)).1

/-- The loop state at the end of an iteration that pulled and encoded. -/
def pullStep {W : Type} (c : Collaborators W) (st : FillState W) : FillState W :=
  { sh := { st.sh with
      world := (c.EncodeBytes (c.PullWrite st.sh.world st.sh.pullBuf.length).2 (pullPlain c st)).2
      pullBuf := pulledBuf c st
      outBuf := (copyInto st.sh.outBuf st.outTail (pullEncoded c st)).1
      outPending :=
        if ((pullEncoded c st).drop (copyInto st.sh.outBuf st.outTail (pullEncoded c st)).2).length > 0
        then st.sh.outPending ++
          (pullEncoded c st).drop (copyInto st.sh.outBuf st.outTail (pullEncoded c st)).2
        else st.sh.outPending }
    outValid := st.outValid + (copyInto st.sh.outBuf st.outTail (pullEncoded c st)).2
    outTail := st.outTail.drop (copyInto st.sh.outBuf st.outTail (pullEncoded c st)).2
    trace := st.trace ++ [Event.PullWrite (pullCount c st) (pullErr c st)] ++
      [Event.EncodeBytes (pullPlain c st) (pullEncoded c st)] }

/-- A call of the loop that does not end the filling: a `PullWrite` that
returned no error, or an `EncodeBytes`. -/
def Event.isQuiet : Event → Bool
  | Event.PullWrite _ none => true
  | Event.EncodeBytes _ _ => true
  | _ => false

/-- The loop state is consistent: `outTail` starts where the valid bytes of
`outBuf` end, and lies inside `outBuf`. -/
def WindowOk {W : Type} (st : FillState W) : Prop :=
  st.outValid = st.outTail.off ∧ st.outTail.off + st.outTail.len ≤ st.sh.outBuf.length

/-- The calls `evs` made by the loop, by the way the loop ended in `st1`. -/
def TraceShape {W : Type} (st1 : FillState W) (evs : List Event) : FillExit → Prop
  | FillExit.done =>
    (st1.outTail.len = 0 ∧ ∀ ev ∈ evs, ev.isQuiet = true) ∨
    (∃ evs0 n p e, evs = evs0 ++
        [Event.PullWrite n (some Error.ErrNoProgress), Event.EncodeBytes p e] ∧
      ∀ ev ∈ evs0, ev.isQuiet = true)
  | FillExit.fatal err =>
    err ≠ Error.ErrNoProgress ∧
    ∃ evs0 n, evs = evs0 ++ [Event.PullWrite n (some err)] ∧ ∀ ev ∈ evs0, ev.isQuiet = true
  | FillExit.panicked =>
    ∃ evs0 n err, evs = evs0 ++ [Event.PullWrite n err] ∧
      (err = none ∨ err = some Error.ErrNoProgress) ∧ ∀ ev ∈ evs0, ev.isQuiet = true
  | FillExit.outOfFuel => ∀ ev ∈ evs, ev.isQuiet = true

/-- The relation between a consistent loop state and the state the loop
reaches from it. -/
def FillRel {W : Type} (st st1 : FillState W) (ex : FillExit) : Prop :=
  WindowOk st →
    WindowOk st1 ∧
    st1.outValid + st1.outTail.len = st.outValid + st.outTail.len ∧
    st1.sh.outBuf.length = st.sh.outBuf.length ∧
    st1.sh.heldError = st.sh.heldError ∧
    ∃ evs, st1.trace = st.trace ++ evs ∧
      st1.sh.outBuf.take st1.outValid ++ st1.sh.outPending =
        st.sh.outBuf.take st.outValid ++ st.sh.outPending ++ encodedOf evs ∧
      TraceShape st1 evs ex

/-! ## What one tick establishes -/

/-- The loop state in which `handleTimer` enters its loop. -/
def tickStart {W : Type} (c : Collaborators W) (sh : Shaper W) : FillState W :=
  { sh := { sh with world := (c.NextPacketSleep (c.NextPacketLength sh.world).2).2 }
    outValid := 0
    outTail := { off := 0, len := (c.NextPacketLength sh.world).1.toNat }
    trace := [Event.timerCycle (c.NextPacketSleep (c.NextPacketLength sh.world).2).1] }

/-- The calls of the loop of a tick whose loop ran to its end, where the
packet handed to `Write` has length `n` and the requested length is `L`:
either the packet is full and every `PullWrite` returned no error, or the
last `PullWrite` returned the no-progress sentinel, was followed by its
`EncodeBytes`, and every earlier one returned no error. -/
def DoneShape (evs : List Event) (n : Nat) (L : Int) : Prop :=
  ((n : Int) = L ∧ ∀ ev ∈ evs, ev.isQuiet = true) ∨
  (∃ evs0 k p e, evs = evs0 ++
      [Event.PullWrite k (some Error.ErrNoProgress), Event.EncodeBytes p e] ∧
    ∀ ev ∈ evs0, ev.isQuiet = true)

/-- The result `r` of a tick from shaper `sh` with requested length `L`, by
the way the tick ended. -/
def TickSpec {W : Type} (c : Collaborators W) (sh : Shaper W) (L : Int)
    (r : Handled W (Option Error)) : Prop :=
  r.sh.heldError = sh.heldError ∧
  ∃ d, match r.exit with
    | Exit.returned err =>
      (∃ evs p w, r.trace = Event.timerCycle d :: evs ++ [Event.Write p] ∧
        0 ≤ L ∧ L ≤ (sh.outBuf.length : Int) ∧ r.sh.outBuf.length = sh.outBuf.length ∧
        p ++ r.sh.outPending = sh.outPending ++ encodedOf evs ∧
        (p.length : Int) ≤ L ∧ DoneShape evs p.length L ∧
        err = (c.Write w p).1.2) ∨
      (∃ e n evs0, err = some e ∧ e ≠ Error.ErrNoProgress ∧
        r.trace = Event.timerCycle d :: evs0 ++ [Event.PullWrite n (some e)] ∧
        ∀ ev ∈ evs0, ev.isQuiet = true)
    | Exit.panicked =>
      r.trace = [Event.timerCycle d] ∨
      ∃ evs0 n err, r.trace = Event.timerCycle d :: evs0 ++ [Event.PullWrite n err] ∧
        (err = none ∨ err = some Error.ErrNoProgress) ∧ ∀ ev ∈ evs0, ev.isQuiet = true
    | Exit.outOfFuel =>
      ∃ evs, r.trace = Event.timerCycle d :: evs ∧ ∀ ev ∈ evs, ev.isQuiet = true

/-! ## A concrete run: the encoder that doubles its input -/

/-- Collaborators for the carry-over scenario; the state counts the
`PullWrite` calls.  The first `PullWrite` yields the 40 bytes 0..39, every
later one reports no progress; `EncodeBytes` doubles its input; every packet
is requested with length 50; `Write` accepts everything. -/
def doubling : Collaborators Nat where
  PullWrite := fun w _ =>
    if w = 0 then (((List.range 40).map Nat.toUInt8, 40, none), w + 1)
    else (([], 0, some Error.ErrNoProgress), w + 1)
  PushRead := fun w p => ((p.length, none), w)
  DecodeBytes := fun w p => (p, w)
  MaxPacketLength := fun _ => 100
  NextPacketLength := fun w => (50, w)
  NextPacketSleep := fun w => (10, w)
  EncodeBytes := fun w p => (p ++ p, w)
  Write := fun w p => ((p.length, none), w)

/-- The shaper `NewShaper` makes for the doubling scenario. -/
def doublingShaper : Shaper Nat := (NewShaper doubling 0).1

/-! ## Concrete runs that end with an error -/

/-- Collaborators whose crypto session fails: as `doubling`, but every
`PullWrite` returns the error `other 7`. -/
def failing : Collaborators Nat :=
  { doubling with PullWrite := fun w _ => (([], 0, some (Error.other 7)), w + 1) }

/-- The doubling shaper after its reader got the error `e` from its source:
the reader stored `e` in its own slot and closed its advance channel. -/
def readerFailed (e : Error) : Shaper Nat :=
  { doublingShaper with reader := (doublingShaper.reader.runOnce (0, some e)).1 }

/-! ## Further scenarios and relations of the packet loop -/

/-- What the loop has placed in the packet so far. -/
def FillState.packet {W : Type} (st : FillState W) : List Byte :=
  st.sh.outBuf.take st.outValid

/-- The relation between a loop state and the state the loop reaches from it
that describes each `PullWrite` call: the packet only grows, and when a
`PullWrite` is made, all that was pending or was encoded before the call is
in the packet. -/
def PullRel {W : Type} (st st1 : FillState W) : Prop :=
  WindowOk st →
    st.packet <+: st1.packet ∧
    ∃ evs, st1.trace = st.trace ++ evs ∧
      ∀ pre n e post, evs = pre ++ Event.PullWrite n e :: post →
        (st.packet ++ st.sh.outPending ++ encodedOf pre) <+: st1.packet

/-- Collaborators on which the loop of `handleTimer` makes no progress:
`PullWrite` always returns zero bytes and no error, `EncodeBytes` returns the
empty slice, every packet is requested with length 1. -/
def stalled : Collaborators Unit where
  PullWrite := fun w _ => (([], 0, none), w)
  PushRead := fun w p => ((p.length, none), w)
  DecodeBytes := fun w p => (p, w)
  MaxPacketLength := fun _ => 1
  NextPacketLength := fun w => (1, w)
  NextPacketSleep := fun w => (10, w)
  EncodeBytes := fun w _ => ([], w)
  Write := fun w p => ((p.length, none), w)

/-- Collaborators whose encode model frames its input: as `doubling`, but
`EncodeBytes` puts one byte before its input. -/
def framing : Collaborators Nat :=
  { doubling with EncodeBytes := fun w p => (0 :: p, w) }

/-- Collaborators whose encode model expands its input beyond a packet: as
`doubling`, but `EncodeBytes` returns 200 bytes whatever its input, twice the
maximum packet length. -/
def expanding : Collaborators Nat :=
  { doubling with EncodeBytes := fun w _ => (List.replicate 200 7, w) }

/-- The pending queue is at most `B` long and the pull buffer at most `N`. -/
def Bounded {W : Type} (B N : Nat) (sh : Shaper W) : Prop :=
  sh.outPending.length ≤ B ∧ sh.pullBuf.length ≤ N

/-- Collaborators whose outbound sink fails: as `doubling`, but every `Write`
accepts nothing and reports the error `other 9`. -/
def rejectingSink : Collaborators Nat :=
  { doubling with Write := fun w _ => ((0, some (Error.other 9)), w) }

/-! ## Strings, numbers and maps of the identity code -/

deriving instance DecidableEq for Except

/-- `strings.IndexRune(s, c)`, `none` for -1. -/
def IndexRune : Str → Char → Option Nat
  | [], _ => none
  | x :: xs, c => if x = c then some 0 else (IndexRune xs c).map (· + 1)

/-- `strings.LastIndex(s, string(c))`, `none` for -1. -/
def LastIndex : Str → Char → Option Nat
  | [], _ => none
  | x :: xs, c =>
    match LastIndex xs c with
    | some i => some (i + 1)
    | none => if x = c then some 0 else none

/-- `strings.HasPrefix`. -/
def HasPrefix (s p : Str) : Bool := p.isPrefixOf s

/-- `strings.HasSuffix`. -/
def HasSuffix (s p : Str) : Bool := p.isSuffixOf s

/-- `strings.ContainsAny(s, "\r\n")`. -/
def ContainsCRLF (s : Str) : Bool := s.any (fun c => c = '\r' || c = '\n')

/-- `strings.Join(lines, "\n")`. -/
def JoinLF : List Str → Str
  | [] => []
  | [l] => l
  | l :: ls => l ++ '\n' :: JoinLF ls

/-- The decimal digit `d`. -/
def digitChar (d : Nat) : Char := Char.ofNat (48 + d)

/-- The decimal digits of `n`, most significant first, `fuel` digits at most. -/
def formatDigits : Nat → Nat → Str
  | 0, _ => []
  | fuel + 1, n =>
    if n < 10 then [digitChar n] else formatDigits fuel (n / 10) ++ [digitChar (n % 10)]

/-- `strconv.FormatUint(n, 10)`. -/
def FormatUint (n : Nat) : Str := formatDigits (n + 1) n

/-- `strconv.Itoa`, as `net.TCPAddr.String` uses it for the port. -/
def Itoa (i : Int) : Str :=
  if i < 0 then '-' :: FormatUint (-i).toNat else FormatUint i.toNat

def isDigit (c : Char) : Bool := 48 ≤ c.toNat && c.toNat ≤ 57

/-- The number a string of decimal digits denotes. -/
def digitsValue (s : Str) : Nat := s.foldl (fun acc c => acc * 10 + (c.toNat - 48)) 0

/-- The loop over the characters of `strconv.ParseUint(s0, 10, bitSize)`: a
character that is no decimal digit is a syntax error, a value that no longer
fits `bitSize` bits is a range error. -/
def parseUintLoop (s0 : Str) (bitSize : Nat) : Str → Nat → Except Error Nat
  | [], n => Except.ok n
  | c :: cs, n =>
    if isDigit c then
      if n * 10 + (c.toNat - 48) < 2 ^ bitSize then
        parseUintLoop s0 bitSize cs (n * 10 + (c.toNat - 48))
      else Except.error (Error.NumError s0 true)
    else Except.error (Error.NumError s0 false)

/-- `strconv.ParseUint(s, 10, bitSize)` for a `bitSize` other than 0. -/
def ParseUint (s : Str) (bitSize : Nat) : Except Error Nat :=
  if s = [] then Except.error (Error.NumError s false) else parseUintLoop s bitSize s 0

/-- A Go `map[string]β`: a list of entries with distinct keys.  A `range` over
the map visits the entries in the order of the list. -/
abbrev GoMap (β : Type) := List (Str × β)

/-- The map read `v, ok := m[k]`. -/
def GoMap.get {β : Type} : GoMap β → Str → Option β
  | [], _ => none
  | (k1, v) :: m, k => if k1 = k then some v else GoMap.get m k

/-- The map write `m[k] = v`. -/
def GoMap.set {β : Type} : GoMap β → Str → β → GoMap β
  | [], k, v => [(k, v)]
  | (k1, v1) :: m, k, v => if k1 = k then (k, v) :: m else (k1, v1) :: GoMap.set m k v

/-- The keys of a map, in the order of a `range`. -/
def GoMap.keys {β : Type} (m : GoMap β) : List Str := m.map Prod.fst

/-! ## Identity records -/

/-- `net.TCPAddr`. -/
structure TCPAddr where
  IP : List Byte
  Port : Int
  Zone : Str
  deriving DecidableEq, Repr

structure endpointAddress where
  tcpAddr : TCPAddr
  idBytes : List Byte
  deriving DecidableEq, Repr

structure modelSpec where
  name : Str
  params : GoMap Str
  deriving DecidableEq, Repr

/-- Modelled from the spec: `crypting.Params` is declared outside the
embedded files; of the crypting parameters the spec names the MTU only. -/
structure Params where
  MTU : Int
  deriving DecidableEq, Repr

structure endpointConfig where
  endpointAddress : endpointAddress
  modelSpec : modelSpec
  cryptingParams : Params
  deriving DecidableEq, Repr

/-- `prim.Public`: the uniform representation, which is what the text form
carries, and what `recompute` derives from it. -/
structure Public where
  uniform : List Byte
  derived : List Byte
  deriving DecidableEq, Repr

/-- `prim.Private`: the private key and the public key `recompute` derives. -/
structure Private where
  «private» : List Byte
  «public» : Public
  deriving DecidableEq, Repr

structure BridgeLine where
  Nickname : Str
  Address : Str
  Params : GoMap Str
  deriving DecidableEq, Repr

structure ServerPublic where
  nickname : Str
  endpointConfig : endpointConfig
  longtermPublic : Public
  deriving DecidableEq, Repr

structure ServerPrivate where
  nickname : Str
  endpointConfig : endpointConfig
  longtermPrivate : Private
  deriving DecidableEq, Repr

/-- What the identity code uses and the embedded files do not define: of the
Go library `net.ParseIP`, `net.IP.String` and the size of `int`; of this
repository `crypting.IdentityBytesOfNetworkAddress`, `crypting.ValidateParams`,
`defCryptingParams`, `magicLine`, and of package `prim` the functions
`decodeText`, `encodeText` and the two `recompute` methods. -/
structure Deps where
  ParseIP : Str → Option (List Byte)
  IPString : List Byte → Str
  IntSize : Nat
  IdentityBytesOfNetworkAddress : TCPAddr → Except Error (List Byte)
  ValidateParams : Params → Option Error
  defCryptingParams : Params
  magicLine : Str
  decodeText : Str → Option (List Byte)
  encodeText : List Byte → Str
  recomputePublic : List Byte → Except Error (List Byte)
  recomputePrivate : List Byte → Except Error Public

/-- Modelled from the spec: the parameter keys `bridgeParamPublicKey`,
`bridgeParamModel` and `bridgeParamMTU` are declared outside the embedded
files; the spec gives them as `p`, `m` and `mtu`. -/
def bridgeParamPublicKey : Str := ['p']

/-- Modelled from the spec: the parameter key `m` of the model name. -/
def bridgeParamModel : Str := ['m']

/-- Modelled from the spec: the parameter key `mtu`. -/
def bridgeParamMTU : Str := ['m', 't', 'u']

def ErrNoMagic : Error :=
  Error.ParameterError ParameterErrorKind.ParameterMissing "magic line".toList []

def ErrNoAddress : Error :=
  Error.ParameterError ParameterErrorKind.ParameterMissing "network address".toList []

def ErrNoPrivateKey : Error :=
  Error.ParameterError ParameterErrorKind.ParameterMissing "private key".toList []

def ErrNoPublicKey : Error :=
  Error.ParameterError ParameterErrorKind.ParameterMissing "public key".toList []

def ErrNoModelName : Error :=
  Error.ParameterError ParameterErrorKind.ParameterMissing "model name".toList []

def ErrInvalidAddress : Error :=
  Error.ParameterError ParameterErrorKind.ParameterInvalid "network address".toList []

def ErrInvalidModelName : Error :=
  Error.ParameterError ParameterErrorKind.ParameterInvalid "model name".toList []

/-- The conversion `uint64(i)` of a Go `int`. -/
def toUint64 (i : Int) : Nat := (i % 2 ^ 64).toNat

/-- The conversion `int(u)` of a Go `uint64`, for an `int` of `size` bits. -/
def toInt (size : Nat) (u : Nat) : Int :=
  if u % 2 ^ size < 2 ^ (size - 1) then (u % 2 ^ size : Nat) else (u % 2 ^ size : Nat) - 2 ^ size

/-- `net.JoinHostPort`. -/
def JoinHostPort (host port : Str) : Str :=
  if IndexRune host ':' ≠ none then '[' :: host ++ ']' :: ':' :: port
  else host ++ ':' :: port

/-- `net.TCPAddr.String`: an empty IP prints as the empty string. -/
def TCPAddr.String (d : Deps) (a : TCPAddr) : Str :=
  let ip := if a.IP.length = 0 then [] else d.IPString a.IP
  if a.Zone ≠ [] then JoinHostPort (ip ++ '%' :: a.Zone) (Itoa a.Port)
  else JoinHostPort ip (Itoa a.Port)

def parseEndpointAddress (d : Deps) (addrString : Str) : Except Error endpointAddress :=
  match LastIndex addrString ':' with
  | none => Except.error ErrInvalidAddress
  | some colonIndex =>
    let hostString := addrString.take colonIndex
    let portString := addrString.drop (colonIndex + 1)
    if HasPrefix hostString ['['] && HasSuffix hostString [']'] then
      let hostString1 := (hostString.take (hostString.length - 1)).drop 1
      match d.ParseIP hostString1 with
      | none => Except.error ErrInvalidAddress
      | some ip =>
        match ParseUint portString 16 with
        | Except.error _ => Except.error ErrInvalidAddress
        | Except.ok port =>
          let tcpAddr : TCPAddr := { IP := ip, Port := port, Zone := [] }
          match d.IdentityBytesOfNetworkAddress tcpAddr with
          | Except.error _ => Except.error ErrInvalidAddress
          | Except.ok idBytes => Except.ok { tcpAddr := tcpAddr, idBytes := idBytes }
    else if IndexRune hostString ':' ≠ none then Except.error ErrInvalidAddress
    else
      match d.ParseIP hostString with
      | none => Except.error ErrInvalidAddress
      | some ip =>
        match ParseUint portString 16 with
        | Except.error _ => Except.error ErrInvalidAddress
        | Except.ok port =>
          let tcpAddr : TCPAddr := { IP := ip, Port := port, Zone := [] }
          match d.IdentityBytesOfNetworkAddress tcpAddr with
          | Except.error _ => Except.error ErrInvalidAddress
          | Except.ok idBytes => Except.ok { tcpAddr := tcpAddr, idBytes := idBytes }

/-- The loop `for key, val := range params` of `extractModelSpec`: the model
parameters and the acknowledged set after the entries `entries`. -/
def extractLoop ( subprefix : Str) :
    List (Str × Str) → GoMap Str → GoMap Bool → GoMap Str × GoMap Bool
  | [], modelParams, ackedParams => (modelParams, ackedParams)
  | (key, val) :: entries, modelParams, ackedParams =>
    if HasPrefix key subprefix then
      extractLoop subprefix entries (modelParams.set (key.drop subprefix.length) val)
        (ackedParams.set key true)
    else extractLoop subprefix entries modelParams ackedParams

/-- `extractModelSpec`; the second component is `ackedParams` afterwards. -/
def extractModelSpec (params : GoMap Str) (ackedParams : GoMap Bool) (topKey : Str) :
    Except Error modelSpec × GoMap Bool :=
  match params.get topKey with
  | none => (Except.error ErrNoModelName, ackedParams)
  | some modelName =>
    let r := extractLoop (topKey ++ ['.']) params [] (ackedParams.set topKey true)
    (Except.ok { name := modelName, params := r.1 }, r.2)

/-- `insertModelSpec`; the result is `params` afterwards. -/
def insertModelSpec (ms : modelSpec) (params : GoMap Str) (topKey : Str) : GoMap Str :=
  ms.params.foldl (fun acc kv => acc.set (topKey ++ ['.'] ++ kv.1) kv.2) (params.set topKey ms.name)

/-- `loadCryptingParams`; the second component is `ackedParams` afterwards. -/
def loadCryptingParams (d : Deps) (params : GoMap Str) (ackedParams : GoMap Bool) :
    Except Error Params × GoMap Bool :=
  match params.get bridgeParamMTU with
  | some mtuStr =>
    match ParseUint mtuStr d.IntSize with
    | Except.error err => (Except.error err, ackedParams)
    | Except.ok mtu =>
      let result : Params := { d.defCryptingParams with MTU := toInt d.IntSize mtu }
      match d.ValidateParams result with
      | some err => (Except.error err, ackedParams.set bridgeParamMTU true)
      | none => (Except.ok result, ackedParams.set bridgeParamMTU true)
  | none =>
    match d.ValidateParams d.defCryptingParams with
    | some err => (Except.error err, ackedParams)
    | none => (Except.ok d.defCryptingParams, ackedParams)

/-- `loadEndpointConfigBridgeLine`; the second component is `ackedParams`
afterwards. -/
def loadEndpointConfigBridgeLine (d : Deps) (bline : BridgeLine) (ackedParams : GoMap Bool) :
    Except Error endpointConfig × GoMap Bool :=
  match parseEndpointAddress d bline.Address with
  | Except.error err => (Except.error err, ackedParams)
  | Except.ok endpointAddress =>
    match extractModelSpec bline.Params ackedParams bridgeParamModel with
    | (Except.error err, acked1) => (Except.error err, acked1)
    | (Except.ok modelSpec, acked1) =>
      match loadCryptingParams d bline.Params acked1 with
      | (Except.error err, acked2) => (Except.error err, acked2)
      | (Except.ok cryptingParams, acked2) =>
        (Except.ok { endpointAddress := endpointAddress, modelSpec := modelSpec,
                     cryptingParams := cryptingParams }, acked2)

/-- Modelled from the spec: `CheckUnackedParams` is declared outside the
embedded files.  By the spec a key of the parameters that no extractor
acknowledged is an error of the kind for unknown parameters, tagged with the
offending key ("unacknowledged parameter: zz"); the key reported is the
first one the `range` over the parameters meets. -/
def CheckUnackedParams (params : GoMap Str) (ackedParams : GoMap Bool) : Option Error :=
  match params.find? (fun kv => (ackedParams.get kv.1) != some true) with
  | some kv =>
    some (Error.ParameterError ParameterErrorKind.ParameterUnknown "parameter".toList kv.1)
  | none => none

/-- `prim.LoadPublicText`. -/
def LoadPublicText (d : Deps) (s : Str) : Except Error Public :=
  match d.decodeText s with
  | none => Except.error Error.ErrBadPublicKey
  | some uniform =>
    match d.recomputePublic uniform with
    | Except.error err => Except.error err
    | Except.ok derived => Except.ok { uniform := uniform, derived := derived }

/-- `prim.LoadPrivateText`. -/
def LoadPrivateText (d : Deps) (s : Str) : Except Error Private :=
  match d.decodeText s with
  | none => Except.error Error.ErrBadPrivateKey
  | some priv =>
    match d.recomputePrivate priv with
    | Except.error err => Except.error err
    | Except.ok pub => Except.ok { «private» := priv, «public» := pub }

/-- `prim.Public.Text`. -/
def Public.Text (d : Deps) (pub : Public) : Str := d.encodeText pub.uniform

/-- `prim.Private.PrivateText`. -/
def Private.PrivateText (d : Deps) (priv : Private) : Str := d.encodeText priv.«private»

/-- `LoadServerPublicBridgeLine`. -/
def LoadServerPublicBridgeLine (d : Deps) (bline : BridgeLine) : Except Error ServerPublic :=
  match loadEndpointConfigBridgeLine d bline [] with
  | (Except.error err, _) => Except.error err
  | (Except.ok endpointConfig, acked1) =>
    match bline.Params.get bridgeParamPublicKey with
    | none => Except.error ErrNoPublicKey
    | some publicString =>
      match LoadPublicText d publicString with
      | Except.error err => Except.error err
      | Except.ok longtermPublic =>
        match CheckUnackedParams bline.Params (acked1.set bridgeParamPublicKey true) with
        | some err => Except.error err
        | none =>
          Except.ok { nickname := bline.Nickname, endpointConfig := endpointConfig,
                      longtermPublic := longtermPublic }

/-- `ServerPublic.BridgeLine`. -/
def ServerPublic.BridgeLine (d : Deps) (spub : ServerPublic) : BridgeLine :=
  let addrString := spub.endpointConfig.endpointAddress.tcpAddr.String d
  let params0 : GoMap Str := [(bridgeParamPublicKey, spub.longtermPublic.Text d)]
  let params1 : GoMap Str :=
    if spub.endpointConfig.cryptingParams.MTU ≠ d.defCryptingParams.MTU then
      params0.set bridgeParamMTU (FormatUint (toUint64 spub.endpointConfig.cryptingParams.MTU))
    else params0
  { Nickname := spub.nickname, Address := addrString,
    Params := insertModelSpec spub.endpointConfig.modelSpec params1 ['m'] }

/-- `bufio.ScanLines` at end of input: drop one trailing CR of a line. -/
def dropCR (line : Str) : Str :=
  if HasSuffix line ['\r'] then line.take (line.length - 1) else line

/-- `bufio.MaxScanTokenSize`, the size beyond which the buffer of a
`bufio.Scanner` does not grow. -/
def MaxScanTokenSize : Nat := 64 * 1024

/-- The length of a string in bytes. -/
def utf8Len (s : Str) : Nat := (s.map Char.utf8Size).sum

/-- The lines a `bufio.Scanner` with the default split function and buffer
yields on a reader that delivers `content` and then ends with `readErr`
(`none` for `io.EOF`), given the part `cur` of the current line read so far;
and the value of `lines.Err()` once `Scan` has returned false.  A line ends at
LF, one CR before it is dropped, and a last line without LF is a line if it is
not empty.  `Scan` finds a line only if the line and its LF fit the buffer of
`MaxScanTokenSize` bytes: when the bytes of the current line fill the buffer,
`Scan` returns false and the error is `bufio.ErrTooLong`. -/
def scanLinesFrom (readErr : Option Error) : Str → Str → List Str × Option Error
  | [], cur =>
    if cur = [] then ([], readErr)
    else if MaxScanTokenSize ≤ utf8Len cur then ([], some Error.ErrTooLong)
    else ([dropCR cur], readErr)
  | c :: rest, cur =>
    if c = '\n' then
      if MaxScanTokenSize ≤ utf8Len cur then ([], some Error.ErrTooLong)
      else (dropCR cur :: (scanLinesFrom readErr rest []).1, (scanLinesFrom readErr rest []).2)
    else scanLinesFrom readErr rest (cur ++ [c])

def scanLines (readErr : Option Error) (content : Str) : List Str × Option Error :=
  scanLinesFrom readErr content []

/-- The closure `scanErrorOr` of `LoadServerPrivateFile`: the error of the
scanner if it has one, `otherError` otherwise. -/
def scanErrorOr (scanError : Option Error) (otherError : Error) : Error :=
  match scanError with
  | some err => err
  | none => otherError

/-- The loop `for lines.Scan()` of `LoadServerPrivateFile` over the lines
`lines`, from the parameters `params`. -/
def paramLoop : List Str → GoMap Str → Except Error (GoMap Str)
  | [], params => Except.ok params
  | paramLine :: lines, params =>
    match IndexRune paramLine '=' with
    | none => Except.error Error.ErrSyntax
    | some equals =>
      paramLoop lines (params.set (paramLine.take equals) (paramLine.drop (equals + 1)))

/-- `LoadServerPrivateFile`, from what the reads of the opened file deliver:
`content`, and then `readErr` (`none` for `io.EOF`). -/
def LoadServerPrivateFile (d : Deps) (content : Str) (readErr : Option Error) :
    Except Error ServerPrivate :=
  match scanLines readErr content with
  | ([], scanError) => Except.error (scanErrorOr scanError Error.ErrSyntax)
  | (magic :: lines1, scanError) =>
    if magic ≠ d.magicLine then Except.error ErrNoMagic
    else
      match lines1 with
      | [] => Except.error (scanErrorOr scanError Error.ErrSyntax)
      | nickname :: lines2 =>
        match lines2 with
        | [] => Except.error (scanErrorOr scanError ErrNoAddress)
        | addrLine :: lines3 =>
          match parseEndpointAddress d addrLine with
          | Except.error err => Except.error err
          | Except.ok endpointAddress =>
            match lines3 with
            | [] => Except.error (scanErrorOr scanError ErrNoPrivateKey)
            | privateLine :: lines4 =>
              match LoadPrivateText d privateLine with
              | Except.error err => Except.error err
              | Except.ok priv =>
                match paramLoop lines4 [] with
                | Except.error err => Except.error err
                | Except.ok params =>
                  match scanError with
                  | some err => Except.error err
                  | none =>
                    match extractModelSpec params [] bridgeParamModel with
                    | (Except.error err, _) => Except.error err
                    | (Except.ok modelSpec, acked1) =>
                      match loadCryptingParams d params acked1 with
                      | (Except.error err, _) => Except.error err
                      | (Except.ok cryptingParams, acked2) =>
                        match CheckUnackedParams params acked2 with
                        | some err => Except.error err
                        | none =>
                          Except.ok
                            { nickname := nickname
                              endpointConfig :=
                                { endpointAddress := endpointAddress, modelSpec := modelSpec,
                                  cryptingParams := cryptingParams }
                              longtermPrivate := priv }

/-- Modelled from the spec: `ServerPrivate.Public` is declared outside the
embedded files.  By the spec the public identity is the private one without
the private key, with the public key derived from it. -/
def ServerPrivate.Public (spriv : ServerPrivate) : ServerPublic :=
  { nickname := spriv.nickname, endpointConfig := spriv.endpointConfig,
    longtermPublic := spriv.longtermPrivate.«public» }

/-- The loop `for key, val := range ...Params` of `SavePrivateFile`. -/
def saveParamLines : List (Str × Str) → List Str → Except Error (List Str)
  | [], paramLines => Except.ok paramLines
  | (key, val) :: entries, paramLines =>
    if ContainsCRLF key || ContainsCRLF val then Except.error Error.ErrSyntax
    else if key = bridgeParamPublicKey then saveParamLines entries paramLines
    else saveParamLines entries (paramLines ++ [key ++ '=' :: val])

/-- `ServerPrivate.SavePrivateFile`, up to `contentString`: the error returned
before the file is opened, or the content written to the new file.
`rangeOrder` is the order in which the `range` over the parameter map meets
its entries: a permutation of the entries of `Public().BridgeLine().Params`,
which Go leaves unspecified. -/
def ServerPrivate.SavePrivateFile (d : Deps) (spriv : ServerPrivate)
    (rangeOrder : List (Str × Str)) : Except Error Str :=
  let headerLines : List Str :=
    [d.magicLine, spriv.nickname, spriv.endpointConfig.endpointAddress.tcpAddr.String d,
      spriv.longtermPrivate.PrivateText d]
  if headerLines.any ContainsCRLF then Except.error Error.ErrSyntax
  else
    match saveParamLines rangeOrder [] with
    | Except.error err => Except.error err
    | Except.ok paramLines => Except.ok (JoinLF (headerLines ++ paramLines ++ [[]]))

/-! ## Sample dependencies, for concrete runs -/

/-- The parts of a string between dots. -/
def splitDots : Str → Str → List Str
  | [], cur => [cur]
  | c :: rest, cur => if c = '.' then cur :: splitDots rest [] else splitDots rest (cur ++ [c])

/-- A stand-in for `net.ParseIP` that knows dotted IPv4 literals only. -/
def sampleParseIP (s : Str) : Option (List Byte) :=
  match (splitDots s []).map (fun part => ParseUint part 8) with
  | [Except.ok a, Except.ok b, Except.ok c, Except.ok e] =>
    some [a.toUInt8, b.toUInt8, c.toUInt8, e.toUInt8]
  | _ => none

/-- A stand-in for `net.IP.String`: the bytes in decimal, with dots between. -/
def sampleIPString : List Byte → Str
  | [] => []
  | [b] => FormatUint b.toNat
  | b :: bs => FormatUint b.toNat ++ '.' :: sampleIPString bs

def hexChar (n : Nat) : Char := "0123456789abcdef".toList.getD n '0'

def hexValue (c : Char) : Option Nat :=
  if 48 ≤ c.toNat ∧ c.toNat ≤ 57 then some (c.toNat - 48)
  else if 97 ≤ c.toNat ∧ c.toNat ≤ 102 then some (c.toNat - 87)
  else none

/-- Bytes as lower-case hexadecimal text. -/
def hexEncode : List Byte → Str
  | [] => []
  | b :: bs => hexChar (b.toNat / 16) :: hexChar (b.toNat % 16) :: hexEncode bs

def hexDecode : Str → Option (List Byte)
  | [] => some []
  | [_] => none
  | hi :: lo :: rest =>
    match hexValue hi, hexValue lo, hexDecode rest with
    | some h, some l, some bs => some ((h * 16 + l).toUInt8 :: bs)
    | _, _, _ => none

/-- Sample dependencies: IPv4 addresses, a 64-bit `int`, keys as 64
hexadecimal characters, a default MTU of 1500 and MTUs below 576 invalid. -/
def sampleDeps : Deps where
  ParseIP := sampleParseIP
  IPString := sampleIPString
  IntSize := 64
  IdentityBytesOfNetworkAddress := fun a =>
    Except.ok (a.IP ++ [(a.Port.toNat / 256).toUInt8, (a.Port.toNat % 256).toUInt8])
  ValidateParams := fun p =>
    if p.MTU < 576 then
      some (Error.ParameterError ParameterErrorKind.ParameterInvalid "mtu".toList [])
    else none
  defCryptingParams := { MTU := 1500 }
  magicLine := "!!Dust-Server-Private!!".toList
  decodeText := fun s => if s.length = 64 then hexDecode s else none
  encodeText := hexEncode
  recomputePublic := fun u => Except.ok u.reverse
  recomputePrivate := fun k => Except.ok { uniform := k.reverse, derived := k }

/-- A sample private key: the bytes 0..31. -/
def sampleKey : List Byte := (List.range 32).map Nat.toUInt8

/-- A sample server private identity with the model parameters `params`. -/
def samplePrivate (params : GoMap Str) : ServerPrivate :=
  { nickname := "bridge".toList
    endpointConfig :=
      { endpointAddress :=
          { tcpAddr := { IP := [127, 0, 0, 1], Port := 8080, Zone := [] }
            idBytes := [127, 0, 0, 1, 31, 144] }
        modelSpec := { name := "sillyHex".toList, params := params }
        cryptingParams := { MTU := 1400 } }
    longtermPrivate :=
      { «private» := sampleKey, «public» := { uniform := sampleKey.reverse, derived := sampleKey } } }

/-! ## Which parameters are acknowledged -/

/-- A parameter key the loaders of a bridge line know: `p`, `m`, `mtu`, or a
key that begins with `m.`. -/
def recognizedKey (k : Str) : Bool :=
  k = bridgeParamPublicKey || k = bridgeParamModel || k = bridgeParamMTU ||
    HasPrefix k (bridgeParamModel ++ ['.'])

/-- The acknowledged set after a `loadCryptingParams` that succeeds. -/
def ackMTU (params : GoMap Str) (ackedParams : GoMap Bool) : GoMap Bool :=
  if (params.get bridgeParamMTU).isSome then ackedParams.set bridgeParamMTU true else ackedParams

/-- The acknowledged set with which `LoadServerPublicBridgeLine` calls
`CheckUnackedParams`, when every earlier step succeeded. -/
def finalAcked (params : GoMap Str) : GoMap Bool :=
  (ackMTU params (extractLoop (bridgeParamModel ++ ['.']) params []
    (GoMap.set [] bridgeParamModel true)).2).set bridgeParamPublicKey true

/-- A bridge line with the unknown parameter `zz=1`. -/
def zzLine : BridgeLine :=
  { Nickname := "bridge".toList
    Address := "127.0.0.1:8080".toList
    Params := [("p".toList, hexEncode sampleKey), ("m".toList, "sillyHex".toList),
      ("zz".toList, "1".toList)] }

/-- The well-formed addresses: no zone, a port of 16 bits, an IP that is what
`net.ParseIP` makes of its own text, and identity bytes that are those of the
address. -/
def WellFormedAddress (d : Deps) (ea : endpointAddress) : Prop :=
  ea.tcpAddr.Zone = [] ∧ 0 ≤ ea.tcpAddr.Port ∧ ea.tcpAddr.Port < 65536 ∧
  ea.tcpAddr.IP ≠ [] ∧
  d.ParseIP (d.IPString ea.tcpAddr.IP) = some ea.tcpAddr.IP ∧
  HasPrefix (d.IPString ea.tcpAddr.IP) ['['] = false ∧
  d.IdentityBytesOfNetworkAddress ea.tcpAddr = Except.ok ea.idBytes

/-- The entries `insertModelSpec` adds for the model parameters `l` under the
top key `topKey`. -/
def subEntries (topKey : Str) (l : GoMap Str) : GoMap Str :=
  l.map (fun kv => (topKey ++ ['.'] ++ kv.1, kv.2))

/-- The model parameters `extractModelSpec` reads off the entries `entries`:
the entries whose key begins with `subprefix`, with that beginning removed. -/
def strippedEntries ( subprefix : Str) (entries : GoMap Str) : GoMap Str :=
  (entries.filter (fun kv => HasPrefix kv.1 subprefix)).map
    (fun kv => (kv.1.drop subprefix.length, kv.2))

/-- The well-formed public identities: a well-formed address, model
parameters that are a map (no key twice), an MTU that is a non-negative `int`
and that `crypting.ValidateParams` accepts, and a public key whose text
decodes to its uniform representation and whose derived part is what
`recompute` derives.  The size of `int` is at most 64 bits. -/
def WellFormedPublic (d : Deps) (p : ServerPublic) : Prop :=
  0 < d.IntSize ∧ d.IntSize ≤ 64 ∧
  WellFormedAddress d p.endpointConfig.endpointAddress ∧
  (GoMap.keys p.endpointConfig.modelSpec.params).Nodup ∧
  0 ≤ p.endpointConfig.cryptingParams.MTU ∧
  p.endpointConfig.cryptingParams.MTU < 2 ^ (d.IntSize - 1) ∧
  d.ValidateParams p.endpointConfig.cryptingParams = none ∧
  d.decodeText (d.encodeText p.longtermPublic.uniform) = some p.longtermPublic.uniform ∧
  d.recomputePublic p.longtermPublic.uniform = Except.ok p.longtermPublic.derived

/-- The parameters of a bridge line before the model spec is inserted. -/
def baseParams (d : Deps) (spub : ServerPublic) : GoMap Str :=
  if spub.endpointConfig.cryptingParams.MTU ≠ d.defCryptingParams.MTU then
    [(bridgeParamPublicKey, spub.longtermPublic.Text d),
      (bridgeParamMTU, FormatUint (toUint64 spub.endpointConfig.cryptingParams.MTU))]
  else [(bridgeParamPublicKey, spub.longtermPublic.Text d)]

/-- A sample server public identity, with two model parameters. -/
def samplePublic : ServerPublic :=
  { nickname := "bridge".toList
    endpointConfig :=
      { endpointAddress :=
          { tcpAddr := { IP := [127, 0, 0, 1], Port := 8080, Zone := [] }
            idBytes := [127, 0, 0, 1, 31, 144] }
        modelSpec :=
          { name := "sillyHex".toList
            params := [("rate".toList, "3".toList), ("a=b".toList, "c".toList)] }
        cryptingParams := { MTU := 1400 } }
    longtermPublic := { uniform := sampleKey, derived := sampleKey.reverse } }

/-! ## The private identity file and `=` in a parameter key -/

/-- A private identity with the model parameter `a=b` of value `c`. -/
def equalsKeyPrivate : ServerPrivate := samplePrivate [("a=b".toList, "c".toList)]

/-! ## Definitions for the endpoint address, the MTU and the file format -/

/-- The host text `parseEndpointAddress` hands to `net.ParseIP`: `hostString`
without its first and last character when it begins with `[` and ends with
`]`, `hostString` itself otherwise. -/
def hostLiteral (hostString : Str) : Str :=
  if HasPrefix hostString ['['] && HasSuffix hostString [']'] then
    (hostString.take (hostString.length - 1)).drop 1
  else hostString

/-- The four header lines of a private identity file. -/
def headerLines (d : Deps) (spriv : ServerPrivate) : List Str :=
  [d.magicLine, spriv.nickname, spriv.endpointConfig.endpointAddress.tcpAddr.String d,
    spriv.longtermPrivate.PrivateText d]

/-- The parameter lines of a private identity file: a line `key=value` for
each entry other than the public key parameter. -/
def paramLinesOf (entries : GoMap Str) : List Str :=
  (entries.filter (fun kv => kv.1 ≠ bridgeParamPublicKey)).map (fun kv => kv.1 ++ '=' :: kv.2)

/-- Each line followed by LF. -/
def terminated (lines : List Str) : Str :=
  (lines.map (fun l => l ++ ['\n'])).flatten

/-- Modelled from the spec: `crypting.ValidateParams` is declared outside the
embedded files.  By the spec the MTU of an identity record is unsigned and at
most 2^32; `ValidatesMTU d` says that `d.ValidateParams` accepts crypting
parameters with no other MTU. -/
def ValidatesMTU (d : Deps) : Prop :=
  ∀ p : Params, d.ValidateParams p = none → 0 ≤ p.MTU ∧ p.MTU ≤ 2 ^ 32

/-- Sample dependencies whose `ValidateParams` accepts the MTUs from 576 to
65535: `sampleDeps` with that validation. -/
def cappedDeps : Deps :=
  { sampleDeps with
    ValidateParams := fun p =>
      if p.MTU < 576 ∨ 65535 < p.MTU then
        some (Error.ParameterError ParameterErrorKind.ParameterInvalid "mtu".toList [])
      else none }

/-- Saving with the entries met in the order `rangeOrder` and loading what was
written gives `expected`. -/
def savesAndLoads (d : Deps) (spriv : ServerPrivate) (expected : ServerPrivate)
    (rangeOrder : List (Str × Str)) : Bool :=
  match spriv.SavePrivateFile d rangeOrder with
  | Except.ok content => decide (LoadServerPrivateFile d content none = Except.ok expected)
  | Except.error _ => false

/-! # Theorems -/

theorem fillLoop_succ {W : Type} (c : Collaborators W) (fuel : Nat) (st : FillState W) :
    fillLoop c (fuel + 1) st =
      if st.outTail.len > 0 then
        if st.sh.outPending.length > 0 then fillLoop c fuel (pendStep st)
        else if pullErr c st ≠ none ∧ pullErr c st ≠ some Error.ErrNoProgress then
          (pullPre c st, FillExit.fatal ((pullErr c st).getD Error.ErrNoProgress))
        else if pullCount c st < 0 ∨ pullCount c st > ((pulledBuf c st).length : Int) then
          (pullPre c st, FillExit.panicked)
        else if pullErr c st ≠ none then (pullStep c st, FillExit.done)
        else fillLoop c fuel (pullStep c st)
      else (st, FillExit.done) := rfl

/-- An induction rule for the loop: `P` relates a loop state to the state and
exit the loop reaches from it. -/
theorem fillLoop_rule {W : Type} (c : Collaborators W)
    (P : FillState W → FillState W → FillExit → Prop)
    (hfuel : ∀ st, 0 < st.outTail.len → P st st FillExit.outOfFuel)
    (hstop : ∀ st, st.outTail.len = 0 → P st st FillExit.done)
    (hpend : ∀ st st1 ex, 0 < st.outTail.len → 0 < st.sh.outPending.length →
      P (pendStep st) st1 ex → P st st1 ex)
    (hfatal : ∀ st, 0 < st.outTail.len → st.sh.outPending = [] →
      pullErr c st ≠ none → pullErr c st ≠ some Error.ErrNoProgress →
      P st (pullPre c st) (FillExit.fatal ((pullErr c st).getD Error.ErrNoProgress)))
    (hpanic : ∀ st, 0 < st.outTail.len → st.sh.outPending = [] →
      (pullErr c st = none ∨ pullErr c st = some Error.ErrNoProgress) →
      P st (pullPre c st) FillExit.panicked)
    (hbreak : ∀ st, 0 < st.outTail.len → st.sh.outPending = [] →
      pullErr c st = some Error.ErrNoProgress → P st (pullStep c st) FillExit.done)
    (hnext : ∀ st st1 ex, 0 < st.outTail.len → st.sh.outPending = [] →
      pullErr c st = none → P (pullStep c st) st1 ex → P st st1 ex) :
    ∀ (fuel : Nat) (st : FillState W), P st (fillLoop c fuel st).1 (fillLoop c fuel st).2 := by
  intro fuel
  induction fuel with
  | zero =>
    intro st
    by_cases h : 0 < st.outTail.len
    · simpa [fillLoop, h] using hfuel st h
    · simpa [fillLoop, h] using hstop st (by omega)
  | succ fuel ih =>
    intro st
    rw [fillLoop_succ]
    by_cases h : 0 < st.outTail.len
    · rw [if_pos h]
      by_cases hp : 0 < st.sh.outPending.length
      · rw [if_pos hp]
        exact hpend st _ _ h hp (ih (pendStep st))
      · have hnil : st.sh.outPending = [] := by
          cases hq : st.sh.outPending with
          | nil => rfl
          | cons a l => simp [hq] at hp
        rw [if_neg hp]
        by_cases hf : pullErr c st ≠ none ∧ pullErr c st ≠ some Error.ErrNoProgress
        · rw [if_pos hf]
          exact hfatal st h hnil hf.1 hf.2
        · rw [if_neg hf]
          by_cases hpn : pullCount c st < 0 ∨ pullCount c st > ((pulledBuf c st).length : Int)
          · rw [if_pos hpn]
            refine hpanic st h hnil ?_
            by_cases he : pullErr c st = none
            · exact Or.inl he
            · right
              by_contra hne
              exact hf ⟨he, hne⟩
          · rw [if_neg hpn]
            by_cases he : pullErr c st = none
            · rw [if_neg (by simpa using he)]
              exact hnext st _ _ h hnil he (ih (pullStep c st))
            · rw [if_pos he]
              have : pullErr c st = some Error.ErrNoProgress := by
                by_contra hne
                exact hf ⟨he, hne⟩
              exact hbreak st h hnil this
    · rw [if_neg h]
      exact hstop st (by omega)

/-! ## What the loop of `handleTimer` establishes -/

theorem copyInto_copied (buf : List Byte) (w : Window) (src : List Byte) :
    (copyInto buf w src).2 = min w.len src.length := rfl

theorem copyInto_length (buf : List Byte) (w : Window) (src : List Byte)
    (h : w.off + w.len ≤ buf.length) : (copyInto buf w src).1.length = buf.length := by
  simp only [copyInto, List.length_append, List.length_take, List.length_drop]
  omega

theorem copyInto_take (buf : List Byte) (w : Window) (src : List Byte)
    (h : w.off + w.len ≤ buf.length) :
    (copyInto buf w src).1.take (w.off + (copyInto buf w src).2) =
      buf.take w.off ++ src.take (copyInto buf w src).2 := by
  have h1 : (buf.take w.off ++ src.take (min w.len src.length)).length
      = w.off + min w.len src.length := by
    simp only [List.length_append, List.length_take]
    omega
  simp only [copyInto]
  rw [← h1, List.take_left]

theorem encodedOf_append (xs ys : List Event) :
    encodedOf (xs ++ ys) = encodedOf xs ++ encodedOf ys := by
  induction xs with
  | nil => rfl
  | cons x xs ih => cases x <;> simp [encodedOf, ih]

theorem pendStep_ok {W : Type} (st : FillState W) (h : WindowOk st) :
    WindowOk (pendStep st) ∧
    (pendStep st).outValid + (pendStep st).outTail.len = st.outValid + st.outTail.len ∧
    (pendStep st).sh.outBuf.length = st.sh.outBuf.length ∧
    (pendStep st).sh.outBuf.take (pendStep st).outValid ++ (pendStep st).sh.outPending =
      st.sh.outBuf.take st.outValid ++ st.sh.outPending := by
  obtain ⟨h1, h2⟩ := h
  have hl := copyInto_length st.sh.outBuf st.outTail st.sh.outPending h2
  have ht := copyInto_take st.sh.outBuf st.outTail st.sh.outPending h2
  have hc := copyInto_copied st.sh.outBuf st.outTail st.sh.outPending
  refine ⟨⟨?_, ?_⟩, ?_, ?_, ?_⟩
  · simp only [pendStep, Window.drop]; omega
  · simp only [pendStep, Window.drop]; omega
  · simp only [pendStep, Window.drop]; omega
  · simpa only [pendStep] using hl
  · simp only [pendStep]
    rw [h1, ht, List.append_assoc, List.take_append_drop]

theorem pullStep_ok {W : Type} (c : Collaborators W) (st : FillState W) (h : WindowOk st)
    (hp : st.sh.outPending = []) :
    WindowOk (pullStep c st) ∧
    (pullStep c st).outValid + (pullStep c st).outTail.len = st.outValid + st.outTail.len ∧
    (pullStep c st).sh.outBuf.length = st.sh.outBuf.length ∧
    (pullStep c st).sh.outBuf.take (pullStep c st).outValid ++ (pullStep c st).sh.outPending =
      st.sh.outBuf.take st.outValid ++ st.sh.outPending ++ pullEncoded c st := by
  obtain ⟨h1, h2⟩ := h
  have hl := copyInto_length st.sh.outBuf st.outTail (pullEncoded c st) h2
  have ht := copyInto_take st.sh.outBuf st.outTail (pullEncoded c st) h2
  have hc := copyInto_copied st.sh.outBuf st.outTail (pullEncoded c st)
  refine ⟨⟨?_, ?_⟩, ?_, ?_, ?_⟩
  · simp only [pullStep, Window.drop]; omega
  · simp only [pullStep, Window.drop]; omega
  · simp only [pullStep, Window.drop]; omega
  · simpa only [pullStep] using hl
  · simp only [pullStep]
    rw [h1, ht, hp]
    have hd : (if ((pullEncoded c st).drop
          (copyInto st.sh.outBuf st.outTail (pullEncoded c st)).2).length > 0
        then ([] : List Byte) ++
          (pullEncoded c st).drop (copyInto st.sh.outBuf st.outTail (pullEncoded c st)).2
        else []) =
        (pullEncoded c st).drop (copyInto st.sh.outBuf st.outTail (pullEncoded c st)).2 := by
      split
      · simp
      · rename_i hlen
        symm
        apply List.eq_nil_of_length_eq_zero
        omega
    rw [hd, List.append_assoc, List.take_append_drop, List.append_nil]

theorem fillLoop_rel {W : Type} (c : Collaborators W) (fuel : Nat) (st : FillState W) :
    FillRel st (fillLoop c fuel st).1 (fillLoop c fuel st).2 := by
  apply fillLoop_rule c FillRel
  · intro st _ hw
    exact ⟨hw, rfl, rfl, rfl, [], by simp, by simp [encodedOf], by simp [TraceShape]⟩
  · intro st h0 hw
    exact ⟨hw, rfl, rfl, rfl, [], by simp, by simp [encodedOf], Or.inl ⟨h0, by simp⟩⟩
  · intro st st1 ex _ _ ih hw
    obtain ⟨a1, a2, a3, a4⟩ := pendStep_ok st hw
    obtain ⟨b1, b2, b3, b4, evs, b5, b6, b7⟩ := ih a1
    refine ⟨b1, by omega, by omega, b4, evs, b5, ?_, b7⟩
    rw [b6, a4]
  · intro st _ _ he hne hw
    refine ⟨hw, rfl, rfl, rfl, [Event.PullWrite (pullCount c st) (pullErr c st)], rfl,
      by simp [pullPre, encodedOf], ?_⟩
    cases hpe : pullErr c st with
    | none => exact absurd hpe he
    | some e =>
      refine ⟨?_, [], pullCount c st, by simp, by simp⟩
      intro h
      apply hne
      rw [hpe]
      simpa using h
  · intro st _ _ he hw
    exact ⟨hw, rfl, rfl, rfl, [Event.PullWrite (pullCount c st) (pullErr c st)], rfl,
      by simp [pullPre, encodedOf], [], pullCount c st, pullErr c st, by simp, he, by simp⟩
  · intro st _ hp he hw
    obtain ⟨a1, a2, a3, a4⟩ := pullStep_ok c st hw hp
    refine ⟨a1, a2, a3, rfl, [Event.PullWrite (pullCount c st) (pullErr c st),
      Event.EncodeBytes (pullPlain c st) (pullEncoded c st)], by simp [pullStep], ?_, ?_⟩
    · rw [a4]; simp [encodedOf]
    · exact Or.inr ⟨[], pullCount c st, pullPlain c st, pullEncoded c st, by simp [he], by simp⟩
  · intro st st1 ex _ hp he ih hw
    obtain ⟨a1, a2, a3, a4⟩ := pullStep_ok c st hw hp
    obtain ⟨b1, b2, b3, b4, evs, b5, b6, b7⟩ := ih a1
    have hq : ∀ ev ∈ [Event.PullWrite (pullCount c st) (pullErr c st),
        Event.EncodeBytes (pullPlain c st) (pullEncoded c st)], ev.isQuiet = true := by
      intro ev hev
      simp only [List.mem_cons, List.mem_singleton, List.not_mem_nil, or_false] at hev
      rcases hev with rfl | rfl
      · rw [he]; rfl
      · rfl
    refine ⟨b1, by omega, by omega, b4, [Event.PullWrite (pullCount c st) (pullErr c st),
      Event.EncodeBytes (pullPlain c st) (pullEncoded c st)] ++ evs, ?_, ?_, ?_⟩
    · rw [b5]; simp [pullStep]
    · rw [b6, a4, encodedOf_append]; simp [encodedOf]
    · cases ex with
      | done =>
        rcases b7 with ⟨c1, c2⟩ | ⟨evs0, n, p, e, c1, c2⟩
        · left
          refine ⟨c1, ?_⟩
          intro ev hev
          rcases List.mem_append.mp hev with h | h
          · exact hq ev h
          · exact c2 ev h
        · right
          refine ⟨[Event.PullWrite (pullCount c st) (pullErr c st),
            Event.EncodeBytes (pullPlain c st) (pullEncoded c st)] ++ evs0, n, p, e, ?_, ?_⟩
          · rw [c1]; simp
          · intro ev hev
            rcases List.mem_append.mp hev with h | h
            · exact hq ev h
            · exact c2 ev h
      | fatal err =>
        obtain ⟨c0, evs0, n, c1, c2⟩ := b7
        refine ⟨c0, [Event.PullWrite (pullCount c st) (pullErr c st),
            Event.EncodeBytes (pullPlain c st) (pullEncoded c st)] ++ evs0, n, ?_, ?_⟩
        · rw [c1]; simp
        · intro ev hev
          rcases List.mem_append.mp hev with h | h
          · exact hq ev h
          · exact c2 ev h
      | panicked =>
        obtain ⟨evs0, n, err, c1, c0, c2⟩ := b7
        refine ⟨[Event.PullWrite (pullCount c st) (pullErr c st),
            Event.EncodeBytes (pullPlain c st) (pullEncoded c st)] ++ evs0, n, err, ?_, c0, ?_⟩
        · rw [c1]; simp
        · intro ev hev
          rcases List.mem_append.mp hev with h | h
          · exact hq ev h
          · exact c2 ev h
      | outOfFuel =>
        intro ev hev
        rcases List.mem_append.mp hev with h | h
        · exact hq ev h
        · exact b7 ev h

theorem handleTimer_panic {W : Type} (c : Collaborators W) (fuel : Nat) (sh : Shaper W)
    (h : (c.NextPacketLength sh.world).1 < 0 ∨
      (c.NextPacketLength sh.world).1 > (sh.outBuf.length : Int)) :
    sh.handleTimer c fuel =
      { sh := (tickStart c sh).sh, trace := (tickStart c sh).trace, exit := Exit.panicked } := by
  simp only [Shaper.handleTimer, tickStart]
  rw [if_pos h]

theorem handleTimer_eq {W : Type} (c : Collaborators W) (fuel : Nat) (sh : Shaper W)
    (h : ¬ ((c.NextPacketLength sh.world).1 < 0 ∨
      (c.NextPacketLength sh.world).1 > (sh.outBuf.length : Int))) :
    sh.handleTimer c fuel =
      match (fillLoop c fuel (tickStart c sh)).2 with
      | FillExit.fatal err =>
        { sh := (fillLoop c fuel (tickStart c sh)).1.sh
          trace := (fillLoop c fuel (tickStart c sh)).1.trace
          exit := Exit.returned (some err) }
      | FillExit.panicked =>
        { sh := (fillLoop c fuel (tickStart c sh)).1.sh
          trace := (fillLoop c fuel (tickStart c sh)).1.trace
          exit := Exit.panicked }
      | FillExit.outOfFuel =>
        { sh := (fillLoop c fuel (tickStart c sh)).1.sh
          trace := (fillLoop c fuel (tickStart c sh)).1.trace
          exit := Exit.outOfFuel }
      | FillExit.done =>
        { sh := { (fillLoop c fuel (tickStart c sh)).1.sh with
            world := (c.Write (fillLoop c fuel (tickStart c sh)).1.sh.world
              ((fillLoop c fuel (tickStart c sh)).1.sh.outBuf.take
                (fillLoop c fuel (tickStart c sh)).1.outValid)).2 }
          trace := (fillLoop c fuel (tickStart c sh)).1.trace ++
            [Event.Write ((fillLoop c fuel (tickStart c sh)).1.sh.outBuf.take
              (fillLoop c fuel (tickStart c sh)).1.outValid)]
          exit := Exit.returned (c.Write (fillLoop c fuel (tickStart c sh)).1.sh.world
              ((fillLoop c fuel (tickStart c sh)).1.sh.outBuf.take
                (fillLoop c fuel (tickStart c sh)).1.outValid)).1.2 } := by
  simp only [Shaper.handleTimer, tickStart]
  rw [if_neg h]

theorem tickStart_ok {W : Type} (c : Collaborators W) (sh : Shaper W)
    (h : ¬ ((c.NextPacketLength sh.world).1 < 0 ∨
      (c.NextPacketLength sh.world).1 > (sh.outBuf.length : Int))) :
    WindowOk (tickStart c sh) := by
  refine ⟨rfl, ?_⟩
  simp only [tickStart]
  omega

theorem handleTimer_spec {W : Type} (c : Collaborators W) (fuel : Nat) (sh : Shaper W) :
    TickSpec c sh (c.NextPacketLength sh.world).1 (sh.handleTimer c fuel) := by
  by_cases h : (c.NextPacketLength sh.world).1 < 0 ∨
      (c.NextPacketLength sh.world).1 > (sh.outBuf.length : Int)
  · rw [handleTimer_panic c fuel sh h]
    exact ⟨rfl, (c.NextPacketSleep (c.NextPacketLength sh.world).2).1, Or.inl rfl⟩
  · rw [handleTimer_eq c fuel sh h]
    obtain ⟨a1, a2, a3, a4, evs, a5, a6, a7⟩ := fillLoop_rel c fuel (tickStart c sh)
      (tickStart_ok c sh h)
    generalize hfr : fillLoop c fuel (tickStart c sh) = fr at *
    obtain ⟨st1, ex⟩ := fr
    have hL : ((tickStart c sh).outTail.len : Int) = (c.NextPacketLength sh.world).1 := by
      simp only [tickStart]
      omega
    have hv : st1.outValid + st1.outTail.len = (tickStart c sh).outTail.len := by
      simpa [tickStart] using a2
    have hlen : st1.outValid ≤ st1.sh.outBuf.length := by
      obtain ⟨b1, b2⟩ := a1
      simp only at b1 b2
      omega
    cases ex with
    | fatal err =>
      obtain ⟨c0, evs0, n, c1, c2⟩ := a7
      refine ⟨a4, (c.NextPacketSleep (c.NextPacketLength sh.world).2).1, Or.inr
        ⟨err, n, evs0, rfl, c0, ?_, c2⟩⟩
      simp only at a5
      rw [a5, c1]
      simp [tickStart]
    | panicked =>
      obtain ⟨evs0, n, err, c1, c0, c2⟩ := a7
      refine ⟨a4, (c.NextPacketSleep (c.NextPacketLength sh.world).2).1, Or.inr
        ⟨evs0, n, err, ?_, c0, c2⟩⟩
      simp only at a5
      rw [a5, c1]
      simp [tickStart]
    | outOfFuel =>
      refine ⟨a4, (c.NextPacketSleep (c.NextPacketLength sh.world).2).1, evs, ?_, a7⟩
      simp only at a5
      rw [a5]
      simp [tickStart]
    | done =>
      refine ⟨a4, (c.NextPacketSleep (c.NextPacketLength sh.world).2).1, Or.inl
        ⟨evs, st1.sh.outBuf.take st1.outValid, st1.sh.world, ?_, by omega, by omega, ?_, ?_,
          ?_, ?_, rfl⟩⟩
      · simp only at a5
        simp only [a5]
        simp [tickStart]
      · simpa [tickStart] using a3
      · simpa [tickStart] using a6
      · rw [List.length_take, Nat.min_eq_left hlen]
        omega
      · rw [List.length_take, Nat.min_eq_left hlen]
        rcases a7 with ⟨c1, c2⟩ | c1
        · left
          refine ⟨?_, c2⟩
          simp only at c1
          omega
        · exact Or.inr c1

/-! ## Reading the trace of a tick -/

theorem writesOf_append (xs ys : List Event) :
    writesOf (xs ++ ys) = writesOf xs ++ writesOf ys := by
  induction xs with
  | nil => rfl
  | cons x xs ih => cases x <;> simp [writesOf, ih]

theorem writtenOf_append (xs ys : List Event) :
    writtenOf (xs ++ ys) = writtenOf xs ++ writtenOf ys := by
  induction xs with
  | nil => rfl
  | cons x xs ih => cases x <;> simp [writtenOf, ih]

theorem pullErrsOf_append (xs ys : List Event) :
    pullErrsOf (xs ++ ys) = pullErrsOf xs ++ pullErrsOf ys := by
  induction xs with
  | nil => rfl
  | cons x xs ih => cases x <;> simp [pullErrsOf, ih]

theorem writesOf_quiet (evs : List Event) (h : ∀ ev ∈ evs, ev.isQuiet = true) :
    writesOf evs = [] := by
  induction evs with
  | nil => rfl
  | cons x xs ih =>
    have hx := h x (List.mem_cons_self x xs)
    have hxs := ih (fun ev hev => h ev (List.mem_cons_of_mem x hev))
    cases x <;> simp_all [writesOf, Event.isQuiet]

theorem writtenOf_quiet (evs : List Event) (h : ∀ ev ∈ evs, ev.isQuiet = true) :
    writtenOf evs = [] := by
  induction evs with
  | nil => rfl
  | cons x xs ih =>
    have hx := h x (List.mem_cons_self x xs)
    have hxs := ih (fun ev hev => h ev (List.mem_cons_of_mem x hev))
    cases x <;> simp_all [writtenOf, Event.isQuiet]

theorem pullErrsOf_quiet (evs : List Event) (h : ∀ ev ∈ evs, ev.isQuiet = true) :
    ∀ err ∈ pullErrsOf evs, err = none := by
  induction evs with
  | nil => intro err herr; simp [pullErrsOf] at herr
  | cons x xs ih =>
    have hx := h x (List.mem_cons_self x xs)
    have hxs := ih (fun ev hev => h ev (List.mem_cons_of_mem x hev))
    cases x with
    | PullWrite n e =>
      cases e with
      | none =>
        intro err herr
        simp only [pullErrsOf, List.mem_cons] at herr
        rcases herr with rfl | herr
        · rfl
        · exact hxs err herr
      | some e => simp [Event.isQuiet] at hx
    | _ => simpa [pullErrsOf] using hxs

theorem last_sentinel (N L1 L2 : List (Option Error)) (hN : ∀ x ∈ N, x = none)
    (h : L1 ++ some Error.ErrNoProgress :: L2 = N ++ [some Error.ErrNoProgress]) : L2 = [] := by
  induction N generalizing L1 with
  | nil =>
    have hl := congrArg List.length h
    simp only [List.length_append, List.length_cons, List.nil_append, List.length_nil] at hl
    apply List.eq_nil_of_length_eq_zero
    omega
  | cons a N ih =>
    cases L1 with
    | nil =>
      simp only [List.nil_append, List.cons_append, List.cons.injEq] at h
      have := hN a (List.mem_cons_self a N)
      rw [← h.1] at this
      cases this
    | cons b L1 =>
      simp only [List.cons_append, List.cons.injEq] at h
      exact ih L1 (fun x hx => hN x (List.mem_cons_of_mem a hx)) h.2

/-- **C1** (packet-size fidelity).  A tick of `handleTimer` that returns
without error hands exactly one packet to `Write`; its length is at most the
`NextPacketLength` of the tick; it is exactly that length unless some
`PullWrite` of the tick returned the no-progress sentinel; and no `PullWrite`
follows one that returned the sentinel. -/
theorem handleTimer_packet_size {W : Type} (c : Collaborators W) (fuel : Nat) (sh : Shaper W)
    (h : (sh.handleTimer c fuel).exit = Exit.returned none) :
    ∃ p, writesOf (sh.handleTimer c fuel).trace = [p] ∧
      (p.length : Int) ≤ (c.NextPacketLength sh.world).1 ∧
      ((∀ err ∈ pullErrsOf (sh.handleTimer c fuel).trace, err ≠ some Error.ErrNoProgress) →
        (p.length : Int) = (c.NextPacketLength sh.world).1) ∧
      (∀ pre post n, (sh.handleTimer c fuel).trace =
          pre ++ Event.PullWrite n (some Error.ErrNoProgress) :: post →
        pullErrsOf post = []) := by
  obtain ⟨_, d, hs⟩ := handleTimer_spec c fuel sh
  rw [h] at hs
  simp only at hs
  rcases hs with ⟨evs, p, w, h1, _, _, _, _, h4, h5, _⟩ | ⟨e, n, evs0, h1, _⟩
  · have hw : writesOf evs = [] := by
      rcases h5 with ⟨_, hq⟩ | ⟨evs0, k, q, e, he, hq⟩
      · exact writesOf_quiet evs hq
      · rw [he, writesOf_append, writesOf_quiet evs0 hq]
        rfl
    refine ⟨p, ?_, h4, ?_, ?_⟩
    · rw [h1, List.cons_append]
      show writesOf (evs ++ [Event.Write p]) = [p]
      rw [writesOf_append, hw]
      rfl
    · intro hno
      rcases h5 with ⟨hL, _⟩ | ⟨evs0, k, q, e, he, _⟩
      · exact hL
      · exfalso
        apply hno (some Error.ErrNoProgress) _ rfl
        rw [h1, he]
        simp [pullErrsOf, pullErrsOf_append]
    · intro pre post n hpre
      have hp := congrArg pullErrsOf hpre
      rw [h1] at hp
      rcases h5 with ⟨_, hq⟩ | ⟨evs0, k, q, e, he, hq⟩
      · exfalso
        have hall := pullErrsOf_quiet evs hq
        have hmem : some Error.ErrNoProgress ∈ pullErrsOf evs := by
          have : pullErrsOf (Event.timerCycle d :: evs ++ [Event.Write p]) = pullErrsOf evs := by
            simp [pullErrsOf, pullErrsOf_append]
          rw [this] at hp
          rw [hp]
          simp [pullErrsOf, pullErrsOf_append]
        cases hall _ hmem
      · have hN := pullErrsOf_quiet evs0 hq
        have e1 : pullErrsOf (Event.timerCycle d :: evs ++ [Event.Write p]) =
            pullErrsOf evs0 ++ [some Error.ErrNoProgress] := by
          rw [he]
          simp [pullErrsOf, pullErrsOf_append]
        rw [e1, pullErrsOf_append] at hp
        simp only [pullErrsOf] at hp
        exact last_sentinel _ _ _ hN hp.symm
  · cases h1

set_option maxRecDepth 100000 in
theorem handleTimer_packet_size_witness :
    (doublingShaper.handleTimer doubling 5).exit = Exit.returned none ∧
    ∃ p, writesOf (doublingShaper.handleTimer doubling 5).trace = [p] ∧
      (p.length : Int) ≤ (doubling.NextPacketLength doublingShaper.world).1 ∧
      ((∀ err ∈ pullErrsOf (doublingShaper.handleTimer doubling 5).trace,
          err ≠ some Error.ErrNoProgress) →
        (p.length : Int) = (doubling.NextPacketLength doublingShaper.world).1) ∧
      (∀ pre post n, (doublingShaper.handleTimer doubling 5).trace =
          pre ++ Event.PullWrite n (some Error.ErrNoProgress) :: post →
        pullErrsOf post = []) :=
  ⟨by decide, handleTimer_packet_size doubling 5 doublingShaper (by decide)⟩

/-! ## Wire ordering -/

theorem handleTimer_wire {W : Type} (c : Collaborators W) (fuel : Nat) (sh : Shaper W)
    (h : (sh.handleTimer c fuel).exit = Exit.returned none) :
    writtenOf (sh.handleTimer c fuel).trace ++ (sh.handleTimer c fuel).sh.outPending =
      sh.outPending ++ encodedOf (sh.handleTimer c fuel).trace := by
  obtain ⟨_, d, hs⟩ := handleTimer_spec c fuel sh
  rw [h] at hs
  simp only at hs
  rcases hs with ⟨evs, p, w, h1, _, _, _, h3, _, h5, _⟩ | ⟨e, n, evs0, h1, _⟩
  · have hw : writtenOf evs = [] := by
      rcases h5 with ⟨_, hq⟩ | ⟨evs0, k, q, e, he, hq⟩
      · exact writtenOf_quiet evs hq
      · rw [he, writtenOf_append, writtenOf_quiet evs0 hq]
        rfl
    have e1 : writtenOf (sh.handleTimer c fuel).trace = p := by
      rw [h1, List.cons_append]
      show writtenOf (evs ++ [Event.Write p]) = p
      rw [writtenOf_append, hw]
      simp [writtenOf]
    have e2 : encodedOf (sh.handleTimer c fuel).trace = encodedOf evs := by
      rw [h1, List.cons_append]
      show encodedOf (evs ++ [Event.Write p]) = encodedOf evs
      rw [encodedOf_append]
      simp [encodedOf]
    rw [e1, e2, h3]
  · cases h1

theorem handleRead_frame {W : Type} (c : Collaborators W) (sh : Shaper W) (subn : Int) :
    (sh.handleRead c subn).sh.heldError = sh.heldError ∧
    (sh.handleRead c subn).sh.outPending = sh.outPending ∧
    writtenOf (sh.handleRead c subn).trace = [] ∧
    encodedOf (sh.handleRead c subn).trace = [] := by
  unfold Shaper.handleRead
  split
  · exact ⟨rfl, rfl, rfl, rfl⟩
  · simp only []
    split <;> exact ⟨rfl, rfl, rfl, rfl⟩

theorem handleOneStateChange_wire {W : Type} (c : Collaborators W) (fuel : Nat) (sh : Shaper W)
    (ev : StateChange) (h : (sh.handleOneStateChange c fuel ev).exit = Exit.returned false) :
    (sh.handleOneStateChange c fuel ev).sh.heldError = sh.heldError ∧
    writtenOf (sh.handleOneStateChange c fuel ev).trace ++
        (sh.handleOneStateChange c fuel ev).sh.outPending =
      sh.outPending ++ encodedOf (sh.handleOneStateChange c fuel ev).trace := by
  cases ev with
  | advanceClosed => simp [Shaper.handleOneStateChange] at h
  | timingClosed => simp [Shaper.handleOneStateChange] at h
  | control => simp [Shaper.handleOneStateChange] at h
  | advance subn stored =>
    obtain ⟨f1, f2, f3, f4⟩ := handleRead_frame c (sh.readerStored stored) subn
    simp only [Shaper.handleOneStateChange] at h ⊢
    generalize (sh.readerStored stored).handleRead c subn = r at *
    obtain ⟨rsh, rtr, rex⟩ := r
    cases rex with
    | returned a =>
      cases a with
      | none =>
        simp only [Shaper.readerStored] at f1 f2 f3 f4 ⊢
        rw [f1, f2, f3, f4]
        simp
      | some e => simp at h
    | panicked => simp at h
    | outOfFuel => simp at h
  | timing =>
    have hs := (handleTimer_spec c fuel sh).1
    have hw := handleTimer_wire c fuel sh
    simp only [Shaper.handleOneStateChange] at h ⊢
    generalize sh.handleTimer c fuel = r at *
    obtain ⟨rsh, rtr, rex⟩ := r
    cases rex with
    | returned a =>
      cases a with
      | none => exact ⟨hs, hw rfl⟩
      | some e => simp at h
    | panicked => simp at h
    | outOfFuel => simp at h

theorem runLoop_wire {W : Type} (c : Collaborators W) (fuel : Nat) (evs : List StateChange) :
    ∀ sh : Shaper W, (runLoop c fuel sh evs).2.2 = LoopStatus.running →
      (runLoop c fuel sh evs).1.heldError = sh.heldError ∧
      writtenOf (runLoop c fuel sh evs).2.1 ++ (runLoop c fuel sh evs).1.outPending =
        sh.outPending ++ encodedOf (runLoop c fuel sh evs).2.1 := by
  induction evs with
  | nil => intro sh _; simp [runLoop, writtenOf, encodedOf]
  | cons ev evs ih =>
    intro sh h
    have hstep := handleOneStateChange_wire c fuel sh ev
    simp only [runLoop] at h ⊢
    generalize sh.handleOneStateChange c fuel ev = r at *
    obtain ⟨rsh, rtr, rex⟩ := r
    cases rex with
    | returned b =>
      cases b with
      | true => simp at h
      | false =>
        simp only at h ⊢
        obtain ⟨i1, i2⟩ := ih rsh h
        obtain ⟨s1, s2⟩ := hstep rfl
        simp only at s1 s2
        refine ⟨i1.trans s1, ?_⟩
        rw [writtenOf_append, encodedOf_append, List.append_assoc, i2, ← List.append_assoc, s2,
          List.append_assoc]
    | panicked => simp at h
    | outOfFuel => simp at h

/-- **C2** (wire ordering through the pending queue).  For a tick that
returns without error, the bytes handed to `Write` followed by the pending
queue after the tick are the pending queue before the tick followed by the
`EncodeBytes` results of the tick in call order.  Over any sequence of state
changes whose handlers all return without error, starting from an empty
pending queue, the bytes handed to `Write` followed by the pending queue are
exactly the encoder outputs in order, so what was written is a prefix of
them. -/
theorem wire_order {W : Type} (c : Collaborators W) (fuel : Nat) (sh : Shaper W) :
    ((sh.handleTimer c fuel).exit = Exit.returned none →
      writtenOf (sh.handleTimer c fuel).trace ++ (sh.handleTimer c fuel).sh.outPending =
        sh.outPending ++ encodedOf (sh.handleTimer c fuel).trace) ∧
    (∀ evs : List StateChange, sh.outPending = [] →
      (runLoop c fuel sh evs).2.2 = LoopStatus.running →
      writtenOf (runLoop c fuel sh evs).2.1 ++ (runLoop c fuel sh evs).1.outPending =
        encodedOf (runLoop c fuel sh evs).2.1 ∧
      writtenOf (runLoop c fuel sh evs).2.1 <+: encodedOf (runLoop c fuel sh evs).2.1) := by
  refine ⟨handleTimer_wire c fuel sh, ?_⟩
  intro evs h0 hrun
  have h := (runLoop_wire c fuel evs sh hrun).2
  rw [h0, List.nil_append] at h
  exact ⟨h, ⟨_, h⟩⟩

set_option maxRecDepth 100000 in
theorem wire_order_witness :
    (doublingShaper.handleTimer doubling 5).exit = Exit.returned none ∧
    doublingShaper.outPending = [] ∧
    (runLoop doubling 5 doublingShaper [StateChange.timing, StateChange.timing]).2.2 =
      LoopStatus.running ∧
    writtenOf (doublingShaper.handleTimer doubling 5).trace ++
        (doublingShaper.handleTimer doubling 5).sh.outPending =
      doublingShaper.outPending ++ encodedOf (doublingShaper.handleTimer doubling 5).trace ∧
    writtenOf (runLoop doubling 5 doublingShaper [StateChange.timing, StateChange.timing]).2.1
      <+: encodedOf
        (runLoop doubling 5 doublingShaper [StateChange.timing, StateChange.timing]).2.1 ∧
    (writtenOf (doublingShaper.handleTimer doubling 5).trace).length = 50 ∧
    (doublingShaper.handleTimer doubling 5).sh.outPending =
      ((List.range 40).map Nat.toUInt8 ++ (List.range 40).map Nat.toUInt8).drop 50 ∧
    ((doublingShaper.handleTimer doubling 5).sh.outPending).length = 30 ∧
    writtenOf ((doublingShaper.handleTimer doubling 5).sh.handleTimer doubling 5).trace =
      (doublingShaper.handleTimer doubling 5).sh.outPending :=
  ⟨by decide, by decide, by decide,
    (wire_order doubling 5 doublingShaper).1 (by decide),
    ((wire_order doubling 5 doublingShaper).2 [StateChange.timing, StateChange.timing]
      (by decide) (by decide)).2,
    by decide, by decide, by decide, by decide⟩

theorem pull_error_not_quiet (evs : List Event) (h : ∀ ev ∈ evs, ev.isQuiet = true) (n : Int)
    (e : Error) : Event.PullWrite n (some e) ∉ evs := by
  intro hmem
  have := h _ hmem
  simp [Event.isQuiet] at this

/-- **C3** (fatal crypto error on the outbound path).  If some `PullWrite`
of a tick returns an error `e` other than the no-progress sentinel, then
`handleTimer` returns `e`, that `PullWrite` is the last call of the tick
(every earlier `PullWrite` returned no error), `Write` is not called, and
`handleOneStateChange` stores `e` as the held error and returns true. -/
theorem fatal_pull_error {W : Type} (c : Collaborators W) (fuel : Nat) (sh : Shaper W) (n : Int)
    (e : Error) (hmem : Event.PullWrite n (some e) ∈ (sh.handleTimer c fuel).trace)
    (hne : e ≠ Error.ErrNoProgress) :
    (sh.handleTimer c fuel).exit = Exit.returned (some e) ∧
    (∃ d pre, (sh.handleTimer c fuel).trace =
        Event.timerCycle d :: pre ++ [Event.PullWrite n (some e)] ∧
      ∀ ev ∈ pre, ev.isQuiet = true) ∧
    writesOf (sh.handleTimer c fuel).trace = [] ∧
    (sh.handleOneStateChange c fuel StateChange.timing).exit = Exit.returned true ∧
    (sh.handleOneStateChange c fuel StateChange.timing).sh.heldError = some e ∧
    (sh.handleOneStateChange c fuel StateChange.timing).trace = (sh.handleTimer c fuel).trace := by
  obtain ⟨_, d, hs⟩ := handleTimer_spec c fuel sh
  have key : (sh.handleTimer c fuel).exit = Exit.returned (some e) ∧
      ∃ pre, (sh.handleTimer c fuel).trace =
        Event.timerCycle d :: pre ++ [Event.PullWrite n (some e)] ∧
      ∀ ev ∈ pre, ev.isQuiet = true := by
    generalize sh.handleTimer c fuel = r at *
    obtain ⟨rsh, rtr, rex⟩ := r
    simp only at hs hmem ⊢
    cases rex with
    | returned err =>
      simp only at hs
      rcases hs with ⟨evs, p, w, h1, _, _, _, _, _, h5, _⟩ | ⟨e1, n1, evs0, h1, _, h3, h4⟩
      · exfalso
        rw [h1] at hmem
        simp only [List.cons_append, List.mem_cons, List.mem_append, List.mem_singleton,
          List.not_mem_nil, or_false] at hmem
        rcases hmem with hmem | hmem | hmem
        · cases hmem
        · rcases h5 with ⟨_, hq⟩ | ⟨evs0, k, q, e2, he, hq⟩
          · exact pull_error_not_quiet evs hq n e hmem
          · rw [he] at hmem
            simp only [List.mem_append, List.mem_cons, List.mem_singleton, List.not_mem_nil,
              or_false] at hmem
            rcases hmem with hmem | hmem | hmem
            · exact pull_error_not_quiet evs0 hq n e hmem
            · simp only [Event.PullWrite.injEq, Option.some.injEq] at hmem
              exact hne hmem.2
            · cases hmem
        · cases hmem
      · rw [h3] at hmem
        simp only [List.cons_append, List.mem_cons, List.mem_append, List.mem_singleton,
          List.not_mem_nil, or_false] at hmem
        rcases hmem with hmem | hmem | hmem
        · cases hmem
        · exact absurd hmem (pull_error_not_quiet evs0 h4 n e)
        · simp only [Event.PullWrite.injEq, Option.some.injEq] at hmem
          obtain ⟨rfl, rfl⟩ := hmem
          exact ⟨by rw [h1], evs0, h3, h4⟩
    | panicked =>
      exfalso
      simp only at hs
      rcases hs with h1 | ⟨evs0, n1, err, h1, h2, h3⟩
      · rw [h1] at hmem
        simp at hmem
      · rw [h1] at hmem
        simp only [List.cons_append, List.mem_cons, List.mem_append, List.mem_singleton,
          List.not_mem_nil, or_false] at hmem
        rcases hmem with hmem | hmem | hmem
        · cases hmem
        · exact pull_error_not_quiet evs0 h3 n e hmem
        · simp only [Event.PullWrite.injEq] at hmem
          rcases h2 with h2 | h2
          · rw [h2] at hmem
            cases hmem.2
          · rw [h2] at hmem
            simp only [Option.some.injEq] at hmem
            exact hne hmem.2
    | outOfFuel =>
      exfalso
      simp only at hs
      obtain ⟨evs, h1, h2⟩ := hs
      rw [h1] at hmem
      simp only [List.mem_cons] at hmem
      rcases hmem with hmem | hmem
      · cases hmem
      · exact pull_error_not_quiet evs h2 n e hmem
  obtain ⟨k1, pre, k2, k3⟩ := key
  refine ⟨k1, ⟨d, pre, k2, k3⟩, ?_, ?_, ?_, ?_⟩
  · rw [k2, List.cons_append]
    show writesOf (pre ++ [Event.PullWrite n (some e)]) = []
    rw [writesOf_append, writesOf_quiet pre k3]
    rfl
  · simp only [Shaper.handleOneStateChange, k1]
  · simp only [Shaper.handleOneStateChange, k1]
  · simp only [Shaper.handleOneStateChange, k1]

set_option maxRecDepth 100000 in
theorem fatal_pull_error_witness :
    Event.PullWrite 0 (some (Error.other 7)) ∈
      ((NewShaper failing 0).1.handleTimer failing 5).trace ∧
    Error.other 7 ≠ Error.ErrNoProgress ∧
    ((NewShaper failing 0).1.handleTimer failing 5).exit =
      Exit.returned (some (Error.other 7)) ∧
    ((NewShaper failing 0).1.handleOneStateChange failing 5 StateChange.timing).sh.heldError =
      some (Error.other 7) :=
  ⟨by decide, by decide,
    (fatal_pull_error failing 5 (NewShaper failing 0).1 0 (Error.other 7) (by decide)
      (by decide)).1,
    (fatal_pull_error failing 5 (NewShaper failing 0).1 0 (Error.other 7) (by decide)
      (by decide)).2.2.2.2.1⟩

theorem fillLoop_frame {W : Type} (c : Collaborators W) (fuel : Nat) (st : FillState W) :
    (fillLoop c fuel st).1.sh.reader = st.sh.reader ∧
    (fillLoop c fuel st).1.sh.timer = st.sh.timer ∧
    (fillLoop c fuel st).1.sh.heldError = st.sh.heldError := by
  apply fillLoop_rule c (fun st st1 _ => st1.sh.reader = st.sh.reader ∧
    st1.sh.timer = st.sh.timer ∧ st1.sh.heldError = st.sh.heldError)
  · intro st _; exact ⟨rfl, rfl, rfl⟩
  · intro st _; exact ⟨rfl, rfl, rfl⟩
  · intro st st1 ex _ _ ih; exact ih
  · intro st _ _ _ _; exact ⟨rfl, rfl, rfl⟩
  · intro st _ _ _; exact ⟨rfl, rfl, rfl⟩
  · intro st _ _ _; exact ⟨rfl, rfl, rfl⟩
  · intro st st1 ex _ _ _ ih; exact ih

theorem handleTimer_frame {W : Type} (c : Collaborators W) (fuel : Nat) (sh : Shaper W) :
    (sh.handleTimer c fuel).sh.reader = sh.reader ∧
    (sh.handleTimer c fuel).sh.timer = sh.timer ∧
    (sh.handleTimer c fuel).sh.heldError = sh.heldError := by
  by_cases h : (c.NextPacketLength sh.world).1 < 0 ∨
      (c.NextPacketLength sh.world).1 > (sh.outBuf.length : Int)
  · rw [handleTimer_panic c fuel sh h]
    exact ⟨rfl, rfl, rfl⟩
  · rw [handleTimer_eq c fuel sh h]
    have hf := fillLoop_frame c fuel (tickStart c sh)
    generalize fillLoop c fuel (tickStart c sh) = fr at *
    obtain ⟨st1, ex⟩ := fr
    cases ex <;> exact hf

theorem handleRead_children {W : Type} (c : Collaborators W) (sh : Shaper W) (subn : Int) :
    (sh.handleRead c subn).sh.reader = sh.reader ∧
    (sh.handleRead c subn).sh.timer = sh.timer := by
  unfold Shaper.handleRead
  split
  · exact ⟨rfl, rfl⟩
  · simp only []
    split <;> exact ⟨rfl, rfl⟩

/-- What `handleOneStateChange` does to the error slots: the slots of the
children are never written; the held error is left as it was, unless a
handler returned an error `e`, which is then stored while true is returned. -/
theorem handleOneStateChange_held {W : Type} (c : Collaborators W) (fuel : Nat) (sh : Shaper W)
    (ev : StateChange) :
    (sh.handleOneStateChange c fuel ev).sh.reader = sh.reader ∧
    (sh.handleOneStateChange c fuel ev).sh.timer = sh.timer ∧
    ((sh.handleOneStateChange c fuel ev).sh.heldError = sh.heldError ∨
      ((sh.handleOneStateChange c fuel ev).exit = Exit.returned true ∧
        ∃ e, (sh.handleOneStateChange c fuel ev).sh.heldError = some e ∧
          ((ev = StateChange.timing ∧
              (sh.handleTimer c fuel).exit = Exit.returned (some e)) ∨
            ∃ n stored, ev = StateChange.advance n stored ∧
              ((sh.readerStored stored).handleRead c n).exit = Exit.returned (some e)))) := by
  cases ev with
  | advanceClosed => exact ⟨rfl, rfl, Or.inl rfl⟩
  | timingClosed => exact ⟨rfl, rfl, Or.inl rfl⟩
  | control => exact ⟨rfl, rfl, Or.inl rfl⟩
  | advance subn stored =>
    obtain ⟨f1, _, _, _⟩ := handleRead_frame c (sh.readerStored stored) subn
    obtain ⟨g1, g2⟩ := handleRead_children c (sh.readerStored stored) subn
    cases hx : ((sh.readerStored stored).handleRead c subn).exit with
    | returned a =>
      cases a with
      | none =>
        have e1 : sh.handleOneStateChange c fuel (StateChange.advance subn stored) =
            { sh := ((sh.readerStored stored).handleRead c subn).sh, trace := ((sh.readerStored stored).handleRead c subn).trace,
              exit := Exit.returned false } := by
          simp only [Shaper.handleOneStateChange, hx]
        rw [e1]
        exact ⟨g1, g2, Or.inl f1⟩
      | some e =>
        have e1 : sh.handleOneStateChange c fuel (StateChange.advance subn stored) =
            { sh := { ((sh.readerStored stored).handleRead c subn).sh with heldError := some e },
              trace := ((sh.readerStored stored).handleRead c subn).trace, exit := Exit.returned true } := by
          simp only [Shaper.handleOneStateChange, hx]
        rw [e1]
        exact ⟨g1, g2, Or.inr ⟨rfl, e, rfl, Or.inr ⟨subn, stored, rfl, hx⟩⟩⟩
    | panicked =>
      have e1 : sh.handleOneStateChange c fuel (StateChange.advance subn stored) =
          { sh := ((sh.readerStored stored).handleRead c subn).sh, trace := ((sh.readerStored stored).handleRead c subn).trace,
            exit := Exit.panicked } := by
        simp only [Shaper.handleOneStateChange, hx]
      rw [e1]
      exact ⟨g1, g2, Or.inl f1⟩
    | outOfFuel =>
      have e1 : sh.handleOneStateChange c fuel (StateChange.advance subn stored) =
          { sh := ((sh.readerStored stored).handleRead c subn).sh, trace := ((sh.readerStored stored).handleRead c subn).trace,
            exit := Exit.outOfFuel } := by
        simp only [Shaper.handleOneStateChange, hx]
      rw [e1]
      exact ⟨g1, g2, Or.inl f1⟩
  | timing =>
    obtain ⟨g1, g2, f1⟩ := handleTimer_frame c fuel sh
    cases hx : (sh.handleTimer c fuel).exit with
    | returned a =>
      cases a with
      | none =>
        have e1 : sh.handleOneStateChange c fuel StateChange.timing =
            { sh := (sh.handleTimer c fuel).sh, trace := (sh.handleTimer c fuel).trace,
              exit := Exit.returned false } := by
          simp only [Shaper.handleOneStateChange, hx]
        rw [e1]
        exact ⟨g1, g2, Or.inl f1⟩
      | some e =>
        have e1 : sh.handleOneStateChange c fuel StateChange.timing =
            { sh := { (sh.handleTimer c fuel).sh with heldError := some e },
              trace := (sh.handleTimer c fuel).trace, exit := Exit.returned true } := by
          simp only [Shaper.handleOneStateChange, hx]
        rw [e1]
        exact ⟨g1, g2, Or.inr ⟨rfl, e, rfl, Or.inl ⟨rfl, rfl⟩⟩⟩
    | panicked =>
      have e1 : sh.handleOneStateChange c fuel StateChange.timing =
          { sh := (sh.handleTimer c fuel).sh, trace := (sh.handleTimer c fuel).trace,
            exit := Exit.panicked } := by
        simp only [Shaper.handleOneStateChange, hx]
      rw [e1]
      exact ⟨g1, g2, Or.inl f1⟩
    | outOfFuel =>
      have e1 : sh.handleOneStateChange c fuel StateChange.timing =
          { sh := (sh.handleTimer c fuel).sh, trace := (sh.handleTimer c fuel).trace,
            exit := Exit.outOfFuel } := by
        simp only [Shaper.handleOneStateChange, hx]
      rw [e1]
      exact ⟨g1, g2, Or.inl f1⟩

theorem handleOneStateChange_false {W : Type} (c : Collaborators W) (fuel : Nat) (sh : Shaper W)
    (ev : StateChange) (h : (sh.handleOneStateChange c fuel ev).exit = Exit.returned false) :
    (sh.handleOneStateChange c fuel ev).sh.heldError = sh.heldError := by
  rcases (handleOneStateChange_held c fuel sh ev).2.2 with h1 | ⟨h1, _⟩
  · exact h1
  · rw [h] at h1
    cases h1

theorem runLoop_running {W : Type} (c : Collaborators W) (fuel : Nat) (evs : List StateChange) :
    ∀ sh : Shaper W, (runLoop c fuel sh evs).2.2 = LoopStatus.running →
      (runLoop c fuel sh evs).1.heldError = sh.heldError ∧
      (runLoop c fuel sh evs).1.reader = sh.reader ∧
      (runLoop c fuel sh evs).1.timer = sh.timer := by
  induction evs with
  | nil => intro sh _; exact ⟨rfl, rfl, rfl⟩
  | cons ev evs ih =>
    intro sh h
    have hstep := handleOneStateChange_false c fuel sh ev
    obtain ⟨k1, k2, _⟩ := handleOneStateChange_held c fuel sh ev
    simp only [runLoop] at h ⊢
    generalize sh.handleOneStateChange c fuel ev = r at *
    obtain ⟨rsh, rtr, rex⟩ := r
    cases rex with
    | returned b =>
      cases b with
      | true => simp at h
      | false =>
        simp only at h ⊢
        obtain ⟨i1, i2, i3⟩ := ih rsh h
        exact ⟨i1.trans (hstep rfl), i2.trans k1, i3.trans k2⟩
    | panicked => simp at h
    | outOfFuel => simp at h

theorem runLoop_append {W : Type} (c : Collaborators W) (fuel : Nat) (pre evs : List StateChange) :
    ∀ sh : Shaper W, (runLoop c fuel sh pre).2.2 = LoopStatus.running →
      (runLoop c fuel sh (pre ++ evs)).1 = (runLoop c fuel (runLoop c fuel sh pre).1 evs).1 ∧
      (runLoop c fuel sh (pre ++ evs)).2.2 =
        (runLoop c fuel (runLoop c fuel sh pre).1 evs).2.2 := by
  induction pre with
  | nil => intro sh _; exact ⟨rfl, rfl⟩
  | cons ev pre ih =>
    intro sh h
    simp only [runLoop, List.cons_append] at h ⊢
    generalize sh.handleOneStateChange c fuel ev = r at *
    obtain ⟨rsh, rtr, rex⟩ := r
    cases rex with
    | returned b =>
      cases b with
      | true => simp at h
      | false =>
        simp only at h ⊢
        exact ih rsh h
    | panicked => simp at h
    | outOfFuel => simp at h

theorem runLoop_stored {W : Type} (c : Collaborators W) (fuel : Nat) (evs : List StateChange) :
    ∀ (sh : Shaper W) (e : Error), sh.heldError = none →
      (runLoop c fuel sh evs).1.heldError = some e →
      (runLoop c fuel sh evs).2.2 = LoopStatus.exited ∧
      ∃ pre ev rest, evs = pre ++ ev :: rest ∧
        (runLoop c fuel sh pre).2.2 = LoopStatus.running ∧
        (runLoop c fuel sh pre).1.heldError = none ∧
        ((ev = StateChange.timing ∧
            ((runLoop c fuel sh pre).1.handleTimer c fuel).exit = Exit.returned (some e)) ∨
          ∃ n stored, ev = StateChange.advance n stored ∧
            (((runLoop c fuel sh pre).1.readerStored stored).handleRead c n).exit =
              Exit.returned (some e)) := by
  induction evs with
  | nil =>
    intro sh e h0 h
    simp only [runLoop] at h
    rw [h0] at h
    cases h
  | cons ev evs ih =>
    intro sh e h0 h
    obtain ⟨_, _, hheld⟩ := handleOneStateChange_held c fuel sh ev
    simp only [runLoop] at h ⊢
    cases hx : (sh.handleOneStateChange c fuel ev).exit with
    | returned b =>
      cases b with
      | true =>
        rw [hx] at h
        simp only at h ⊢
        rcases hheld with h1 | ⟨_, e1, h1, h2⟩
        · rw [h1, h0] at h
          cases h
        · rw [h1] at h
          cases h
          exact ⟨trivial, [], ev, evs, rfl, rfl, h0, h2⟩
      | false =>
        rw [hx] at h
        simp only at h ⊢
        have hf := handleOneStateChange_false c fuel sh ev hx
        obtain ⟨i1, pre, ev1, rest, i2, i3, i4, i5⟩ := ih _ e (hf.trans h0) h
        refine ⟨i1, ev :: pre, ev1, rest, by rw [i2]; rfl, ?_, ?_, ?_⟩
        · simp only [runLoop, hx]
          exact i3
        · simp only [runLoop, hx]
          exact i4
        · simp only [runLoop, hx]
          exact i5
    | panicked =>
      rw [hx] at h
      simp only at h
      rcases hheld with h1 | ⟨h1, _⟩
      · rw [h1, h0] at h
        cases h
      · rw [hx] at h1
        cases h1
    | outOfFuel =>
      rw [hx] at h
      simp only at h
      rcases hheld with h1 | ⟨h1, _⟩
      · rw [h1, h0] at h
        cases h
      · rw [hx] at h1
        cases h1

/-- The claim C4 as stated fails.  The reader stores `EOF` in its slot and
closes its advance channel; the supervisor shuts down on the closure; with a
`ReportExitTo` that leaves the slot alone the error accessor returns nil, not
`EOF`.  And for no `ReportExitTo` at all does the accessor return the child's
error for every error: what it returns does not depend on the child's slot. -/
theorem child_error_not_adopted :
    doublingShaper.reader.runOnce (0, some Error.EOF) = ({ heldError := some Error.EOF }, none) ∧
    (Shaper.run doubling (fun _ slot => slot) 5 (readerFailed Error.EOF)
      [StateChange.advanceClosed]).2.2 = LoopStatus.exited ∧
    (Shaper.run doubling (fun _ slot => slot) 5 (readerFailed Error.EOF)
      [StateChange.advanceClosed]).1.reader.heldError = some Error.EOF ∧
    (Shaper.run doubling (fun _ slot => slot) 5 (readerFailed Error.EOF)
      [StateChange.advanceClosed]).1.Error = none ∧
    ∀ R : Bool → Option Error → Option Error,
      ¬ ∀ e : Error, (Shaper.run doubling R 5 (readerFailed e)
        [StateChange.advanceClosed]).1.Error = some e := by
  refine ⟨by decide, by decide, by decide, by decide, ?_⟩
  intro R h
  have h1 : R false none = some Error.EOF := h Error.EOF
  have h2 : R false none = some (Error.other 1) := h (Error.other 1)
  rw [h1] at h2
  cases h2

/-- **C4** (child error adoption, amended).  When the supervisor shuts down
because the reader's advance channel or the timer's timing channel was found
closed, `handleOneStateChange` leaves every error slot as it was: after the
shutdown the error accessor returns what `ReportExitTo` makes of the shaper's
own held error as it was before the run, and the error of the child is still
in the child's slot only. -/
theorem child_closure_keeps_held_error {W : Type} (c : Collaborators W)
    (R : Bool → Option Error → Option Error) (fuel : Nat) (sh : Shaper W)
    (pre rest : List StateChange) (ev : StateChange)
    (hev : ev = StateChange.advanceClosed ∨ ev = StateChange.timingClosed)
    (hrun : (runLoop c fuel sh pre).2.2 = LoopStatus.running) :
    (Shaper.run c R fuel sh (pre ++ ev :: rest)).2.2 = LoopStatus.exited ∧
    (Shaper.run c R fuel sh (pre ++ ev :: rest)).1.Error = R false sh.heldError ∧
    (Shaper.run c R fuel sh (pre ++ ev :: rest)).1.reader = sh.reader ∧
    (Shaper.run c R fuel sh (pre ++ ev :: rest)).1.timer = sh.timer := by
  obtain ⟨a1, a2⟩ := runLoop_append c fuel pre (ev :: rest) sh hrun
  obtain ⟨b1, b2, b3⟩ := runLoop_running c fuel pre sh hrun
  have hstep : (runLoop c fuel (runLoop c fuel sh pre).1 (ev :: rest)).1 =
        (runLoop c fuel sh pre).1 ∧
      (runLoop c fuel (runLoop c fuel sh pre).1 (ev :: rest)).2.2 = LoopStatus.exited := by
    rcases hev with rfl | rfl <;> exact ⟨rfl, rfl⟩
  rw [hstep.1] at a1
  rw [hstep.2] at a2
  simp only [Shaper.run, a2, Shaper.Error, a1]
  exact ⟨trivial, by rw [b1], b2, b3⟩

set_option maxRecDepth 100000 in
theorem child_closure_keeps_held_error_witness :
    (runLoop doubling 5 (readerFailed Error.EOF) [StateChange.timing]).2.2 =
      LoopStatus.running ∧
    (readerFailed Error.EOF).reader.heldError = some Error.EOF ∧
    (Shaper.run doubling (fun _ slot => slot) 5 (readerFailed Error.EOF)
      ([StateChange.timing] ++ StateChange.advanceClosed :: [])).1.Error = none :=
  ⟨by decide, by decide,
    (child_closure_keeps_held_error doubling (fun _ slot => slot) 5 (readerFailed Error.EOF)
      [StateChange.timing] [] StateChange.advanceClosed (Or.inl rfl) (by decide)).2.1⟩

/-- **C5** (held-error invariant of the supervisor loop).  `NewShaper` leaves
the held error nil.  `handleOneStateChange` leaves the held error as it was
whenever it returns false, so the held error is nil for as long as the loop
runs.  A control-channel event makes it return true with the held error as it
was, so a run ended by it leaves the loop with a nil held error (and the
accessor returns nil when `ReportExitTo` leaves a nil slot alone).  A handler
error `e` makes it return true with held error `e`.  If the held error of a
run is `e`, the loop was left, by a handler that returned `e`, and the held
error was nil until then: it is assigned at most once. -/
theorem held_error_invariant {W : Type} (c : Collaborators W) (fuel : Nat) (w : W) :
    (NewShaper c w).1.heldError = none ∧
    (∀ (sh : Shaper W) (ev : StateChange),
      (sh.handleOneStateChange c fuel ev).exit = Exit.returned false →
      (sh.handleOneStateChange c fuel ev).sh.heldError = sh.heldError) ∧
    (∀ evs, (runLoop c fuel (NewShaper c w).1 evs).2.2 = LoopStatus.running →
      (runLoop c fuel (NewShaper c w).1 evs).1.heldError = none) ∧
    (∀ sh : Shaper W,
      (sh.handleOneStateChange c fuel StateChange.control).exit = Exit.returned true ∧
      (sh.handleOneStateChange c fuel StateChange.control).sh.heldError = sh.heldError) ∧
    (∀ pre rest, (runLoop c fuel (NewShaper c w).1 pre).2.2 = LoopStatus.running →
      (runLoop c fuel (NewShaper c w).1 (pre ++ StateChange.control :: rest)).2.2 =
        LoopStatus.exited ∧
      (runLoop c fuel (NewShaper c w).1 (pre ++ StateChange.control :: rest)).1.heldError =
        none ∧
      ∀ R : Bool → Option Error → Option Error, R false none = none →
        (Shaper.run c R fuel (NewShaper c w).1 (pre ++ StateChange.control :: rest)).1.Error =
          none) ∧
    (∀ (sh : Shaper W) (e : Error), (sh.handleTimer c fuel).exit = Exit.returned (some e) →
      (sh.handleOneStateChange c fuel StateChange.timing).exit = Exit.returned true ∧
      (sh.handleOneStateChange c fuel StateChange.timing).sh.heldError = some e) ∧
    (∀ (sh : Shaper W) (subn : Int) (stored : List Byte) (e : Error),
      ((sh.readerStored stored).handleRead c subn).exit = Exit.returned (some e) →
      (sh.handleOneStateChange c fuel (StateChange.advance subn stored)).exit =
        Exit.returned true ∧
      (sh.handleOneStateChange c fuel (StateChange.advance subn stored)).sh.heldError =
        some e) ∧
    (∀ evs e, (runLoop c fuel (NewShaper c w).1 evs).1.heldError = some e →
      (runLoop c fuel (NewShaper c w).1 evs).2.2 = LoopStatus.exited ∧
      ∃ pre ev rest, evs = pre ++ ev :: rest ∧
        (runLoop c fuel (NewShaper c w).1 pre).2.2 = LoopStatus.running ∧
        (runLoop c fuel (NewShaper c w).1 pre).1.heldError = none ∧
        ((ev = StateChange.timing ∧
            ((runLoop c fuel (NewShaper c w).1 pre).1.handleTimer c fuel).exit =
              Exit.returned (some e)) ∨
          ∃ n stored, ev = StateChange.advance n stored ∧
            (((runLoop c fuel (NewShaper c w).1 pre).1.readerStored stored).handleRead c
              n).exit = Exit.returned (some e))) := by
  refine ⟨rfl, handleOneStateChange_false c fuel, ?_, fun sh => ⟨rfl, rfl⟩, ?_, ?_, ?_, ?_⟩
  · intro evs h
    exact (runLoop_running c fuel evs _ h).1
  · intro pre rest h
    obtain ⟨a1, a2⟩ := runLoop_append c fuel pre (StateChange.control :: rest) _ h
    have b1 := (runLoop_running c fuel pre _ h).1
    have hstep : (runLoop c fuel (runLoop c fuel (NewShaper c w).1 pre).1
          (StateChange.control :: rest)).1 = (runLoop c fuel (NewShaper c w).1 pre).1 ∧
        (runLoop c fuel (runLoop c fuel (NewShaper c w).1 pre).1
          (StateChange.control :: rest)).2.2 = LoopStatus.exited := ⟨rfl, rfl⟩
    rw [hstep.1] at a1
    rw [hstep.2] at a2
    refine ⟨a2, by rw [a1, b1]; rfl, ?_⟩
    intro R hR
    simp only [Shaper.run, a2, Shaper.Error, a1, b1]
    exact hR
  · intro sh e h
    simp only [Shaper.handleOneStateChange, h]
    exact ⟨trivial, trivial⟩
  · intro sh subn stored e h
    simp only [Shaper.handleOneStateChange, h]
    exact ⟨trivial, trivial⟩
  · intro evs e h
    exact runLoop_stored c fuel evs _ e rfl h

set_option maxRecDepth 100000 in
theorem held_error_invariant_witness :
    (runLoop doubling 5 (NewShaper doubling 0).1
      [StateChange.timing, StateChange.advance 3 [1, 2, 3], StateChange.timing]).2.2 =
      LoopStatus.running ∧
    (runLoop doubling 5 (NewShaper doubling 0).1
      [StateChange.timing, StateChange.advance 3 [1, 2, 3], StateChange.timing]).1.heldError =
      none ∧
    (runLoop doubling 5 (NewShaper doubling 0).1
      ([StateChange.timing, StateChange.advance 3 [1, 2, 3], StateChange.timing] ++
        StateChange.control :: [])).1.heldError = none ∧
    (runLoop failing 5 (NewShaper failing 0).1 [StateChange.timing]).1.heldError =
      some (Error.other 7) ∧
    (runLoop failing 5 (NewShaper failing 0).1 [StateChange.timing]).2.2 = LoopStatus.exited :=
  ⟨by decide,
    (held_error_invariant doubling 5 0).2.2.1
      [StateChange.timing, StateChange.advance 3 [1, 2, 3], StateChange.timing] (by decide),
    ((held_error_invariant doubling 5 0).2.2.2.2.1
      [StateChange.timing, StateChange.advance 3 [1, 2, 3], StateChange.timing] []
      (by decide)).2.1,
    by decide,
    ((held_error_invariant failing 5 0).2.2.2.2.2.2.2 [StateChange.timing] (Error.other 7)
      (by decide)).1⟩

/-! ## The parameter lines of a private identity file -/

theorem paramLoop_syntax (lines : List Str) (h : ∃ line ∈ lines, IndexRune line '=' = none) :
    ∀ params : GoMap Str, paramLoop lines params = Except.error Error.ErrSyntax := by
  induction lines with
  | nil =>
    obtain ⟨line, hl, _⟩ := h
    cases hl
  | cons l lines ih =>
    intro params
    obtain ⟨line, hl, hline⟩ := h
    cases hx : IndexRune l '=' with
    | none => simp only [paramLoop, hx]
    | some i =>
      simp only [paramLoop, hx]
      apply ih
      rcases List.mem_cons.mp hl with rfl | hl
      · rw [hx] at hline
        cases hline
      · exact ⟨line, hl, hline⟩

/-! ## Maps -/

theorem GoMap.get_set {β : Type} (m : GoMap β) (k : Str) (v : β) (k1 : Str) :
    (m.set k v).get k1 = if k = k1 then some v else m.get k1 := by
  induction m with
  | nil => simp [GoMap.set, GoMap.get]
  | cons e m ih =>
    obtain ⟨k2, v2⟩ := e
    simp only [GoMap.set]
    by_cases h : k2 = k
    · subst h
      simp only [if_true, GoMap.get]
      by_cases h2 : k2 = k1 <;> simp [h2]
    · simp only [h, if_false, GoMap.get, ih]
      by_cases h2 : k2 = k1
      · subst h2
        simp [Ne.symm h]
      · simp [h2]

theorem GoMap.get_isSome {β : Type} (m : GoMap β) (k : Str) :
    (m.get k).isSome = true ↔ k ∈ m.keys := by
  induction m with
  | nil => simp [GoMap.get, GoMap.keys]
  | cons e m ih =>
    obtain ⟨k2, v2⟩ := e
    have hk : k ∈ GoMap.keys ((k2, v2) :: m) ↔ k = k2 ∨ k ∈ GoMap.keys m := by
      unfold GoMap.keys
      rw [List.map_cons, List.mem_cons]
    rw [hk]
    by_cases h : k2 = k
    · simp only [GoMap.get, h, if_true, Option.isSome_some, true_or]
    · simp only [GoMap.get, h, if_false]
      rw [ih]
      constructor
      · exact Or.inr
      · rintro (h1 | h1)
        · exact absurd h1.symm h
        · exact h1

theorem GoMap.set_fresh {β : Type} (m : GoMap β) (k : Str) (v : β) (h : k ∉ m.keys) :
    m.set k v = m ++ [(k, v)] := by
  induction m with
  | nil => rfl
  | cons e m ih =>
    obtain ⟨k2, v2⟩ := e
    simp only [GoMap.keys, List.map_cons, List.mem_cons, not_or] at h
    simp only [GoMap.set, Ne.symm h.1, if_false, List.cons_append]
    rw [ih h.2]

theorem extractLoop_acked ( subprefix : Str) (entries : List (Str × Str)) :
    ∀ (modelParams : GoMap Str) (ackedParams : GoMap Bool) (k : Str),
      (extractLoop subprefix entries modelParams ackedParams).2.get k = some true ↔
        ackedParams.get k = some true ∨
          (k ∈ GoMap.keys entries ∧ HasPrefix k subprefix = true) := by
  induction entries with
  | nil => intro mp ak k; simp [extractLoop, GoMap.keys]
  | cons e entries ih =>
    intro mp ak k
    obtain ⟨key, val⟩ := e
    simp only [extractLoop]
    by_cases hp : HasPrefix key subprefix = true
    · rw [if_pos hp, ih, GoMap.get_set]
      simp only [GoMap.keys, List.map_cons, List.mem_cons]
      by_cases hk : key = k
      · subst hk
        simp [hp]
      · simp only [hk, if_false]
        have : ¬ k = key := fun h => hk h.symm
        simp [this, GoMap.keys]
    · rw [if_neg hp, ih]
      simp only [GoMap.keys, List.map_cons, List.mem_cons]
      constructor
      · rintro (h | ⟨h1, h2⟩)
        · exact Or.inl h
        · exact Or.inr ⟨Or.inr h1, h2⟩
      · rintro (h | ⟨h1 | h1, h2⟩)
        · exact Or.inl h
        · subst h1
          exact absurd h2 hp
        · exact Or.inr ⟨h1, h2⟩

theorem extractModelSpec_ok (params : GoMap Str) (ackedParams : GoMap Bool) (topKey name : Str)
    (h : params.get topKey = some name) :
    extractModelSpec params ackedParams topKey =
      (Except.ok { name := name
                   params := (extractLoop (topKey ++ ['.']) params []
                     (ackedParams.set topKey true)).1 },
        (extractLoop (topKey ++ ['.']) params [] (ackedParams.set topKey true)).2) := by
  simp only [extractModelSpec, h]

theorem loadCryptingParams_ok (d : Deps) (params : GoMap Str) (ak ak1 : GoMap Bool) (cp : Params)
    (h : (loadCryptingParams d params ak).1 = Except.ok cp) :
    loadCryptingParams d params ak1 = (Except.ok cp, ackMTU params ak1) := by
  unfold loadCryptingParams at h ⊢
  unfold ackMTU
  cases hm : params.get bridgeParamMTU with
  | none =>
    simp only [hm] at h ⊢
    cases hv : d.ValidateParams d.defCryptingParams with
    | none =>
      simp only [hv, Except.ok.injEq] at h ⊢
      simp [h]
    | some e => simp [hv] at h
  | some mtuStr =>
    simp only [hm] at h ⊢
    cases hu : ParseUint mtuStr d.IntSize with
    | error e => simp [hu] at h
    | ok mtu =>
      simp only [hu] at h ⊢
      cases hv : d.ValidateParams { MTU := toInt d.IntSize mtu } with
      | none =>
        simp only [hv, Except.ok.injEq] at h ⊢
        simp [h]
      | some e => simp [hv] at h

theorem finalAcked_get (params : GoMap Str) (k : Str) (hk : k ∈ params.keys) :
    (finalAcked params).get k = some true ↔ recognizedKey k = true := by
  unfold finalAcked ackMTU recognizedKey
  rw [GoMap.get_set]
  by_cases h1 : bridgeParamPublicKey = k
  · simp [h1]
  · have h1b : ¬ k = bridgeParamPublicKey := fun h => h1 h.symm
    simp only [h1, if_false, h1b, decide_False, Bool.false_or]
    by_cases hm : (params.get bridgeParamMTU).isSome = true
    · rw [if_pos hm, GoMap.get_set]
      by_cases h2 : bridgeParamMTU = k
      · simp [h2]
      · have h2b : ¬ k = bridgeParamMTU := fun h => h2 h.symm
        simp only [h2, if_false, extractLoop_acked, GoMap.get_set, h2b, decide_False,
          Bool.or_false, Bool.or_eq_true, decide_eq_true_eq]
        simp only [GoMap.get, hk, true_and]
        constructor
        · rintro (h | h)
          · left
            by_contra hne
            have : ¬ bridgeParamModel = k := fun h => hne h.symm
            simp [this] at h
          · exact Or.inr h
        · rintro (h | h)
          · left; simp [h]
          · exact Or.inr h
    · rw [if_neg hm]
      have h2b : ¬ k = bridgeParamMTU := by
        intro h
        apply hm
        rw [GoMap.get_isSome, ← h]
        exact hk
      simp only [extractLoop_acked, GoMap.get_set, h2b, decide_False,
        Bool.or_false, Bool.or_eq_true, decide_eq_true_eq]
      simp only [GoMap.get, hk, true_and]
      constructor
      · rintro (h | h)
        · left
          by_contra hne
          have : ¬ bridgeParamModel = k := fun h => hne h.symm
          simp [this] at h
        · exact Or.inr h
      · rintro (h | h)
        · left; simp [h]
        · exact Or.inr h

/-- `LoadServerPublicBridgeLine` when every step before `CheckUnackedParams`
succeeds. -/
theorem LoadServerPublicBridgeLine_steps (d : Deps) (bline : BridgeLine) (ea : endpointAddress)
    (cp : Params) (pub : Public) (name publicString : Str)
    (haddr : parseEndpointAddress d bline.Address = Except.ok ea)
    (hmodel : bline.Params.get bridgeParamModel = some name)
    (hcp : (loadCryptingParams d bline.Params []).1 = Except.ok cp)
    (hpk : bline.Params.get bridgeParamPublicKey = some publicString)
    (hpub : LoadPublicText d publicString = Except.ok pub) :
    LoadServerPublicBridgeLine d bline =
      match CheckUnackedParams bline.Params (finalAcked bline.Params) with
      | some err => Except.error err
      | none =>
        Except.ok
          { nickname := bline.Nickname
            endpointConfig :=
              { endpointAddress := ea
                modelSpec :=
                  { name := name
                    params := (extractLoop (bridgeParamModel ++ ['.']) bline.Params []
                      (GoMap.set [] bridgeParamModel true)).1 }
                cryptingParams := cp }
            longtermPublic := pub } := by
  simp only [LoadServerPublicBridgeLine, loadEndpointConfigBridgeLine, haddr,
    extractModelSpec_ok _ _ _ _ hmodel, loadCryptingParams_ok d _ _ _ cp hcp, hpk, hpub,
    finalAcked]

theorem CheckUnackedParams_none (params : GoMap Str)
    (h : ∀ key ∈ params.keys, recognizedKey key = true) :
    CheckUnackedParams params (finalAcked params) = none := by
  unfold CheckUnackedParams
  have hf : params.find? (fun kv => ((finalAcked params).get kv.1) != some true) = none := by
    rw [List.find?_eq_none]
    intro kv hkv
    have hk : kv.1 ∈ params.keys := List.mem_map_of_mem Prod.fst hkv
    have := (finalAcked_get params kv.1 hk).mpr (h kv.1 hk)
    simp [this]
  rw [hf]

theorem CheckUnackedParams_some (params : GoMap Str)
    (h : ∃ key ∈ params.keys, recognizedKey key = false) :
    ∃ key ∈ params.keys, recognizedKey key = false ∧
      CheckUnackedParams params (finalAcked params) =
        some (Error.ParameterError ParameterErrorKind.ParameterUnknown "parameter".toList key) := by
  unfold CheckUnackedParams
  cases hf : params.find? (fun kv => ((finalAcked params).get kv.1) != some true) with
  | none =>
    exfalso
    rw [List.find?_eq_none] at hf
    obtain ⟨key, hk, hr⟩ := h
    obtain ⟨kv, hkv, rfl⟩ := List.mem_map.mp hk
    have h1 := hf kv hkv
    simp only [bne_iff_ne, ne_eq, Decidable.not_not] at h1
    rw [finalAcked_get params kv.1 hk] at h1
    rw [h1] at hr
    cases hr
  | some kv =>
    have hmem : kv ∈ params := List.mem_of_find?_eq_some hf
    have hk : kv.1 ∈ params.keys := List.mem_map_of_mem Prod.fst hmem
    have hp := List.find?_some hf
    simp only [bne_iff_ne, ne_eq] at hp
    refine ⟨kv.1, hk, ?_, rfl⟩
    by_contra hr
    apply hp
    rw [finalAcked_get params kv.1 hk]
    simpa using hr

theorem loadCryptingParams_fst (d : Deps) (params : GoMap Str) (ak ak1 : GoMap Bool) :
    (loadCryptingParams d params ak).1 = (loadCryptingParams d params ak1).1 := by
  unfold loadCryptingParams
  cases params.get bridgeParamMTU with
  | none =>
    simp only
    cases d.ValidateParams d.defCryptingParams <;> rfl
  | some mtuStr =>
    simp only
    cases ParseUint mtuStr d.IntSize with
    | error e => rfl
    | ok mtu =>
      simp only
      cases d.ValidateParams { MTU := toInt d.IntSize mtu } <;> rfl

/-- With recognized keys only, `LoadServerPublicBridgeLine` returns an
identity or the error of a step before `CheckUnackedParams`. -/
theorem recognized_keys_pass (d : Deps) (bline : BridgeLine)
    (h : ∀ key ∈ bline.Params.keys, recognizedKey key = true) :
    (∃ spub, LoadServerPublicBridgeLine d bline = Except.ok spub) ∨
    (∃ e, (loadEndpointConfigBridgeLine d bline []).1 = Except.error e ∧
      LoadServerPublicBridgeLine d bline = Except.error e) ∨
    (bline.Params.get bridgeParamPublicKey = none ∧
      LoadServerPublicBridgeLine d bline = Except.error ErrNoPublicKey) ∨
    (∃ publicString e, bline.Params.get bridgeParamPublicKey = some publicString ∧
      LoadPublicText d publicString = Except.error e ∧
      LoadServerPublicBridgeLine d bline = Except.error e) := by
  cases hA : parseEndpointAddress d bline.Address with
  | error e =>
    right; left
    exact ⟨e, by simp only [loadEndpointConfigBridgeLine, hA],
      by simp only [LoadServerPublicBridgeLine, loadEndpointConfigBridgeLine, hA]⟩
  | ok ea =>
    cases hM : bline.Params.get bridgeParamModel with
    | none =>
      right; left
      exact ⟨ErrNoModelName,
        by simp only [loadEndpointConfigBridgeLine, hA, extractModelSpec, hM],
        by simp only [LoadServerPublicBridgeLine, loadEndpointConfigBridgeLine, hA,
          extractModelSpec, hM]⟩
    | some name =>
      cases hC : (loadCryptingParams d bline.Params []).1 with
      | error e =>
        right; left
        have hC1 := hC
        rw [loadCryptingParams_fst d bline.Params []
          (extractLoop (bridgeParamModel ++ ['.']) bline.Params []
            (GoMap.set [] bridgeParamModel true)).2] at hC1
        have e1 : (loadEndpointConfigBridgeLine d bline []).1 = Except.error e := by
          simp only [loadEndpointConfigBridgeLine, hA, extractModelSpec_ok _ _ _ _ hM]
          generalize loadCryptingParams d bline.Params _ = r at hC1 ⊢
          obtain ⟨r1, r2⟩ := r
          simp only at hC1
          subst hC1
          rfl
        refine ⟨e, e1, ?_⟩
        simp only [LoadServerPublicBridgeLine]
        generalize loadEndpointConfigBridgeLine d bline [] = r at e1 ⊢
        obtain ⟨r1, r2⟩ := r
        simp only at e1
        subst e1
        rfl
      | ok cp =>
        cases hK : bline.Params.get bridgeParamPublicKey with
        | none =>
          right; right; left
          refine ⟨rfl, ?_⟩
          simp only [LoadServerPublicBridgeLine, loadEndpointConfigBridgeLine, hA,
            extractModelSpec_ok _ _ _ _ hM, loadCryptingParams_ok d _ _ _ cp hC, hK]
        | some publicString =>
          cases hP : LoadPublicText d publicString with
          | error e =>
            right; right; right
            refine ⟨publicString, e, rfl, hP, ?_⟩
            simp only [LoadServerPublicBridgeLine, loadEndpointConfigBridgeLine, hA,
              extractModelSpec_ok _ _ _ _ hM, loadCryptingParams_ok d _ _ _ cp hC, hK, hP]
          | ok pub =>
            left
            rw [LoadServerPublicBridgeLine_steps d bline ea cp pub name publicString hA hM hC
              hK hP, CheckUnackedParams_none bline.Params h]
            exact ⟨_, rfl⟩

/-- **C8** (unknown parameters are rejected).  For a bridge line whose
address, model name, MTU and public key are valid: if the parameter bag has a
key that is none of `p`, `m`, `mtu` and does not begin with `m.`, then
`LoadServerPublicBridgeLine` fails, with the error for an unacknowledged
parameter that names such a key, and returns no identity; if every key of the
bag is one of those, it returns an identity.  And for any bridge line whose
keys are all of those, valid or not, the result is an identity or the error
of a step before `CheckUnackedParams`: that check raises no error. -/
theorem unknown_parameter_rejected (d : Deps) (bline : BridgeLine) :
    (∀ (ea : endpointAddress) (cp : Params) (pub : Public) (name publicString : Str),
      parseEndpointAddress d bline.Address = Except.ok ea →
      bline.Params.get bridgeParamModel = some name →
      (loadCryptingParams d bline.Params []).1 = Except.ok cp →
      bline.Params.get bridgeParamPublicKey = some publicString →
      LoadPublicText d publicString = Except.ok pub →
      ((∃ key ∈ bline.Params.keys, recognizedKey key = false) →
        ∃ key ∈ bline.Params.keys, recognizedKey key = false ∧
          LoadServerPublicBridgeLine d bline = Except.error
            (Error.ParameterError ParameterErrorKind.ParameterUnknown "parameter".toList key)) ∧
      ((∀ key ∈ bline.Params.keys, recognizedKey key = true) →
        ∃ spub, LoadServerPublicBridgeLine d bline = Except.ok spub)) ∧
    ((∀ key ∈ bline.Params.keys, recognizedKey key = true) →
      (∃ spub, LoadServerPublicBridgeLine d bline = Except.ok spub) ∨
      (∃ e, (loadEndpointConfigBridgeLine d bline []).1 = Except.error e ∧
        LoadServerPublicBridgeLine d bline = Except.error e) ∨
      (bline.Params.get bridgeParamPublicKey = none ∧
        LoadServerPublicBridgeLine d bline = Except.error ErrNoPublicKey) ∨
      (∃ publicString e, bline.Params.get bridgeParamPublicKey = some publicString ∧
        LoadPublicText d publicString = Except.error e ∧
        LoadServerPublicBridgeLine d bline = Except.error e)) := by
  refine ⟨?_, recognized_keys_pass d bline⟩
  intro ea cp pub name publicString haddr hmodel hcp hpk hpub
  have hsteps := LoadServerPublicBridgeLine_steps d bline ea cp pub name publicString haddr
    hmodel hcp hpk hpub
  constructor
  · intro h
    obtain ⟨key, hk, hr, hc⟩ := CheckUnackedParams_some bline.Params h
    refine ⟨key, hk, hr, ?_⟩
    rw [hsteps, hc]
  · intro h
    rw [hsteps, CheckUnackedParams_none bline.Params h]
    exact ⟨_, rfl⟩

set_option maxRecDepth 100000 in
theorem unknown_parameter_rejected_witness :
    (∃ key ∈ zzLine.Params.keys, recognizedKey key = false ∧
      LoadServerPublicBridgeLine sampleDeps zzLine = Except.error
        (Error.ParameterError ParameterErrorKind.ParameterUnknown "parameter".toList key)) ∧
    LoadServerPublicBridgeLine sampleDeps zzLine = Except.error
      (Error.ParameterError ParameterErrorKind.ParameterUnknown "parameter".toList "zz".toList) :=
  ⟨((unknown_parameter_rejected sampleDeps zzLine).1
      { tcpAddr := { IP := [127, 0, 0, 1], Port := 8080, Zone := [] }
        idBytes := [127, 0, 0, 1, 31, 144] }
      { MTU := 1500 } { uniform := sampleKey, derived := sampleKey.reverse }
      "sillyHex".toList (hexEncode sampleKey) (by decide) (by decide) (by decide) (by decide)
      (by decide)).1 ⟨"zz".toList, by decide, by decide⟩,
    by decide⟩

/-! ## Decimal numbers -/

theorem digitChar_toNat (n : Nat) (h : n < 10) : (digitChar n).toNat = 48 + n := by
  interval_cases n <;> rfl

theorem isDigit_digitChar (n : Nat) (h : n < 10) : isDigit (digitChar n) = true := by
  interval_cases n <;> rfl

theorem formatDigits_isDigit (fuel : Nat) :
    ∀ n, ∀ c ∈ formatDigits fuel n, isDigit c = true := by
  induction fuel with
  | zero => intro n c hc; simp [formatDigits] at hc
  | succ fuel ih =>
    intro n c hc
    simp only [formatDigits] at hc
    split at hc
    · rename_i hn
      simp only [List.mem_singleton] at hc
      rw [hc]
      exact isDigit_digitChar n hn
    · rcases List.mem_append.mp hc with h | h
      · exact ih _ c h
      · simp only [List.mem_singleton] at h
        rw [h]
        exact isDigit_digitChar _ (Nat.mod_lt _ (by decide))

theorem formatDigits_value (fuel : Nat) :
    ∀ n, n < fuel → digitsValue (formatDigits fuel n) = n := by
  induction fuel with
  | zero => intro n h; omega
  | succ fuel ih =>
    intro n h
    simp only [formatDigits]
    split
    · rename_i hn
      simp only [digitsValue, List.foldl_cons, List.foldl_nil, digitChar_toNat n hn]
      omega
    · rename_i hn
      have h1 : n / 10 < fuel := by omega
      have h2 := ih (n / 10) h1
      simp only [digitsValue] at h2 ⊢
      rw [List.foldl_append, h2]
      simp only [List.foldl_cons, List.foldl_nil,
        digitChar_toNat (n % 10) (Nat.mod_lt _ (by decide))]
      omega

theorem FormatUint_ne_nil (n : Nat) : FormatUint n ≠ [] := by
  unfold FormatUint
  simp only [formatDigits]
  split
  · simp
  · simp

theorem foldl_digits_le (s : Str) :
    ∀ n : Nat, n ≤ s.foldl (fun acc c => acc * 10 + (c.toNat - 48)) n := by
  induction s with
  | nil => intro n; exact Nat.le_refl n
  | cons c cs ih =>
    intro n
    simp only [List.foldl_cons]
    have := ih (n * 10 + (c.toNat - 48))
    omega

theorem parseUintLoop_ok (s0 : Str) (bitSize : Nat) (s : Str) :
    ∀ n : Nat, (∀ c ∈ s, isDigit c = true) →
      s.foldl (fun acc c => acc * 10 + (c.toNat - 48)) n < 2 ^ bitSize →
      parseUintLoop s0 bitSize s n =
        Except.ok (s.foldl (fun acc c => acc * 10 + (c.toNat - 48)) n) := by
  induction s with
  | nil => intro n _ _; rfl
  | cons c cs ih =>
    intro n hd hlt
    simp only [List.foldl_cons] at hlt ⊢
    have hc := hd c (List.mem_cons_self c cs)
    have hle := foldl_digits_le cs (n * 10 + (c.toNat - 48))
    have hlt1 : n * 10 + (c.toNat - 48) < 2 ^ bitSize := by omega
    simp only [parseUintLoop, hc, if_true, hlt1]
    exact ih _ (fun x hx => hd x (List.mem_cons_of_mem c hx)) hlt

/-- Parsing the decimal text of a number gives the number back. -/
theorem ParseUint_FormatUint (n bitSize : Nat) (h : n < 2 ^ bitSize) :
    ParseUint (FormatUint n) bitSize = Except.ok n := by
  unfold ParseUint
  rw [if_neg (FormatUint_ne_nil n)]
  have hv : digitsValue (FormatUint n) = n := formatDigits_value (n + 1) n (by omega)
  have hd : ∀ c ∈ FormatUint n, isDigit c = true := formatDigits_isDigit (n + 1) n
  unfold digitsValue at hv
  rw [parseUintLoop_ok _ _ _ 0 hd (by rw [hv]; exact h), hv]

/-! ## Addresses -/

theorem LastIndex_none (s : Str) (c : Char) (h : c ∉ s) : LastIndex s c = none := by
  induction s with
  | nil => rfl
  | cons x xs ih =>
    simp only [List.mem_cons, not_or] at h
    simp only [LastIndex, ih h.2]
    rw [if_neg (fun e => h.1 e.symm)]

theorem LastIndex_append (xs ys : Str) (c : Char) (h : c ∉ ys) :
    LastIndex (xs ++ c :: ys) c = some xs.length := by
  induction xs with
  | nil => simp [LastIndex, LastIndex_none ys c h]
  | cons x xs ih => simp [LastIndex, ih]

theorem IndexRune_none (s : Str) (c : Char) : IndexRune s c = none ↔ c ∉ s := by
  induction s with
  | nil => simp [IndexRune]
  | cons x xs ih =>
    simp only [IndexRune, List.mem_cons, not_or]
    by_cases hx : x = c
    · simp [hx]
    · simp only [hx, if_false, Option.map_eq_none', ih]
      constructor
      · intro h; exact ⟨fun e => hx e.symm, h⟩
      · intro h; exact h.2

theorem colon_not_in_FormatUint (n : Nat) : ':' ∉ FormatUint n := by
  intro h
  have := formatDigits_isDigit (n + 1) n ':' h
  revert this
  decide

theorem drop_past (xs ys : Str) (c : Char) : (xs ++ c :: ys).drop (xs.length + 1) = ys := by
  induction xs with
  | nil => rfl
  | cons x xs ih => simp [ih]

theorem take_upto (xs ys : Str) (c : Char) : (xs ++ c :: ys).take xs.length = xs := by
  induction xs with
  | nil => rfl
  | cons x xs ih => simp [ih]

/-- Parsing the text of a well-formed address gives the address back. -/
theorem parseEndpointAddress_String (d : Deps) (ea : endpointAddress)
    (h : WellFormedAddress d ea) :
    parseEndpointAddress d (ea.tcpAddr.String d) = Except.ok ea := by
  obtain ⟨tcp, idb⟩ := ea
  obtain ⟨ip, port, zone⟩ := tcp
  obtain ⟨hz, hp0, hp1, hip, hparse, hbr, hid⟩ := h
  simp only at hz hp0 hp1 hip hparse hbr hid
  subst hz
  have hlen : ¬ ip.length = 0 := by
    intro h0
    exact hip (List.eq_nil_of_length_eq_zero h0)
  have hport : Itoa port = FormatUint port.toNat := by
    unfold Itoa
    rw [if_neg (by omega)]
  have hP : ParseUint (FormatUint port.toNat) 16 = Except.ok port.toNat :=
    ParseUint_FormatUint _ _ (by norm_num; omega)
  have hcast : ((port.toNat : Nat) : Int) = port := Int.toNat_of_nonneg hp0
  have hcol := colon_not_in_FormatUint port.toNat
  simp only [TCPAddr.String, hlen, if_false, ne_eq, not_true_eq_false, hport, JoinHostPort]
  by_cases hc : IndexRune (d.IPString ip) ':' = none
  · simp only [hc, not_true_eq_false, if_false]
    unfold parseEndpointAddress
    rw [LastIndex_append _ _ _ hcol]
    simp only [take_upto, drop_past, hbr, Bool.false_and, hc, ne_eq,
      not_true_eq_false, if_false, hparse, Bool.false_eq_true]
    rw [hP]
    simp only [hcast, hid]
  · simp only [hc, not_false_eq_true, if_true]
    have e1 : '[' :: d.IPString ip ++ ']' :: ':' :: FormatUint port.toNat =
        ('[' :: d.IPString ip ++ [']']) ++ ':' :: FormatUint port.toNat := by simp
    unfold parseEndpointAddress
    rw [e1, LastIndex_append _ _ _ hcol]
    have h1 : HasPrefix ('[' :: d.IPString ip ++ [']']) ['['] = true := by
      simp [HasPrefix]
    have h2 : HasSuffix ('[' :: d.IPString ip ++ [']']) [']'] = true := by
      simp only [HasSuffix, List.isSuffixOf_iff_suffix]
      exact ⟨'[' :: d.IPString ip, rfl⟩
    have h3 : (('[' :: d.IPString ip ++ [']']).take
        (('[' :: d.IPString ip ++ [']']).length - 1)).drop 1 = d.IPString ip := by
      have : ('[' :: d.IPString ip ++ [']']).length - 1 = ('[' :: d.IPString ip).length := by
        simp
      rw [this, List.cons_append, ← List.cons_append, List.take_left']
      · rfl
      · rfl
    simp only [take_upto, drop_past, h1, h2, Bool.and_self, if_true, h3, hparse]
    rw [hP]
    simp only [hcast, hid]

/-! ## The public identity round trip -/

theorem GoMap.get_append {β : Type} (xs ys : GoMap β) (k : Str) :
    GoMap.get (xs ++ ys) k = match GoMap.get xs k with
      | some v => some v
      | none => GoMap.get ys k := by
  induction xs with
  | nil => rfl
  | cons e xs ih =>
    obtain ⟨k2, v2⟩ := e
    simp only [List.cons_append, GoMap.get]
    by_cases h : k2 = k
    · simp [h]
    · simp only [h, if_false]
      exact ih

theorem GoMap.get_none {β : Type} (m : GoMap β) (k : Str) (h : k ∉ m.keys) :
    m.get k = none := by
  cases hg : m.get k with
  | none => rfl
  | some v =>
    exfalso
    apply h
    rw [← GoMap.get_isSome, hg]
    rfl

theorem GoMap.keys_append {β : Type} (xs ys : GoMap β) :
    GoMap.keys (xs ++ ys) = GoMap.keys xs ++ GoMap.keys ys := by
  simp [GoMap.keys]

theorem subEntries_keys (topKey : Str) (l : GoMap Str) (k : Str)
    (h : k ∈ GoMap.keys (subEntries topKey l)) :
    ∃ sub ∈ GoMap.keys l, k = topKey ++ ['.'] ++ sub := by
  simp only [GoMap.keys, subEntries, List.map_map, List.mem_map, Function.comp] at h ⊢
  obtain ⟨kv, hkv, rfl⟩ := h
  exact ⟨kv.1, ⟨kv, hkv, rfl⟩, rfl⟩

theorem HasPrefix_append (p s : Str) : HasPrefix (p ++ s) p = true := by
  simp only [HasPrefix, List.isPrefixOf_iff_prefix]
  exact List.prefix_append p s

theorem insert_fold (topKey : Str) (l : GoMap Str) :
    ∀ acc : GoMap Str, (GoMap.keys l).Nodup →
      (∀ sub ∈ GoMap.keys l, topKey ++ ['.'] ++ sub ∉ GoMap.keys acc) →
      l.foldl (fun acc kv => acc.set (topKey ++ ['.'] ++ kv.1) kv.2) acc =
        acc ++ subEntries topKey l := by
  induction l with
  | nil => intro acc _ _; simp [subEntries]
  | cons e l ih =>
    intro acc hnd hfresh
    obtain ⟨k, v⟩ := e
    have hk : GoMap.keys ((k, v) :: l) = k :: GoMap.keys l := rfl
    rw [hk] at hnd hfresh
    obtain ⟨hk1, hnd1⟩ := List.nodup_cons.mp hnd
    simp only [List.foldl_cons]
    rw [GoMap.set_fresh acc _ v (hfresh k (List.mem_cons_self k _))]
    rw [ih (acc ++ [(topKey ++ ['.'] ++ k, v)]) hnd1]
    · simp [subEntries]
    · intro sub hsub hmem
      rw [GoMap.keys_append, List.mem_append] at hmem
      rcases hmem with hmem | hmem
      · exact hfresh sub (List.mem_cons_of_mem k hsub) hmem
      · simp only [GoMap.keys, List.map_cons, List.map_nil, List.mem_singleton] at hmem
        have : sub = k := List.append_cancel_left hmem
        rw [this] at hsub
        exact hk1 hsub

theorem extractLoop_skip ( subprefix : Str) (xs ys : List (Str × Str))
    (h : ∀ kv ∈ xs, HasPrefix kv.1 subprefix = false) :
    ∀ (mp : GoMap Str) (ak : GoMap Bool),
      extractLoop subprefix (xs ++ ys) mp ak = extractLoop subprefix ys mp ak := by
  induction xs with
  | nil => intro mp ak; rfl
  | cons e xs ih =>
    intro mp ak
    obtain ⟨k, v⟩ := e
    have hk := h (k, v) (List.mem_cons_self _ _)
    simp only at hk
    simp only [List.cons_append, extractLoop, hk, Bool.false_eq_true, if_false]
    exact ih (fun kv hkv => h kv (List.mem_cons_of_mem _ hkv)) mp ak

theorem extractLoop_subEntries (topKey : Str) (l : GoMap Str) :
    ∀ (mp : GoMap Str) (ak : GoMap Bool), (GoMap.keys l).Nodup →
      (∀ sub ∈ GoMap.keys l, sub ∉ GoMap.keys mp) →
      (extractLoop (topKey ++ ['.']) (subEntries topKey l) mp ak).1 = mp ++ l := by
  induction l with
  | nil => intro mp ak _ _; simp [subEntries, extractLoop]
  | cons e l ih =>
    intro mp ak hnd hfresh
    obtain ⟨k, v⟩ := e
    have hk : GoMap.keys ((k, v) :: l) = k :: GoMap.keys l := rfl
    rw [hk] at hnd hfresh
    obtain ⟨hk1, hnd1⟩ := List.nodup_cons.mp hnd
    have hd : (topKey ++ ['.'] ++ k).drop (topKey ++ ['.']).length = k := List.drop_left' rfl
    simp only [subEntries, List.map_cons, extractLoop, HasPrefix_append, if_true, hd]
    rw [GoMap.set_fresh mp k v (hfresh k (List.mem_cons_self k _))]
    have := ih (mp ++ [(k, v)]) (ak.set (topKey ++ ['.'] ++ k) true) hnd1 (by
      intro sub hsub hmem
      rw [GoMap.keys_append, List.mem_append] at hmem
      rcases hmem with hmem | hmem
      · exact hfresh sub (List.mem_cons_of_mem k hsub) hmem
      · simp only [GoMap.keys, List.map_cons, List.map_nil, List.mem_singleton] at hmem
        rw [hmem] at hsub
        exact hk1 hsub)
    simp only [subEntries] at this
    rw [this]
    simp

theorem baseParams_keys (d : Deps) (spub : ServerPublic) (k : Str)
    (h : k ∈ GoMap.keys (baseParams d spub)) :
    k = bridgeParamPublicKey ∨ k = bridgeParamMTU := by
  unfold baseParams at h
  split at h
  · simp only [GoMap.keys, List.map_cons, List.map_nil, List.mem_cons, List.mem_singleton,
      List.not_mem_nil, or_false] at h
    exact h
  · simp only [GoMap.keys, List.map_cons, List.map_nil, List.mem_singleton] at h
    exact Or.inl h

theorem no_sub_prefix (k : Str) (h : k = bridgeParamPublicKey ∨ k = bridgeParamMTU ∨
    k = bridgeParamModel) : HasPrefix k (['m'] ++ ['.']) = false := by
  rcases h with rfl | rfl | rfl <;> decide

theorem sub_key_ne (sub k : Str) (h : k = bridgeParamPublicKey ∨ k = bridgeParamMTU ∨
    k = bridgeParamModel) : ['m'] ++ ['.'] ++ sub ≠ k := by
  intro he
  have h1 := no_sub_prefix k h
  rw [← he, HasPrefix_append] at h1
  cases h1

/-- The parameters of the bridge line of a public identity, entry by entry. -/
theorem BridgeLine_Params (d : Deps) (spub : ServerPublic)
    (hnd : (GoMap.keys spub.endpointConfig.modelSpec.params).Nodup) :
    (spub.BridgeLine d).Params =
      baseParams d spub ++ [(bridgeParamModel, spub.endpointConfig.modelSpec.name)] ++
        subEntries ['m'] spub.endpointConfig.modelSpec.params := by
  have hbase : (if spub.endpointConfig.cryptingParams.MTU ≠ d.defCryptingParams.MTU then
        GoMap.set [(bridgeParamPublicKey, spub.longtermPublic.Text d)] bridgeParamMTU
          (FormatUint (toUint64 spub.endpointConfig.cryptingParams.MTU))
      else [(bridgeParamPublicKey, spub.longtermPublic.Text d)]) = baseParams d spub := by
    unfold baseParams
    split
    · rfl
    · rfl
  simp only [ServerPublic.BridgeLine, insertModelSpec, hbase]
  have hm : ['m'] ∉ GoMap.keys (baseParams d spub) := by
    intro h
    rcases baseParams_keys d spub _ h with h | h <;> revert h <;> decide
  rw [GoMap.set_fresh _ _ _ hm]
  rw [insert_fold ['m'] _ _ hnd]
  · rfl
  · intro sub _ hmem
    rw [GoMap.keys_append, List.mem_append] at hmem
    rcases hmem with hmem | hmem
    · rcases baseParams_keys d spub _ hmem with h | h
      · exact sub_key_ne sub _ (Or.inl rfl) h
      · exact sub_key_ne sub _ (Or.inr (Or.inl rfl)) h
    · simp only [GoMap.keys, List.map_cons, List.map_nil, List.mem_singleton] at hmem
      exact sub_key_ne sub _ (Or.inr (Or.inr rfl)) hmem

theorem toInt_toUint64 (size : Nat) (i : Int) (h0 : 0 < size) (h64 : size ≤ 64) (hi : 0 ≤ i)
    (hlt : i < 2 ^ (size - 1)) :
    toUint64 i < 2 ^ size ∧ toInt size (toUint64 i) = i := by
  have hpow : (2 : Int) ^ (size - 1) * 2 = 2 ^ size := by
    rw [← pow_succ]
    congr 1
    omega
  have hle : (2 : Int) ^ size ≤ 2 ^ 64 := pow_le_pow_right₀ (by norm_num) h64
  have hpos : (0 : Int) < 2 ^ (size - 1) := by positivity
  have h1 : i % 2 ^ 64 = i := Int.emod_eq_of_lt hi (by omega)
  have hn : ((i.toNat : Nat) : Int) = i := Int.toNat_of_nonneg hi
  have hnlt : i.toNat < 2 ^ size := by
    have : ((i.toNat : Nat) : Int) < ((2 ^ size : Nat) : Int) := by
      rw [hn]
      push_cast
      omega
    exact_mod_cast this
  have hnlt1 : i.toNat < 2 ^ (size - 1) := by
    have : ((i.toNat : Nat) : Int) < ((2 ^ (size - 1) : Nat) : Int) := by
      rw [hn]
      push_cast
      exact hlt
    exact_mod_cast this
  unfold toUint64 toInt
  rw [h1]
  refine ⟨hnlt, ?_⟩
  rw [Nat.mod_eq_of_lt hnlt, if_pos hnlt1, hn]

theorem bridge_get_base (d : Deps) (spub : ServerPublic) (k : Str) (rest : GoMap Str)
    (h : k ∉ GoMap.keys rest) (hm : k ≠ bridgeParamModel) :
    GoMap.get (baseParams d spub ++ [(bridgeParamModel, spub.endpointConfig.modelSpec.name)] ++
      rest) k = GoMap.get (baseParams d spub) k := by
  rw [GoMap.get_append, GoMap.get_append]
  cases hb : GoMap.get (baseParams d spub) k with
  | some v => rfl
  | none =>
    simp only [GoMap.get, Ne.symm hm, if_false]
    exact GoMap.get_none rest k h

theorem subEntries_not_mem (l : GoMap Str) (k : Str)
    (h : k = bridgeParamPublicKey ∨ k = bridgeParamMTU ∨ k = bridgeParamModel) :
    k ∉ GoMap.keys (subEntries ['m'] l) := by
  intro hmem
  obtain ⟨sub, _, he⟩ := subEntries_keys ['m'] l k hmem
  exact sub_key_ne sub k h he.symm

theorem GoMap.get_perm {β : Type} (xs ys : GoMap β) (h : List.Perm xs ys)
    (hnd : (GoMap.keys xs).Nodup) (k : Str) : GoMap.get xs k = GoMap.get ys k := by
  induction h with
  | nil => rfl
  | cons e _ ih =>
    obtain ⟨k1, v1⟩ := e
    have hnd1 : (GoMap.keys _).Nodup := (List.nodup_cons.mp hnd).2
    simp only [GoMap.get, ih hnd1]
  | swap e1 e2 l =>
    obtain ⟨k1, v1⟩ := e1
    obtain ⟨k2, v2⟩ := e2
    have hne : k2 ≠ k1 := by
      intro he
      change (k2 :: k1 :: GoMap.keys l).Nodup at hnd
      apply (List.nodup_cons.mp hnd).1
      rw [he]
      exact List.mem_cons_self k1 _
    simp only [GoMap.get]
    by_cases h1 : k1 = k
    · have h2 : ¬ k2 = k := fun h => hne (h.trans h1.symm)
      simp [h1, h2]
    · simp [h1]
  | trans h1 _ ih1 ih2 =>
    have hk : List.Perm (GoMap.keys _) (GoMap.keys _) := List.Perm.map Prod.fst h1
    rw [ih1 hnd, ih2 ((List.Perm.nodup_iff hk).mp hnd)]

theorem extractLoop_stripped ( subprefix : Str) (entries : GoMap Str) :
    ∀ (mp : GoMap Str) (ak : GoMap Bool),
      (GoMap.keys (mp ++ strippedEntries subprefix entries)).Nodup →
      (extractLoop subprefix entries mp ak).1 = mp ++ strippedEntries subprefix entries := by
  induction entries with
  | nil => intro mp ak _; simp [extractLoop, strippedEntries]
  | cons e entries ih =>
    intro mp ak hnd
    obtain ⟨k, v⟩ := e
    by_cases hp : HasPrefix k subprefix = true
    · have hs : strippedEntries subprefix ((k, v) :: entries) =
          (k.drop subprefix.length, v) :: strippedEntries subprefix entries := by
        simp [strippedEntries, hp]
      rw [hs] at hnd ⊢
      have hnd2 : (GoMap.keys ((mp ++ [(k.drop subprefix.length, v)]) ++
          strippedEntries subprefix entries)).Nodup := by
        simpa using hnd
      have hfresh : k.drop subprefix.length ∉ GoMap.keys mp := by
        intro hmem
        rw [GoMap.keys_append, GoMap.keys_append] at hnd2
        have h1 := (List.nodup_append.mp (List.nodup_append.mp hnd2).1).2.2
        exact h1 hmem (by simp [GoMap.keys])
      simp only [extractLoop, hp, if_true]
      rw [GoMap.set_fresh mp _ v hfresh, ih _ _ hnd2]
      simp
    · have hs : strippedEntries subprefix ((k, v) :: entries) =
          strippedEntries subprefix entries := by
        simp [strippedEntries, hp]
      rw [hs] at hnd ⊢
      simp only [extractLoop, hp, Bool.false_eq_true, if_false]
      exact ih _ _ hnd

theorem strippedEntries_perm ( subprefix : Str) (xs ys : GoMap Str) (h : List.Perm xs ys) :
    List.Perm (strippedEntries subprefix xs) (strippedEntries subprefix ys) :=
  List.Perm.map _ (List.Perm.filter _ h)

theorem strippedEntries_append ( subprefix : Str) (xs ys : GoMap Str) :
    strippedEntries subprefix (xs ++ ys) =
      strippedEntries subprefix xs ++ strippedEntries subprefix ys := by
  simp [strippedEntries]

theorem strippedEntries_none ( subprefix : Str) (xs : GoMap Str)
    (h : ∀ kv ∈ xs, HasPrefix kv.1 subprefix = false) : strippedEntries subprefix xs = [] := by
  simp only [strippedEntries, List.map_eq_nil_iff, List.filter_eq_nil_iff]
  intro kv hkv
  simp [h kv hkv]

theorem strippedEntries_subEntries (topKey : Str) (l : GoMap Str) :
    strippedEntries (topKey ++ ['.']) (subEntries topKey l) = l := by
  induction l with
  | nil => rfl
  | cons e l ih =>
    obtain ⟨k, v⟩ := e
    have hd : (topKey ++ ['.'] ++ k).drop (topKey ++ ['.']).length = k := List.drop_left' rfl
    simp only [strippedEntries, subEntries, List.map_cons, List.filter_cons, HasPrefix_append,
      if_true, hd] at ih ⊢
    rw [ih]

/-- What `extractModelSpec` reads off the bridge line of a public identity
are the model parameters of the identity. -/
theorem strippedEntries_BridgeLine (d : Deps) (spub : ServerPublic)
    (hnd : (GoMap.keys spub.endpointConfig.modelSpec.params).Nodup) :
    strippedEntries (bridgeParamModel ++ ['.']) (spub.BridgeLine d).Params =
      spub.endpointConfig.modelSpec.params := by
  rw [BridgeLine_Params d spub hnd, strippedEntries_append, strippedEntries_append]
  rw [strippedEntries_none _ (baseParams d spub), strippedEntries_none _ [_]]
  · exact strippedEntries_subEntries ['m'] _
  · intro kv hkv
    simp only [List.mem_singleton] at hkv
    rw [hkv]
    exact no_sub_prefix _ (Or.inr (Or.inr rfl))
  · intro kv hkv
    have hk : kv.1 ∈ GoMap.keys (baseParams d spub) := List.mem_map_of_mem Prod.fst hkv
    rcases baseParams_keys d spub _ hk with h | h
    · exact no_sub_prefix _ (Or.inl h)
    · exact no_sub_prefix _ (Or.inr (Or.inl h))

theorem subEntries_keys_nodup (topKey : Str) (l : GoMap Str) (h : (GoMap.keys l).Nodup) :
    (GoMap.keys (subEntries topKey l)).Nodup := by
  have : GoMap.keys (subEntries topKey l) = (GoMap.keys l).map (fun k => topKey ++ ['.'] ++ k) := by
    simp [GoMap.keys, subEntries, Function.comp]
  rw [this]
  exact List.Nodup.map (fun a b hab => List.append_cancel_left hab) h

/-- The parameters of the bridge line of a public identity are a map. -/
theorem BridgeLine_keys_nodup (d : Deps) (spub : ServerPublic)
    (hnd : (GoMap.keys spub.endpointConfig.modelSpec.params).Nodup) :
    (GoMap.keys (spub.BridgeLine d).Params).Nodup := by
  rw [BridgeLine_Params d spub hnd, GoMap.keys_append, GoMap.keys_append]
  have hb : (GoMap.keys (baseParams d spub)).Nodup := by
    unfold baseParams
    split <;> simp [GoMap.keys, bridgeParamPublicKey, bridgeParamMTU]
  rw [List.nodup_append]
  refine ⟨?_, subEntries_keys_nodup _ _ hnd, ?_⟩
  · rw [List.nodup_append]
    refine ⟨hb, by simp [GoMap.keys], ?_⟩
    intro k hk hk2
    simp only [GoMap.keys, List.map_cons, List.map_nil, List.mem_singleton] at hk2
    rw [hk2] at hk
    rcases baseParams_keys d spub _ hk with h | h <;> revert h <;> decide
  · intro k hk hk2
    obtain ⟨sub, _, he⟩ := subEntries_keys ['m'] _ k hk2
    rw [List.mem_append] at hk
    rcases hk with hk | hk
    · rcases baseParams_keys d spub _ hk with h | h
      · exact sub_key_ne sub k (Or.inl h) he.symm
      · exact sub_key_ne sub k (Or.inr (Or.inl h)) he.symm
    · simp only [GoMap.keys, List.map_cons, List.map_nil, List.mem_singleton] at hk
      exact sub_key_ne sub k (Or.inr (Or.inr hk)) he.symm

/-- Loading a bridge line whose parameters are those of the bridge line of a
well-formed public identity, met by `range` in any order. -/
theorem load_any_order (d : Deps) (p : ServerPublic) (h : WellFormedPublic d p)
    (params : GoMap Str) (hperm : List.Perm params (p.BridgeLine d).Params) :
    LoadServerPublicBridgeLine d
        { Nickname := p.nickname, Address := (p.BridgeLine d).Address, Params := params } =
      Except.ok
        { nickname := p.nickname
          endpointConfig :=
            { endpointAddress := p.endpointConfig.endpointAddress
              modelSpec :=
                { name := p.endpointConfig.modelSpec.name
                  params := strippedEntries (bridgeParamModel ++ ['.']) params }
              cryptingParams := p.endpointConfig.cryptingParams }
          longtermPublic := p.longtermPublic } := by
  obtain ⟨hs0, hs64, haddr, hnd, hm0, hm1, hval, hdec, hrec⟩ := h
  have hparams := BridgeLine_Params d p hnd
  have hkeys : List.Perm (GoMap.keys params) (GoMap.keys (p.BridgeLine d).Params) :=
    List.Perm.map Prod.fst hperm
  have hndB := BridgeLine_keys_nodup d p hnd
  have hndP : (GoMap.keys params).Nodup := (List.Perm.nodup_iff hkeys).mpr hndB
  have hget : ∀ k, GoMap.get params k = GoMap.get (p.BridgeLine d).Params k :=
    fun k => GoMap.get_perm _ _ hperm hndP k
  have hA : parseEndpointAddress d (p.BridgeLine d).Address =
      Except.ok p.endpointConfig.endpointAddress :=
    parseEndpointAddress_String d _ haddr
  have hM : GoMap.get params bridgeParamModel = some p.endpointConfig.modelSpec.name := by
    rw [hget, hparams, GoMap.get_append, GoMap.get_append]
    have : GoMap.get (baseParams d p) bridgeParamModel = none := by
      apply GoMap.get_none
      intro hmem
      rcases baseParams_keys d p _ hmem with h | h <;> revert h <;> decide
    rw [this]
    simp [GoMap.get]
  have hK : GoMap.get params bridgeParamPublicKey = some (p.longtermPublic.Text d) := by
    rw [hget, hparams,
      bridge_get_base d p _ _ (subEntries_not_mem _ _ (Or.inl rfl)) (by decide)]
    unfold baseParams
    split <;> simp [GoMap.get]
  have hP : LoadPublicText d (p.longtermPublic.Text d) = Except.ok p.longtermPublic := by
    simp only [LoadPublicText, Public.Text, hdec, hrec]
  have hC : (loadCryptingParams d params []).1 = Except.ok p.endpointConfig.cryptingParams := by
    have hg : GoMap.get params bridgeParamMTU = GoMap.get (baseParams d p) bridgeParamMTU := by
      rw [hget, hparams]
      exact bridge_get_base d p _ _ (subEntries_not_mem _ _ (Or.inr (Or.inl rfl))) (by decide)
    unfold loadCryptingParams
    rw [hg]
    by_cases hdef : p.endpointConfig.cryptingParams.MTU = d.defCryptingParams.MTU
    · have hb : GoMap.get (baseParams d p) bridgeParamMTU = none := by
        unfold baseParams
        rw [if_neg (by simpa using hdef)]
        simp [GoMap.get, bridgeParamPublicKey, bridgeParamMTU]
      have hcp : d.defCryptingParams = p.endpointConfig.cryptingParams := by
        cases hx : d.defCryptingParams
        cases hy : p.endpointConfig.cryptingParams
        rw [hx, hy] at hdef
        simp only at hdef
        rw [hdef]
      simp only [hb, hcp, hval]
    · have hb : GoMap.get (baseParams d p) bridgeParamMTU =
          some (FormatUint (toUint64 p.endpointConfig.cryptingParams.MTU)) := by
        unfold baseParams
        rw [if_pos hdef]
        simp [GoMap.get, bridgeParamPublicKey, bridgeParamMTU]
      obtain ⟨hu, hi⟩ := toInt_toUint64 d.IntSize _ hs0 hs64 hm0 hm1
      have hcp : ({ MTU := p.endpointConfig.cryptingParams.MTU } : Params) =
          p.endpointConfig.cryptingParams := rfl
      simp only [hb, ParseUint_FormatUint _ _ hu, hi, hcp, hval]
  have hsteps := LoadServerPublicBridgeLine_steps d
    { Nickname := p.nickname, Address := (p.BridgeLine d).Address, Params := params }
    _ _ _ _ _ hA hM hC hK hP
  have hrecog : ∀ key ∈ GoMap.keys params, recognizedKey key = true := by
    intro key hkey
    have hkey := (List.Perm.mem_iff hkeys).mp hkey
    rw [hparams, GoMap.keys_append, GoMap.keys_append, List.mem_append, List.mem_append] at hkey
    rcases hkey with (hkey | hkey) | hkey
    · rcases baseParams_keys d p _ hkey with h | h <;> rw [h] <;> decide
    · simp only [GoMap.keys, List.map_cons, List.map_nil, List.mem_singleton] at hkey
      rw [hkey]
      decide
    · obtain ⟨sub, _, he⟩ := subEntries_keys ['m'] _ key hkey
      rw [he]
      have := HasPrefix_append (['m'] ++ ['.']) sub
      simp only [recognizedKey, bridgeParamModel, this, Bool.or_true]
  rw [hsteps]
  simp only [CheckUnackedParams_none _ hrecog]
  have hstr := strippedEntries_perm (bridgeParamModel ++ ['.']) _ _ hperm
  rw [strippedEntries_BridgeLine d p hnd] at hstr
  have hE : (extractLoop (bridgeParamModel ++ ['.']) params []
      (GoMap.set [] bridgeParamModel true)).1 =
      strippedEntries (bridgeParamModel ++ ['.']) params := by
    have := extractLoop_stripped (bridgeParamModel ++ ['.']) params []
      (GoMap.set [] bridgeParamModel true) (by
        rw [List.nil_append]
        exact (List.Perm.nodup_iff (List.Perm.map Prod.fst hstr)).mpr hnd)
    simpa using this
  rw [hE]

/-- **C6** (public identity round trip).  For every well-formed server
public identity `p`, loading the bridge line of `p` succeeds and returns `p`:
the same nickname, endpoint address, model name and model parameters,
crypting parameters and long-term public key.  This does not depend on the
order in which a `range` meets the entries of the parameter map: with the
entries of the bridge line in any other order the load succeeds as well, and
returns the same identity, with the same model parameters in some order. -/
theorem public_round_trip (d : Deps) (p : ServerPublic) (h : WellFormedPublic d p) :
    LoadServerPublicBridgeLine d (p.BridgeLine d) = Except.ok p ∧
    ∀ params : GoMap Str, List.Perm params (p.BridgeLine d).Params →
      ∃ mp : GoMap Str, List.Perm mp p.endpointConfig.modelSpec.params ∧
        LoadServerPublicBridgeLine d
            { Nickname := p.nickname, Address := (p.BridgeLine d).Address, Params := params } =
          Except.ok
            { p with endpointConfig :=
                { p.endpointConfig with modelSpec :=
                    { name := p.endpointConfig.modelSpec.name, params := mp } } } := by
  have hnd := h.2.2.2.1
  constructor
  · have := load_any_order d p h _ (List.Perm.refl _)
    rw [strippedEntries_BridgeLine d p hnd] at this
    exact this
  · intro params hperm
    refine ⟨strippedEntries (bridgeParamModel ++ ['.']) params, ?_, load_any_order d p h _ hperm⟩
    have := strippedEntries_perm (bridgeParamModel ++ ['.']) _ _ hperm
    rw [strippedEntries_BridgeLine d p hnd] at this
    exact this

set_option maxRecDepth 100000 in
theorem public_round_trip_witness :
    WellFormedPublic sampleDeps samplePublic ∧
    LoadServerPublicBridgeLine sampleDeps (samplePublic.BridgeLine sampleDeps) =
      Except.ok samplePublic :=
  ⟨⟨by decide, by decide,
      ⟨by decide, by decide, by decide, by decide, by decide, by decide, by decide⟩,
      by decide, by decide, by decide, by decide, by decide, by decide⟩,
    (public_round_trip sampleDeps samplePublic
      ⟨by decide, by decide,
        ⟨by decide, by decide, by decide, by decide, by decide, by decide, by decide⟩,
        by decide, by decide, by decide, by decide, by decide, by decide⟩).1⟩

/-! ## Carry-over, termination and bounds of the packet loop -/

theorem pendStep_packet {W : Type} (st : FillState W) (h : WindowOk st) :
    WindowOk (pendStep st) ∧ st.packet <+: (pendStep st).packet ∧
    (pendStep st).packet ++ (pendStep st).sh.outPending = st.packet ++ st.sh.outPending := by
  obtain ⟨a1, _, _, a4⟩ := pendStep_ok st h
  refine ⟨a1, ?_, a4⟩
  obtain ⟨h1, h2⟩ := h
  have ht := copyInto_take st.sh.outBuf st.outTail st.sh.outPending h2
  simp only [FillState.packet, pendStep]
  rw [h1, ht]
  exact List.prefix_append _ _

theorem pullStep_packet {W : Type} (c : Collaborators W) (st : FillState W) (h : WindowOk st)
    (hp : st.sh.outPending = []) :
    WindowOk (pullStep c st) ∧ st.packet <+: (pullStep c st).packet ∧
    (pullStep c st).packet ++ (pullStep c st).sh.outPending =
      st.packet ++ pullEncoded c st := by
  obtain ⟨a1, _, _, a4⟩ := pullStep_ok c st h hp
  refine ⟨a1, ?_, ?_⟩
  · obtain ⟨h1, h2⟩ := h
    have ht := copyInto_take st.sh.outBuf st.outTail (pullEncoded c st) h2
    simp only [FillState.packet, pullStep]
    rw [h1, ht]
    exact List.prefix_append _ _
  · rw [hp, List.append_nil] at a4
    exact a4

theorem split_first_pull (a b : Event) (hb : ∀ n e, b ≠ Event.PullWrite n e)
    (evs pre post : List Event) (n : Int) (e : Option Error)
    (h : a :: b :: evs = pre ++ Event.PullWrite n e :: post) :
    pre = [] ∨ ∃ pre1, pre = a :: b :: pre1 ∧ evs = pre1 ++ Event.PullWrite n e :: post := by
  cases pre with
  | nil => exact Or.inl rfl
  | cons x pre =>
    cases pre with
    | nil =>
      simp only [List.cons_append, List.nil_append, List.cons.injEq] at h
      exact absurd h.2.1 (hb n e)
    | cons y pre1 =>
      simp only [List.cons_append, List.cons.injEq] at h
      obtain ⟨rfl, rfl, h3⟩ := h
      exact Or.inr ⟨pre1, rfl, h3⟩

theorem fillLoop_pulls {W : Type} (c : Collaborators W) (fuel : Nat) (st : FillState W) :
    PullRel st (fillLoop c fuel st).1 := by
  apply fillLoop_rule c (fun st st1 _ => PullRel st st1)
  · intro st _ _
    refine ⟨List.prefix_refl _, [], by simp, ?_⟩
    intro pre n e post h
    have := congrArg List.length h
    simp at this
    omega
  · intro st _ _
    refine ⟨List.prefix_refl _, [], by simp, ?_⟩
    intro pre n e post h
    have := congrArg List.length h
    simp at this
    omega
  · intro st st1 ex _ _ ih hw
    obtain ⟨a1, a2, a3⟩ := pendStep_packet st hw
    obtain ⟨b1, evs, b2, b3⟩ := ih a1
    refine ⟨a2.trans b1, evs, b2, ?_⟩
    intro pre n e post h
    have := b3 pre n e post h
    rw [a3] at this
    exact this
  · intro st _ hp _ _ _
    refine ⟨List.prefix_refl _, [Event.PullWrite (pullCount c st) (pullErr c st)], rfl, ?_⟩
    intro pre n e post h
    cases pre with
    | nil =>
      simp only [hp, encodedOf, List.append_nil]
      exact List.prefix_refl _
    | cons x pre =>
      have := congrArg List.length h
      simp at this
  · intro st _ hp _ _
    refine ⟨List.prefix_refl _, [Event.PullWrite (pullCount c st) (pullErr c st)], rfl, ?_⟩
    intro pre n e post h
    cases pre with
    | nil =>
      simp only [hp, encodedOf, List.append_nil]
      exact List.prefix_refl _
    | cons x pre =>
      have := congrArg List.length h
      simp at this
  · intro st _ hp _ hw
    obtain ⟨_, a2, _⟩ := pullStep_packet c st hw hp
    refine ⟨a2, [Event.PullWrite (pullCount c st) (pullErr c st),
      Event.EncodeBytes (pullPlain c st) (pullEncoded c st)], by simp [pullStep], ?_⟩
    intro pre n e post h
    rcases split_first_pull _ _ (by intro n e hne; cases hne) [] pre post n e h with rfl | h1
    · simp only [hp, encodedOf, List.append_nil]
      exact a2
    · obtain ⟨pre1, _, h2⟩ := h1
      have := congrArg List.length h2
      simp at this
      omega
  · intro st st1 ex _ hp _ ih hw
    obtain ⟨a1, a2, a3⟩ := pullStep_packet c st hw hp
    obtain ⟨b1, evs, b2, b3⟩ := ih a1
    refine ⟨a2.trans b1, [Event.PullWrite (pullCount c st) (pullErr c st),
      Event.EncodeBytes (pullPlain c st) (pullEncoded c st)] ++ evs,
      by rw [b2]; simp [pullStep], ?_⟩
    intro pre n e post h
    rcases split_first_pull _ _ (by intro n e hne; cases hne) evs pre post n e h with rfl | h1
    · simp only [hp, encodedOf, List.append_nil]
      exact a2.trans b1
    · obtain ⟨pre1, rfl, h2⟩ := h1
      have := b3 pre1 n e post h2
      rw [a3] at this
      simpa [encodedOf, hp] using this

theorem fillLoop_carry {W : Type} (c : Collaborators W) (fuel : Nat) (st : FillState W) :
    (fillLoop c fuel st).2 = FillExit.done → (fillLoop c fuel st).1.sh.outPending ≠ [] →
      (fillLoop c fuel st).1.outTail.len = 0 := by
  apply fillLoop_rule c (fun _ st1 ex => ex = FillExit.done → st1.sh.outPending ≠ [] →
    st1.outTail.len = 0)
  · intro st _ h; cases h
  · intro st h _ _; exact h
  · intro st st1 ex _ _ ih; exact ih
  · intro st _ _ _ _ h; cases h
  · intro st _ _ _ h; cases h
  · intro st _ hp _ _ hne
    have hc := copyInto_copied st.sh.outBuf st.outTail (pullEncoded c st)
    simp only [pullStep, hp, List.nil_append] at hne ⊢
    split at hne
    · rename_i hlen
      simp only [List.length_drop] at hlen
      simp only [Window.drop]
      omega
    · exact absurd rfl hne
  · intro st st1 ex _ _ _ ih; exact ih

/-- A tick that returns without error, in terms of its loop: the loop ran to
its end, and the packet it built was handed to `Write`. -/
theorem handleTimer_done {W : Type} (c : Collaborators W) (fuel : Nat) (sh : Shaper W)
    (h : (sh.handleTimer c fuel).exit = Exit.returned none) :
    WindowOk (tickStart c sh) ∧ 0 ≤ (c.NextPacketLength sh.world).1 ∧
    (fillLoop c fuel (tickStart c sh)).2 = FillExit.done ∧
    (sh.handleTimer c fuel).sh.outPending = (fillLoop c fuel (tickStart c sh)).1.sh.outPending ∧
    (sh.handleTimer c fuel).trace = (fillLoop c fuel (tickStart c sh)).1.trace ++
      [Event.Write (fillLoop c fuel (tickStart c sh)).1.packet] := by
  by_cases hp : (c.NextPacketLength sh.world).1 < 0 ∨
      (c.NextPacketLength sh.world).1 > (sh.outBuf.length : Int)
  · rw [handleTimer_panic c fuel sh hp] at h
    cases h
  · rw [handleTimer_eq c fuel sh hp] at h ⊢
    refine ⟨tickStart_ok c sh hp, by omega, ?_⟩
    generalize fillLoop c fuel (tickStart c sh) = fr at *
    obtain ⟨st1, ex⟩ := fr
    cases ex with
    | done => exact ⟨rfl, rfl, rfl⟩
    | fatal e => simp at h
    | panicked => simp at h
    | outOfFuel => simp at h

theorem fillLoop_trace_ext {W : Type} (c : Collaborators W) (fuel : Nat) (st : FillState W) :
    ∃ evs, (fillLoop c fuel st).1.trace = st.trace ++ evs := by
  apply fillLoop_rule c (fun st st1 _ => ∃ evs, st1.trace = st.trace ++ evs)
  · intro st _; exact ⟨[], by simp⟩
  · intro st _; exact ⟨[], by simp⟩
  · intro st st1 ex _ _ ih; exact ih
  · intro st _ _ _ _; exact ⟨_, rfl⟩
  · intro st _ _ _; exact ⟨_, rfl⟩
  · intro st _ _ _
    exact ⟨[Event.PullWrite (pullCount c st) (pullErr c st)] ++
      [Event.EncodeBytes (pullPlain c st) (pullEncoded c st)], by simp [pullStep]⟩
  · intro st st1 ex _ _ _ ih
    obtain ⟨evs, he⟩ := ih
    exact ⟨[Event.PullWrite (pullCount c st) (pullErr c st)] ++
      ([Event.EncodeBytes (pullPlain c st) (pullEncoded c st)] ++ evs),
      by rw [he]; simp only [pullStep, List.append_assoc]⟩

/-- Every `PullWrite` of the loop is made from a loop state with an empty
pending queue: if the trace of the loop from `st` is `st.trace ++ pre`, then a
`PullWrite`, then more, there is a number `k` of iterations after which the
loop is still running, has made exactly the calls `pre`, and has nothing
pending. -/
theorem fillLoop_pull_points {W : Type} (c : Collaborators W) (fuel : Nat) :
    ∀ (st : FillState W) (pre : List Event) (n : Int) (e : Option Error) (post : List Event),
      (fillLoop c fuel st).1.trace = st.trace ++ (pre ++ Event.PullWrite n e :: post) →
      ∃ k, (fillLoop c k st).2 = FillExit.outOfFuel ∧
        (fillLoop c k st).1.trace = st.trace ++ pre ∧
        (fillLoop c k st).1.sh.outPending = [] := by
  induction fuel with
  | zero =>
    intro st pre n e post h
    have := congrArg List.length h
    simp [fillLoop] at this
  | succ fuel ih =>
    intro st pre n e post h
    rw [fillLoop_succ] at h
    by_cases ht : st.outTail.len > 0
    · rw [if_pos ht] at h
      have hzero : fillLoop c 0 st = (st, FillExit.outOfFuel) := by
        simp [fillLoop, ht]
      by_cases hp : st.sh.outPending.length > 0
      · rw [if_pos hp] at h
        obtain ⟨k, k1, k2, k3⟩ := ih (pendStep st) pre n e post h
        refine ⟨k + 1, ?_, ?_, ?_⟩ <;> rw [fillLoop_succ, if_pos ht, if_pos hp]
        · exact k1
        · exact k2
        · exact k3
      · rw [if_neg hp] at h
        have hnil : st.sh.outPending = [] := by
          cases hq : st.sh.outPending with
          | nil => rfl
          | cons x xs => rw [hq] at hp; simp at hp
        have hfirst : pre = [] →
            ∃ k, (fillLoop c k st).2 = FillExit.outOfFuel ∧
              (fillLoop c k st).1.trace = st.trace ++ pre ∧
              (fillLoop c k st).1.sh.outPending = [] := by
          intro hpre
          refine ⟨0, ?_, ?_, ?_⟩ <;> rw [hzero]
          · rw [hpre]; simp
          · exact hnil
        by_cases hf : pullErr c st ≠ none ∧ pullErr c st ≠ some Error.ErrNoProgress
        · rw [if_pos hf] at h
          apply hfirst
          have h1 : [Event.PullWrite (pullCount c st) (pullErr c st)] =
              pre ++ Event.PullWrite n e :: post := List.append_cancel_left h
          cases pre with
          | nil => rfl
          | cons x pre =>
            have := congrArg List.length h1
            simp at this
        · rw [if_neg hf] at h
          by_cases hpn : pullCount c st < 0 ∨ pullCount c st > ((pulledBuf c st).length : Int)
          · rw [if_pos hpn] at h
            apply hfirst
            have h1 : [Event.PullWrite (pullCount c st) (pullErr c st)] =
                pre ++ Event.PullWrite n e :: post := List.append_cancel_left h
            cases pre with
            | nil => rfl
            | cons x pre =>
              have := congrArg List.length h1
              simp at this
          · rw [if_neg hpn] at h
            by_cases hb : pullErr c st ≠ none
            · rw [if_pos hb] at h
              apply hfirst
              have h1 : Event.PullWrite (pullCount c st) (pullErr c st) ::
                  Event.EncodeBytes (pullPlain c st) (pullEncoded c st) :: [] =
                  pre ++ Event.PullWrite n e :: post := by
                refine @List.append_cancel_left _ st.trace _ _ ?_
                rw [← h]
                simp [pullStep]
              rcases split_first_pull _ _ (by intro n e hne; cases hne) [] pre post n e h1
                with hpre | ⟨pre1, _, h2⟩
              · exact hpre
              · have := congrArg List.length h2
                simp at this
                omega
            · rw [if_neg hb] at h
              obtain ⟨evs, hev⟩ := fillLoop_trace_ext c fuel (pullStep c st)
              have h1 : Event.PullWrite (pullCount c st) (pullErr c st) ::
                  Event.EncodeBytes (pullPlain c st) (pullEncoded c st) :: evs =
                  pre ++ Event.PullWrite n e :: post := by
                refine @List.append_cancel_left _ st.trace _ _ ?_
                rw [← h, hev]
                simp [pullStep]
              rcases split_first_pull _ _ (by intro n e hne; cases hne) evs pre post n e h1
                with hpre | ⟨pre1, hpre, h2⟩
              · exact hfirst hpre
              · have h3 : (fillLoop c fuel (pullStep c st)).1.trace =
                    (pullStep c st).trace ++ (pre1 ++ Event.PullWrite n e :: post) := by
                  rw [hev, h2]
                obtain ⟨k, k1, k2, k3⟩ := ih (pullStep c st) pre1 n e post h3
                refine ⟨k + 1, ?_, ?_, ?_⟩ <;>
                  rw [fillLoop_succ, if_pos ht, if_neg hp, if_neg hf, if_neg hpn, if_neg hb]
                · exact k1
                · rw [k2, hpre]
                  simp [pullStep]
                · exact k3
    · rw [if_neg ht] at h
      have := congrArg List.length h
      simp at this

/-- **C19** (carry-over implies a full packet).  For a tick of `handleTimer`
that returns without error: if the pending queue is not empty after the tick,
the packet handed to `Write` has exactly the requested length, so a shorter
packet is written only when the pending queue ends the tick empty.  And
`PullWrite` is called only while the pending queue is empty: for each
`PullWrite` of the tick there is a number k of iterations after which the
loop is still running, has made exactly the calls that precede that
`PullWrite`, and is in a state whose pending queue is empty; so all that was
pending before the tick, and all that `EncodeBytes` returned before that call,
is in the packet. -/
theorem carry_over_full_packet {W : Type} (c : Collaborators W) (fuel : Nat) (sh : Shaper W)
    (h : (sh.handleTimer c fuel).exit = Exit.returned none) :
    ∃ p, writesOf (sh.handleTimer c fuel).trace = [p] ∧
      ((sh.handleTimer c fuel).sh.outPending ≠ [] →
        (p.length : Int) = (c.NextPacketLength sh.world).1) ∧
      ((p.length : Int) < (c.NextPacketLength sh.world).1 →
        (sh.handleTimer c fuel).sh.outPending = []) ∧
      ∀ pre n e post, (sh.handleTimer c fuel).trace = pre ++ Event.PullWrite n e :: post →
        (∃ k, (fillLoop c k (tickStart c sh)).2 = FillExit.outOfFuel ∧
          (fillLoop c k (tickStart c sh)).1.trace = pre ∧
          (fillLoop c k (tickStart c sh)).1.sh.outPending = []) ∧
        (sh.outPending ++ encodedOf pre) <+: p := by
  obtain ⟨hw, hL, hdone, hpend, htrace⟩ := handleTimer_done c fuel sh h
  obtain ⟨a1, a2, _, _, evs, a5, _, a7⟩ := fillLoop_rel c fuel (tickStart c sh) hw
  obtain ⟨_, evs1, b2, b3⟩ := fillLoop_pulls c fuel (tickStart c sh) hw
  have hcarry := fillLoop_carry c fuel (tickStart c sh) hdone
  have hev : evs1 = evs := List.append_cancel_left (b2.symm.trans a5)
  subst hev
  rw [hdone] at a7
  have hwrites : writesOf evs1 = [] := by
    rcases a7 with ⟨_, hq⟩ | ⟨evs0, k, q, e, he, hq⟩
    · exact writesOf_quiet evs1 hq
    · rw [he, writesOf_append, writesOf_quiet evs0 hq]
      rfl
  have hlen : (fillLoop c fuel (tickStart c sh)).1.packet.length =
      (fillLoop c fuel (tickStart c sh)).1.outValid := by
    obtain ⟨c1, c2⟩ := a1
    simp only [FillState.packet, List.length_take]
    omega
  have hsum : (((fillLoop c fuel (tickStart c sh)).1.outValid +
      (fillLoop c fuel (tickStart c sh)).1.outTail.len : Nat) : Int) =
      (c.NextPacketLength sh.world).1 := by
    rw [a2]
    simp only [tickStart]
    omega
  have hfull : (fillLoop c fuel (tickStart c sh)).1.sh.outPending ≠ [] →
      ((fillLoop c fuel (tickStart c sh)).1.packet.length : Int) =
        (c.NextPacketLength sh.world).1 := by
    intro hne
    have := hcarry hne
    rw [hlen]
    omega
  refine ⟨(fillLoop c fuel (tickStart c sh)).1.packet, ?_, ?_, ?_, ?_⟩
  · rw [htrace, a5, writesOf_append, writesOf_append, hwrites]
    rfl
  · rw [hpend]
    exact hfull
  · intro hlt
    rw [hpend]
    by_contra hne
    have := hfull hne
    omega
  · intro pre n e post hdec
    rw [htrace, a5] at hdec
    have hts : (tickStart c sh).trace =
        [Event.timerCycle (c.NextPacketSleep (c.NextPacketLength sh.world).2).1] := rfl
    rw [hts] at hdec
    cases pre with
    | nil => simp at hdec
    | cons x pre1 =>
      simp only [List.cons_append, List.nil_append, List.cons.injEq] at hdec
      obtain ⟨rfl, hdec⟩ := hdec
      -- the `PullWrite` is one of the calls of the loop, not the `Write`
      have hsplit : ∃ post1, evs1 = pre1 ++ Event.PullWrite n e :: post1 := by
        rcases List.append_eq_append_iff.mp hdec with ⟨a, ha1, ha2⟩ | ⟨a, ha1, ha2⟩
        · cases a with
          | nil =>
            simp only [List.nil_append] at ha2
            cases ha2
          | cons y a =>
            simp only [List.cons_append, List.cons.injEq] at ha2
            have := congrArg List.length ha2.2
            simp at this
            omega
        · cases a with
          | nil =>
            simp only [List.nil_append] at ha2
            rw [List.append_nil] at ha1
            subst ha1
            cases ha2
          | cons y a =>
            simp only [List.cons_append, List.cons.injEq] at ha2
            exact ⟨a, by rw [ha1, ha2.1]⟩
      obtain ⟨post1, hsp⟩ := hsplit
      constructor
      · obtain ⟨k, k1, k2, k3⟩ := fillLoop_pull_points c fuel (tickStart c sh) pre1 n e post1
          (by rw [a5, hsp])
        exact ⟨k, k1, by rw [k2, hts]; rfl, k3⟩
      · have := b3 pre1 n e post1 hsp
        simpa [FillState.packet, tickStart, encodedOf] using this

set_option maxRecDepth 100000 in
theorem carry_over_full_packet_witness :
    (doublingShaper.handleTimer doubling 5).exit = Exit.returned none ∧
    ∃ p, writesOf (doublingShaper.handleTimer doubling 5).trace = [p] ∧
      ((doublingShaper.handleTimer doubling 5).sh.outPending ≠ [] →
        (p.length : Int) = (doubling.NextPacketLength doublingShaper.world).1) ∧
      ((p.length : Int) < (doubling.NextPacketLength doublingShaper.world).1 →
        (doublingShaper.handleTimer doubling 5).sh.outPending = []) ∧
      ∀ pre n e post,
        (doublingShaper.handleTimer doubling 5).trace = pre ++ Event.PullWrite n e :: post →
        (∃ k, (fillLoop doubling k (tickStart doubling doublingShaper)).2 = FillExit.outOfFuel ∧
          (fillLoop doubling k (tickStart doubling doublingShaper)).1.trace = pre ∧
          (fillLoop doubling k (tickStart doubling doublingShaper)).1.sh.outPending = []) ∧
        (doublingShaper.outPending ++ encodedOf pre) <+: p :=
  ⟨by decide, carry_over_full_packet doubling 5 doublingShaper (by decide)⟩

theorem fillLoop_terminates {W : Type} (c : Collaborators W)
    (hprog : ∀ st : FillState W, pullErr c st = none → pullEncoded c st ≠ []) (fuel : Nat) :
    ∀ st : FillState W, st.outTail.len ≤ fuel → (fillLoop c fuel st).2 ≠ FillExit.outOfFuel := by
  induction fuel with
  | zero =>
    intro st h
    have h0 : ¬ st.outTail.len > 0 := by omega
    simp [fillLoop, h0]
  | succ fuel ih =>
    intro st h
    rw [fillLoop_succ]
    by_cases ht : st.outTail.len > 0
    · rw [if_pos ht]
      by_cases hp : st.sh.outPending.length > 0
      · rw [if_pos hp]
        apply ih
        have hc := copyInto_copied st.sh.outBuf st.outTail st.sh.outPending
        simp only [pendStep, Window.drop]
        omega
      · rw [if_neg hp]
        by_cases hf : pullErr c st ≠ none ∧ pullErr c st ≠ some Error.ErrNoProgress
        · rw [if_pos hf]
          simp
        · rw [if_neg hf]
          by_cases hpn : pullCount c st < 0 ∨ pullCount c st > ((pulledBuf c st).length : Int)
          · rw [if_pos hpn]
            simp
          · rw [if_neg hpn]
            by_cases he : pullErr c st = none
            · rw [if_neg (by simpa using he)]
              apply ih
              have hne := hprog st he
              have hlen : 0 < (pullEncoded c st).length := List.length_pos.mpr hne
              have hc := copyInto_copied st.sh.outBuf st.outTail (pullEncoded c st)
              simp only [pullStep, Window.drop]
              omega
            · rw [if_pos he]
              simp
    · rw [if_neg ht]
      simp

theorem stalled_loop (fuel : Nat) :
    ∀ st : FillState Unit, 0 < st.outTail.len → st.sh.outPending = [] →
      (fillLoop stalled fuel st).2 = FillExit.outOfFuel := by
  induction fuel with
  | zero => intro st h _; simp [fillLoop, h]
  | succ fuel ih =>
    intro st h hp
    have hp0 : ¬ st.sh.outPending.length > 0 := by simp [hp]
    have he : pullErr stalled st = none := rfl
    have hn : pullCount stalled st = 0 := rfl
    have hf : ¬ (pullErr stalled st ≠ none ∧ pullErr stalled st ≠ some Error.ErrNoProgress) := by
      simp [he]
    have hpn : ¬ (pullCount stalled st < 0 ∨
        pullCount stalled st > ((pulledBuf stalled st).length : Int)) := by
      rw [hn]
      omega
    rw [fillLoop_succ, if_pos h, if_neg hp0, if_neg hf, if_neg hpn, if_neg (by simp [he])]
    apply ih
    · have hc := copyInto_copied st.sh.outBuf st.outTail (pullEncoded stalled st)
      have hz : (pullEncoded stalled st).length = 0 := rfl
      simp only [pullStep, Window.drop]
      omega
    · have hz : pullEncoded stalled st = [] := rfl
      simp [pullStep, hz, hp]

/-- **C20** (termination of the packet-fill loop).  If every `PullWrite` that
returns no error is followed by a non-empty `EncodeBytes` result, the loop of
`handleTimer` ends within as many iterations as the packet has bytes left to
fill, from every pending queue and for every requested length, and
`handleTimer` ends.  Without that condition it need not: when `PullWrite`
always returns zero bytes and no error and `EncodeBytes` returns the empty
slice, with a requested length of 1 and an empty pending queue, no number of
iterations ends the loop. -/
theorem fill_loop_termination {W : Type} (c : Collaborators W) :
    ((∀ st : FillState W, pullErr c st = none → pullEncoded c st ≠ []) →
      (∀ (fuel : Nat) (st : FillState W), st.outTail.len ≤ fuel →
        (fillLoop c fuel st).2 ≠ FillExit.outOfFuel) ∧
      (∀ (fuel : Nat) (sh : Shaper W), (c.NextPacketLength sh.world).1 ≤ (fuel : Int) →
        (sh.handleTimer c fuel).exit ≠ Exit.outOfFuel)) ∧
    ((NewShaper stalled ()).1.outPending = [] ∧
      (stalled.NextPacketLength (NewShaper stalled ()).1.world).1 = 1 ∧
      (∀ w n, stalled.PullWrite w n = (([], 0, none), w)) ∧
      (∀ w p, stalled.EncodeBytes w p = ([], w)) ∧
      ∀ fuel : Nat, ((NewShaper stalled ()).1.handleTimer stalled fuel).exit =
        Exit.outOfFuel) := by
  constructor
  · intro hprog
    refine ⟨fillLoop_terminates c hprog, ?_⟩
    intro fuel sh hL
    by_cases hp : (c.NextPacketLength sh.world).1 < 0 ∨
        (c.NextPacketLength sh.world).1 > (sh.outBuf.length : Int)
    · rw [handleTimer_panic c fuel sh hp]
      simp
    · rw [handleTimer_eq c fuel sh hp]
      have := fillLoop_terminates c hprog fuel (tickStart c sh) (by
        simp only [tickStart]
        omega)
      generalize fillLoop c fuel (tickStart c sh) = fr at *
      obtain ⟨st1, ex⟩ := fr
      cases ex with
      | done => simp
      | fatal e => simp
      | panicked => simp
      | outOfFuel => exact absurd rfl this
  · refine ⟨rfl, rfl, fun _ _ => rfl, fun _ _ => rfl, ?_⟩
    intro fuel
    have hp : ¬ ((stalled.NextPacketLength (NewShaper stalled ()).1.world).1 < 0 ∨
        (stalled.NextPacketLength (NewShaper stalled ()).1.world).1 >
          ((NewShaper stalled ()).1.outBuf.length : Int)) := by decide
    rw [handleTimer_eq stalled fuel _ hp]
    have := stalled_loop fuel (tickStart stalled (NewShaper stalled ()).1) (by decide) rfl
    generalize fillLoop stalled fuel (tickStart stalled (NewShaper stalled ()).1) = fr at *
    obtain ⟨st1, ex⟩ := fr
    simp only at this
    subst this
    rfl

theorem fill_loop_termination_witness :
    (∀ st : FillState Nat, pullErr framing st = none → pullEncoded framing st ≠ []) ∧
    ((NewShaper framing 0).1.handleTimer framing 50).exit ≠ Exit.outOfFuel ∧
    ((NewShaper stalled ()).1.handleTimer stalled 1000).exit = Exit.outOfFuel :=
  ⟨fun _ _ => List.cons_ne_nil _ _,
    ((fill_loop_termination framing).1 (fun _ _ => List.cons_ne_nil _ _)).2 50
      (NewShaper framing 0).1 (by decide),
    (fill_loop_termination framing).2.2.2.2.2 1000⟩

theorem pulledBuf_length {W : Type} (c : Collaborators W) (st : FillState W) :
    (pulledBuf c st).length = st.sh.pullBuf.length := by
  simp only [pulledBuf, List.length_append, List.length_take, List.length_drop]
  omega

theorem pullPlain_length {W : Type} (c : Collaborators W) (st : FillState W) :
    (pullPlain c st).length ≤ st.sh.pullBuf.length := by
  have := pulledBuf_length c st
  simp only [pullPlain, List.length_take]
  omega

theorem fillLoop_bounded {W : Type} (c : Collaborators W) (B N : Nat)
    (henc : ∀ w p, p.length ≤ N → (c.EncodeBytes w p).1.length ≤ B) (fuel : Nat)
    (st : FillState W) :
    Bounded B N st.sh → Bounded B N (fillLoop c fuel st).1.sh := by
  apply fillLoop_rule c (fun st st1 _ => Bounded B N st.sh → Bounded B N st1.sh)
  · intro st _ h; exact h
  · intro st _ h; exact h
  · intro st st1 ex _ _ ih h
    apply ih
    refine ⟨?_, h.2⟩
    have := h.1
    simp only [pendStep, List.length_drop]
    omega
  · intro st _ _ _ _ h
    exact ⟨h.1, by simpa only [pullPre, pulledBuf_length] using h.2⟩
  · intro st _ _ _ h
    exact ⟨h.1, by simpa only [pullPre, pulledBuf_length] using h.2⟩
  · intro st _ hp _ h
    have := henc (c.PullWrite st.sh.world st.sh.pullBuf.length).2 (pullPlain c st)
      ((pullPlain_length c st).trans h.2)
    refine ⟨?_, by simpa only [pullStep, pulledBuf_length] using h.2⟩
    simp only [pullStep, hp, List.nil_append]
    split
    · simp only [List.length_drop]
      unfold pullEncoded
      omega
    · simp
  · intro st st1 ex _ hp _ ih h
    apply ih
    have := henc (c.PullWrite st.sh.world st.sh.pullBuf.length).2 (pullPlain c st)
      ((pullPlain_length c st).trans h.2)
    refine ⟨?_, by simpa only [pullStep, pulledBuf_length] using h.2⟩
    simp only [pullStep, hp, List.nil_append]
    split
    · simp only [List.length_drop]
      unfold pullEncoded
      omega
    · simp

theorem handleTimer_bounded {W : Type} (c : Collaborators W) (B N : Nat)
    (henc : ∀ w p, p.length ≤ N → (c.EncodeBytes w p).1.length ≤ B) (fuel : Nat)
    (sh : Shaper W) (h : Bounded B N sh) : Bounded B N (sh.handleTimer c fuel).sh := by
  by_cases hp : (c.NextPacketLength sh.world).1 < 0 ∨
      (c.NextPacketLength sh.world).1 > (sh.outBuf.length : Int)
  · rw [handleTimer_panic c fuel sh hp]
    exact h
  · rw [handleTimer_eq c fuel sh hp]
    have := fillLoop_bounded c B N henc fuel (tickStart c sh) h
    generalize fillLoop c fuel (tickStart c sh) = fr at *
    obtain ⟨st1, ex⟩ := fr
    cases ex <;> exact this

theorem handleRead_bounded {W : Type} (c : Collaborators W) (B N : Nat) (sh : Shaper W)
    (subn : Int) (h : Bounded B N sh) : Bounded B N (sh.handleRead c subn).sh := by
  unfold Shaper.handleRead
  split
  · exact h
  · simp only []
    split <;> exact h

theorem handleOneStateChange_bounded {W : Type} (c : Collaborators W) (B N : Nat)
    (henc : ∀ w p, p.length ≤ N → (c.EncodeBytes w p).1.length ≤ B) (fuel : Nat)
    (sh : Shaper W) (ev : StateChange) (h : Bounded B N sh) :
    Bounded B N (sh.handleOneStateChange c fuel ev).sh := by
  cases ev with
  | advanceClosed => exact h
  | timingClosed => exact h
  | control => exact h
  | advance subn stored =>
    have hf := handleRead_bounded c B N (sh.readerStored stored) subn h
    simp only [Shaper.handleOneStateChange]
    generalize (sh.readerStored stored).handleRead c subn = r at *
    obtain ⟨rsh, rtr, rex⟩ := r
    cases rex with
    | returned a => cases a <;> exact hf
    | panicked => exact hf
    | outOfFuel => exact hf
  | timing =>
    have hf := handleTimer_bounded c B N henc fuel sh h
    simp only [Shaper.handleOneStateChange]
    generalize sh.handleTimer c fuel = r at *
    obtain ⟨rsh, rtr, rex⟩ := r
    cases rex with
    | returned a => cases a <;> exact hf
    | panicked => exact hf
    | outOfFuel => exact hf

theorem runLoop_bounded {W : Type} (c : Collaborators W) (B N : Nat)
    (henc : ∀ w p, p.length ≤ N → (c.EncodeBytes w p).1.length ≤ B) (fuel : Nat)
    (evs : List StateChange) :
    ∀ sh : Shaper W, Bounded B N sh → Bounded B N (runLoop c fuel sh evs).1 := by
  induction evs with
  | nil => intro sh h; exact h
  | cons ev evs ih =>
    intro sh h
    have hstep := handleOneStateChange_bounded c B N henc fuel sh ev h
    simp only [runLoop]
    generalize sh.handleOneStateChange c fuel ev = r at *
    obtain ⟨rsh, rtr, rex⟩ := r
    cases rex with
    | returned b =>
      cases b with
      | true => exact hstep
      | false => exact ih rsh hstep
    | panicked => exact hstep
    | outOfFuel => exact hstep

/-- The claim C16 as stated fails.  The encode model returns 200 bytes for one
`EncodeBytes` call, the maximum packet length is 100 and each packet is
requested with length 50: after the first tick of a fresh shaper, which
returns without error, 150 bytes are pending. -/
theorem pending_exceeds_max_packet_length :
    (NewShaper expanding 0).1.outPending = [] ∧
    expanding.MaxPacketLength 0 = 100 ∧
    (expanding.NextPacketLength (NewShaper expanding 0).1.world).1 = 50 ∧
    ((NewShaper expanding 0).1.handleTimer expanding 5).exit = Exit.returned none ∧
    ((NewShaper expanding 0).1.handleTimer expanding 5).sh.outPending.length = 150 ∧
    ¬ ((NewShaper expanding 0).1.handleTimer expanding 5).sh.outPending.length ≤
      expanding.MaxPacketLength 0 := by
  set_option maxRecDepth 100000 in decide

/-- **C16** (pending-queue bound, amended).  If `EncodeBytes` returns at
most `B` bytes for an input that fits the pull buffer, then in every state
reachable from a freshly constructed shaper by any sequence of state changes
the pending queue is at most `B` long: it is bounded by the maximum packet
length when the encode model never returns more than that in one call, and
not otherwise.  And each tick that returns without error takes the first
min(|pending|, NextPacketLength) bytes of the pending queue into its packet. -/
theorem pending_bound {W : Type} (c : Collaborators W) (fuel : Nat) (B : Nat)
    (henc : ∀ w p, p.length ≤ shaperBufSize → (c.EncodeBytes w p).1.length ≤ B) :
    (∀ (w : W) (evs : List StateChange),
      (runLoop c fuel (NewShaper c w).1 evs).1.outPending.length ≤ B) ∧
    (∀ sh : Shaper W, (sh.handleTimer c fuel).exit = Exit.returned none →
      ∃ p, writesOf (sh.handleTimer c fuel).trace = [p] ∧
        sh.outPending.take (c.NextPacketLength sh.world).1.toNat <+: p) := by
  constructor
  · intro w evs
    have h0 : Bounded B shaperBufSize (NewShaper c w).1 :=
      ⟨Nat.zero_le B, by simp [NewShaper]⟩
    exact (runLoop_bounded c B shaperBufSize henc fuel evs _ h0).1
  · intro sh h
    obtain ⟨hw, hL, hdone, hpend, htrace⟩ := handleTimer_done c fuel sh h
    obtain ⟨a1, a2, _, _, evs, a5, a6, a7⟩ := fillLoop_rel c fuel (tickStart c sh) hw
    obtain ⟨_, evs1, b2, b3⟩ := fillLoop_pulls c fuel (tickStart c sh) hw
    have hev : evs1 = evs := List.append_cancel_left (b2.symm.trans a5)
    subst hev
    rw [hdone] at a7
    have hwrites : writesOf evs1 = [] := by
      rcases a7 with ⟨_, hq⟩ | ⟨evs0, k, q, e, he, hq⟩
      · exact writesOf_quiet evs1 hq
      · rw [he, writesOf_append, writesOf_quiet evs0 hq]
        rfl
    refine ⟨(fillLoop c fuel (tickStart c sh)).1.packet, ?_, ?_⟩
    · rw [htrace, a5, writesOf_append, writesOf_append, hwrites]
      rfl
    · have hcontent : (fillLoop c fuel (tickStart c sh)).1.packet ++
          (fillLoop c fuel (tickStart c sh)).1.sh.outPending =
          sh.outPending ++ encodedOf evs1 := by
        simpa [FillState.packet, tickStart] using a6
      rcases a7 with ⟨h0, _⟩ | ⟨evs0, k, q, e, he, _⟩
      · have hlen : (fillLoop c fuel (tickStart c sh)).1.packet.length =
            (c.NextPacketLength sh.world).1.toNat := by
          obtain ⟨c1, c2⟩ := a1
          have : (fillLoop c fuel (tickStart c sh)).1.outValid +
              (fillLoop c fuel (tickStart c sh)).1.outTail.len =
              (c.NextPacketLength sh.world).1.toNat := by
            simpa [tickStart] using a2
          simp only [FillState.packet, List.length_take]
          omega
        have hpre : (fillLoop c fuel (tickStart c sh)).1.packet <+:
            sh.outPending ++ encodedOf evs1 := ⟨_, hcontent⟩
        rw [List.prefix_iff_eq_take.mp hpre, hlen, List.take_append_eq_append_take]
        exact List.prefix_append _ _
      · have := b3 evs0 k (some Error.ErrNoProgress) [Event.EncodeBytes q e] he
        have hp : sh.outPending <+: (fillLoop c fuel (tickStart c sh)).1.packet := by
          have h1 : sh.outPending <+: (tickStart c sh).packet ++ (tickStart c sh).sh.outPending ++
              encodedOf evs0 := by
            simp only [FillState.packet, tickStart, List.take_zero, List.nil_append]
            exact List.prefix_append _ _
          exact h1.trans this
        exact (List.take_prefix _ _).trans hp

set_option maxRecDepth 100000 in
theorem pending_bound_witness :
    (∀ w p, p.length ≤ shaperBufSize → (framing.EncodeBytes w p).1.length ≤ 1025) ∧
    (runLoop framing 5 (NewShaper framing 0).1
      [StateChange.timing, StateChange.timing]).1.outPending.length ≤ 1025 ∧
    (runLoop framing 5 (NewShaper framing 0).1
      [StateChange.timing, StateChange.timing]).2.2 = LoopStatus.running :=
  ⟨fun _ _ h => Nat.succ_le_succ h,
    (pending_bound framing 5 1025 (fun _ _ h => Nat.succ_le_succ h)).1 0
      [StateChange.timing, StateChange.timing],
    by decide⟩

/-- **C17** (outbound write failure).  Take a tick of `handleTimer` whose
requested length is within the packet buffer and whose loop ended without a
fatal crypto error, and an outbound sink that obeys the contract of
`io.Writer`: a count below the length of what was handed to `Write` comes with
an error.  The tick hands the packet to `Write` once.  If `Write` reports an
error or accepts fewer bytes than the packet has, `handleTimer` returns a
non-nil error, the one `Write` reported, and `handleOneStateChange` stores it
as held error and returns true.  If `Write` accepts all bytes without error,
`handleTimer` returns nil. -/
theorem write_failure_fatal {W : Type} (c : Collaborators W) (fuel : Nat) (sh : Shaper W)
    (hsink : ∀ w p, (c.Write w p).1.1 < (p.length : Int) → (c.Write w p).1.2 ≠ none)
    (hL : 0 ≤ (c.NextPacketLength sh.world).1 ∧
      (c.NextPacketLength sh.world).1 ≤ (sh.outBuf.length : Int))
    (hdone : (fillLoop c fuel (tickStart c sh)).2 = FillExit.done) :
    writesOf (sh.handleTimer c fuel).trace = [(fillLoop c fuel (tickStart c sh)).1.packet] ∧
    (((c.Write (fillLoop c fuel (tickStart c sh)).1.sh.world
          (fillLoop c fuel (tickStart c sh)).1.packet).1.2 ≠ none ∨
        (c.Write (fillLoop c fuel (tickStart c sh)).1.sh.world
          (fillLoop c fuel (tickStart c sh)).1.packet).1.1 <
          ((fillLoop c fuel (tickStart c sh)).1.packet.length : Int)) →
      ∃ e, (c.Write (fillLoop c fuel (tickStart c sh)).1.sh.world
          (fillLoop c fuel (tickStart c sh)).1.packet).1.2 = some e ∧
        (sh.handleTimer c fuel).exit = Exit.returned (some e) ∧
        (sh.handleOneStateChange c fuel StateChange.timing).exit = Exit.returned true ∧
        (sh.handleOneStateChange c fuel StateChange.timing).sh.heldError = some e) ∧
    (((c.Write (fillLoop c fuel (tickStart c sh)).1.sh.world
          (fillLoop c fuel (tickStart c sh)).1.packet).1.2 = none ∧
        (c.Write (fillLoop c fuel (tickStart c sh)).1.sh.world
          (fillLoop c fuel (tickStart c sh)).1.packet).1.1 =
          ((fillLoop c fuel (tickStart c sh)).1.packet.length : Int)) →
      (sh.handleTimer c fuel).exit = Exit.returned none) := by
  have hnp : ¬ ((c.NextPacketLength sh.world).1 < 0 ∨
      (c.NextPacketLength sh.world).1 > (sh.outBuf.length : Int)) := by
    intro h
    rcases h with h | h <;> omega
  have hw : WindowOk (tickStart c sh) := tickStart_ok c sh hnp
  obtain ⟨_, _, _, _, evs, a5, _, a7⟩ := fillLoop_rel c fuel (tickStart c sh) hw
  rw [hdone] at a7
  have hwrites : writesOf evs = [] := by
    rcases a7 with ⟨_, hq⟩ | ⟨evs0, k, q, e, he, hq⟩
    · exact writesOf_quiet evs hq
    · rw [he, writesOf_append, writesOf_quiet evs0 hq]
      rfl
  have hexit : (sh.handleTimer c fuel).exit = Exit.returned
      (c.Write (fillLoop c fuel (tickStart c sh)).1.sh.world
        (fillLoop c fuel (tickStart c sh)).1.packet).1.2 := by
    rw [handleTimer_eq c fuel sh hnp, hdone]
    rfl
  have htrace : (sh.handleTimer c fuel).trace = (fillLoop c fuel (tickStart c sh)).1.trace ++
      [Event.Write (fillLoop c fuel (tickStart c sh)).1.packet] := by
    rw [handleTimer_eq c fuel sh hnp, hdone]
    rfl
  refine ⟨?_, ?_, ?_⟩
  · rw [htrace, a5, writesOf_append, writesOf_append, hwrites]
    rfl
  · intro hfail
    have hne : (c.Write (fillLoop c fuel (tickStart c sh)).1.sh.world
        (fillLoop c fuel (tickStart c sh)).1.packet).1.2 ≠ none := by
      rcases hfail with h1 | h1
      · exact h1
      · exact hsink _ _ h1
    cases hwr : (c.Write (fillLoop c fuel (tickStart c sh)).1.sh.world
        (fillLoop c fuel (tickStart c sh)).1.packet).1.2 with
    | none => exact absurd hwr hne
    | some e =>
      rw [hwr] at hexit
      refine ⟨e, rfl, hexit, ?_, ?_⟩
      · simp only [Shaper.handleOneStateChange, hexit]
      · simp only [Shaper.handleOneStateChange, hexit]
  · rintro ⟨hnone, _⟩
    rw [hexit, hnone]

set_option maxRecDepth 100000 in
theorem write_failure_fatal_witness :
    (∀ w p, (rejectingSink.Write w p).1.1 < (p.length : Int) →
      (rejectingSink.Write w p).1.2 ≠ none) ∧
    (fillLoop rejectingSink 5 (tickStart rejectingSink (NewShaper rejectingSink 0).1)).2 =
      FillExit.done ∧
    (∃ e, (rejectingSink.Write
          (fillLoop rejectingSink 5 (tickStart rejectingSink (NewShaper rejectingSink 0).1)).1.sh.world
          (fillLoop rejectingSink 5
            (tickStart rejectingSink (NewShaper rejectingSink 0).1)).1.packet).1.2 = some e ∧
      ((NewShaper rejectingSink 0).1.handleTimer rejectingSink 5).exit =
        Exit.returned (some e) ∧
      ((NewShaper rejectingSink 0).1.handleOneStateChange rejectingSink 5
        StateChange.timing).exit = Exit.returned true ∧
      ((NewShaper rejectingSink 0).1.handleOneStateChange rejectingSink 5
        StateChange.timing).sh.heldError = some e) ∧
    ((NewShaper rejectingSink 0).1.handleTimer rejectingSink 5).exit =
      Exit.returned (some (Error.other 9)) ∧
    (doublingShaper.handleTimer doubling 5).exit = Exit.returned none :=
  ⟨(fun _ _ _ h => by cases h), by decide,
    (write_failure_fatal rejectingSink 5 (NewShaper rejectingSink 0).1
      (fun _ _ _ h => by cases h) (by decide) (by decide)).2.1 (Or.inl (by decide)),
    by decide, by decide⟩

/-! ## Endpoint address validation -/

theorem parseUintLoop_inv (s0 : Str) (bitSize : Nat) (s : Str) :
    ∀ acc n : Nat, parseUintLoop s0 bitSize s acc = Except.ok n →
      (∀ c ∈ s, isDigit c = true) ∧
      s.foldl (fun a c => a * 10 + (c.toNat - 48)) acc = n ∧
      (s ≠ [] → n < 2 ^ bitSize) := by
  induction s with
  | nil =>
    intro acc n h
    simp only [parseUintLoop, Except.ok.injEq] at h
    exact ⟨by simp, by simpa using h, by simp⟩
  | cons c cs ih =>
    intro acc n h
    simp only [parseUintLoop] at h
    split at h
    · rename_i hd
      split at h
      · rename_i hlt
        obtain ⟨h1, h2, h3⟩ := ih _ _ h
        refine ⟨?_, ?_, ?_⟩
        · intro x hx
          rcases List.mem_cons.1 hx with hx | hx
          · rw [hx]; exact hd
          · exact h1 x hx
        · simpa using h2
        · intro _
          by_cases hcs : cs = []
          · subst hcs
            simp only [List.foldl_nil] at h2
            omega
          · exact h3 hcs
      · cases h
    · cases h

theorem ParseUint_inv (s : Str) (bitSize n : Nat) (h : ParseUint s bitSize = Except.ok n) :
    s ≠ [] ∧ (∀ c ∈ s, isDigit c = true) ∧ digitsValue s = n ∧ n < 2 ^ bitSize := by
  unfold ParseUint at h
  split at h
  · cases h
  · rename_i hne
    obtain ⟨h1, h2, h3⟩ := parseUintLoop_inv s bitSize s 0 n h
    exact ⟨hne, h1, h2, h3 hne⟩

theorem ParseUint_digits (s : Str) (bitSize : Nat) (hne : s ≠ [])
    (hd : ∀ c ∈ s, isDigit c = true) (hlt : digitsValue s < 2 ^ bitSize) :
    ParseUint s bitSize = Except.ok (digitsValue s) := by
  unfold ParseUint
  rw [if_neg hne]
  exact parseUintLoop_ok s bitSize s 0 hd hlt

theorem LastIndex_split (s : Str) (c : Char) :
    ∀ i, LastIndex s c = some i →
      ∃ xs ys, s = xs ++ c :: ys ∧ c ∉ ys ∧ xs.length = i := by
  induction s with
  | nil => intro i h; cases h
  | cons x xs ih =>
    intro i h
    simp only [LastIndex] at h
    cases hl : LastIndex xs c with
    | some j =>
      rw [hl] at h
      obtain ⟨as, bs, e, hn, hlen⟩ := ih j hl
      refine ⟨x :: as, bs, by rw [e]; rfl, hn, ?_⟩
      simp only [Option.some.injEq] at h
      simp only [List.length_cons]
      omega
    | none =>
      rw [hl] at h
      simp only at h
      split at h
      · rename_i hx
        simp only [Option.some.injEq] at h
        refine ⟨[], xs, by rw [hx]; rfl, ?_, by simpa using h⟩
        intro hmem
        have : ∃ j, LastIndex xs c = some j := by
          clear ih hl h hx
          induction xs with
          | nil => cases hmem
          | cons y ys ih2 =>
            simp only [LastIndex]
            cases hy : LastIndex ys c with
            | some j => exact ⟨j + 1, rfl⟩
            | none =>
              rcases List.mem_cons.1 hmem with hm | hm
              · exact ⟨0, by simp [hm]⟩
              · obtain ⟨j, hj⟩ := ih2 hm
                rw [hy] at hj
                cases hj
        obtain ⟨j, hj⟩ := this
        rw [hl] at hj
        cases hj
      · cases h

/-- What `parseEndpointAddress` does with a string whose last `:` is between
`host` and `port`. -/
theorem parseEndpointAddress_eq (d : Deps) (host port : Str) (h : ':' ∉ port) :
    parseEndpointAddress d (host ++ ':' :: port) =
      if (HasPrefix host ['['] && HasSuffix host [']']) = false ∧ IndexRune host ':' ≠ none then
        Except.error ErrInvalidAddress
      else
        match d.ParseIP (hostLiteral host) with
        | none => Except.error ErrInvalidAddress
        | some ip =>
          match ParseUint port 16 with
          | Except.error _ => Except.error ErrInvalidAddress
          | Except.ok p =>
            match d.IdentityBytesOfNetworkAddress { IP := ip, Port := p, Zone := [] } with
            | Except.error _ => Except.error ErrInvalidAddress
            | Except.ok idBytes =>
              Except.ok { tcpAddr := { IP := ip, Port := p, Zone := [] }, idBytes := idBytes } := by
  unfold parseEndpointAddress
  rw [LastIndex_append host port ':' h]
  simp only [take_upto, drop_past]
  cases hb : (HasPrefix host ['['] && HasSuffix host [']'])
  · simp only [Bool.false_eq_true, if_false, true_and, hostLiteral, hb]
  · simp only [if_true, hostLiteral, hb, Bool.true_eq_false, false_and, if_false]

/-- **C11** (endpoint address validation).  `parseEndpointAddress` splits its
argument at the last `:`.  When it succeeds, the host part, without one
enclosing pair of brackets if it has one, is a text `net.ParseIP` accepts, it
is bracketed or contains no `:`, and the port part is a non-empty string of
decimal digits whose value is below 65536 and is the port of the result; and
a string with these properties is accepted when the identity bytes of the
address can be computed.  It fails for every string without `:` and for every
string whose host part contains `:` and is not enclosed in brackets.  Every
failure is `ErrInvalidAddress`. -/
theorem parseEndpointAddress_valid (d : Deps) (addrString : Str) :
    (∀ ea, parseEndpointAddress d addrString = Except.ok ea →
      ∃ host port, addrString = host ++ ':' :: port ∧ ':' ∉ port ∧
        ((HasPrefix host ['['] && HasSuffix host [']']) = true ∨ ':' ∉ host) ∧
        d.ParseIP (hostLiteral host) = some ea.tcpAddr.IP ∧
        port ≠ [] ∧ (∀ c ∈ port, isDigit c = true) ∧ digitsValue port < 65536 ∧
        ea.tcpAddr.Port = (digitsValue port : Int) ∧ ea.tcpAddr.Zone = [] ∧
        d.IdentityBytesOfNetworkAddress ea.tcpAddr = Except.ok ea.idBytes) ∧
    (∀ host port ip idBytes, addrString = host ++ ':' :: port → ':' ∉ port →
      ((HasPrefix host ['['] && HasSuffix host [']']) = true ∨ ':' ∉ host) →
      d.ParseIP (hostLiteral host) = some ip →
      port ≠ [] → (∀ c ∈ port, isDigit c = true) → digitsValue port < 65536 →
      d.IdentityBytesOfNetworkAddress { IP := ip, Port := digitsValue port, Zone := [] } =
        Except.ok idBytes →
      parseEndpointAddress d addrString = Except.ok
        { tcpAddr := { IP := ip, Port := digitsValue port, Zone := [] }, idBytes := idBytes }) ∧
    (':' ∉ addrString → parseEndpointAddress d addrString = Except.error ErrInvalidAddress) ∧
    (∀ host port, addrString = host ++ ':' :: port → ':' ∉ port → ':' ∈ host →
      (HasPrefix host ['['] && HasSuffix host [']']) = false →
      parseEndpointAddress d addrString = Except.error ErrInvalidAddress) ∧
    (∀ e, parseEndpointAddress d addrString = Except.error e → e = ErrInvalidAddress) := by
  refine ⟨?_, ?_, ?_, ?_, ?_⟩
  · intro ea hok
    cases hl : LastIndex addrString ':' with
    | none =>
      unfold parseEndpointAddress at hok
      rw [hl] at hok
      cases hok
    | some i =>
      obtain ⟨host, port, e, hn, _⟩ := LastIndex_split addrString ':' i hl
      subst e
      rw [parseEndpointAddress_eq d host port hn] at hok
      split at hok
      · cases hok
      · rename_i hg
        cases hip : d.ParseIP (hostLiteral host) with
        | none => rw [hip] at hok; cases hok
        | some ip =>
          rw [hip] at hok
          simp only [] at hok
          cases hpu : ParseUint port 16 with
          | error err => rw [hpu] at hok; cases hok
          | ok p =>
            rw [hpu] at hok
            simp only [] at hok
            cases hid : d.IdentityBytesOfNetworkAddress { IP := ip, Port := p, Zone := [] } with
            | error err => rw [hid] at hok; cases hok
            | ok idb =>
              rw [hid] at hok
              simp only [Except.ok.injEq] at hok
              subst hok
              obtain ⟨p1, p2, p3, p4⟩ := ParseUint_inv port 16 p hpu
              refine ⟨host, port, rfl, hn, ?_, hip, p1, p2, ?_, ?_, rfl, hid⟩
              · by_cases hb : (HasPrefix host ['['] && HasSuffix host [']']) = true
                · exact Or.inl hb
                · right
                  rw [← IndexRune_none]
                  by_contra hc
                  exact hg ⟨by simpa using hb, hc⟩
              · rw [p3]; exact p4
              · rw [p3]
  · intro host port ip idb e hn hb hip hne hd hlt hid
    subst e
    rw [parseEndpointAddress_eq d host port hn]
    have hg : ¬ ((HasPrefix host ['['] && HasSuffix host [']']) = false ∧
        IndexRune host ':' ≠ none) := by
      rintro ⟨g1, g2⟩
      rcases hb with hb | hb
      · rw [hb] at g1; cases g1
      · exact g2 ((IndexRune_none host ':').2 hb)
    rw [if_neg hg, hip]
    simp only []
    rw [ParseUint_digits port 16 hne hd hlt]
    simp only []
    rw [hid]
  · intro h
    unfold parseEndpointAddress
    rw [LastIndex_none addrString ':' h]
  · intro host port e hn hc hb
    subst e
    rw [parseEndpointAddress_eq d host port hn]
    have hi : IndexRune host ':' ≠ none := by
      intro hnone
      exact (IndexRune_none host ':').1 hnone hc
    rw [if_pos ⟨hb, hi⟩]
  · intro e he
    cases hl : LastIndex addrString ':' with
    | none =>
      unfold parseEndpointAddress at he
      rw [hl] at he
      simp only [Except.error.injEq] at he
      exact he.symm
    | some i =>
      obtain ⟨host, port, e1, hn, _⟩ := LastIndex_split addrString ':' i hl
      subst e1
      rw [parseEndpointAddress_eq d host port hn] at he
      split at he
      · simp only [Except.error.injEq] at he
        exact he.symm
      · split at he
        · simp only [Except.error.injEq] at he
          exact he.symm
        · split at he
          · simp only [Except.error.injEq] at he
            exact he.symm
          · split at he
            · simp only [Except.error.injEq] at he
              exact he.symm
            · cases he

set_option maxRecDepth 100000 in
theorem parseEndpointAddress_valid_witness :
    parseEndpointAddress sampleDeps "127.0.0.1:8080".toList = Except.ok
      { tcpAddr := { IP := [127, 0, 0, 1], Port := 8080, Zone := [] },
        idBytes := [127, 0, 0, 1, 31, 144] } ∧
    parseEndpointAddress sampleDeps "[127.0.0.1]:8080".toList = Except.ok
      { tcpAddr := { IP := [127, 0, 0, 1], Port := 8080, Zone := [] },
        idBytes := [127, 0, 0, 1, 31, 144] } ∧
    parseEndpointAddress sampleDeps "localhost:8080".toList = Except.error ErrInvalidAddress ∧
    parseEndpointAddress sampleDeps "127.0.0.1:65536".toList = Except.error ErrInvalidAddress ∧
    parseEndpointAddress sampleDeps "::1:80".toList = Except.error ErrInvalidAddress ∧
    parseEndpointAddress sampleDeps "127.0.0.1".toList = Except.error ErrInvalidAddress :=
  ⟨by decide, by decide, by decide, by decide,
    (parseEndpointAddress_valid sampleDeps "::1:80".toList).2.2.2.1 "::1".toList "80".toList
      (by decide) (by decide) (by decide) (by decide),
    (parseEndpointAddress_valid sampleDeps "127.0.0.1".toList).2.2.1 (by decide)⟩

/-! ## What `loadCryptingParams` does -/

theorem toInt_small (size u : Nat) (h : u < 2 ^ (size - 1)) : toInt size u = (u : Int) := by
  have hle : 2 ^ (size - 1) ≤ 2 ^ size := Nat.pow_le_pow_right (by decide) (Nat.sub_le size 1)
  have hmod : u % 2 ^ size = u := Nat.mod_eq_of_lt (lt_of_lt_of_le h hle)
  unfold toInt
  rw [hmod, if_pos h]

/-- What `loadCryptingParams` does, for any size of `int` and any
`crypting.ValidateParams`.  When `mtu` is present it succeeds exactly if the
value is a non-empty string of decimal digits that denotes a number below 2^n,
n the number of bits of `int`, and `ValidateParams` accepts the default
parameters with the MTU set to that number converted to `int`; `mtu` is then
marked acknowledged.  When `mtu` is absent and the call succeeds, the result
is the default parameters and the acknowledged set is unchanged. -/
theorem loadCryptingParams_spec (d : Deps) (params : GoMap Str) (ackedParams : GoMap Bool) :
    (∀ mtuStr, params.get bridgeParamMTU = some mtuStr →
      (∀ cp, (loadCryptingParams d params ackedParams).1 = Except.ok cp →
        mtuStr ≠ [] ∧ (∀ c ∈ mtuStr, isDigit c = true) ∧
        digitsValue mtuStr < 2 ^ d.IntSize ∧
        cp = { d.defCryptingParams with MTU := toInt d.IntSize (digitsValue mtuStr) } ∧
        (digitsValue mtuStr < 2 ^ (d.IntSize - 1) → cp.MTU = (digitsValue mtuStr : Int)) ∧
        d.ValidateParams cp = none ∧
        (loadCryptingParams d params ackedParams).2 = ackedParams.set bridgeParamMTU true ∧
        (loadCryptingParams d params ackedParams).2.get bridgeParamMTU = some true) ∧
      (mtuStr ≠ [] → (∀ c ∈ mtuStr, isDigit c = true) → digitsValue mtuStr < 2 ^ d.IntSize →
        d.ValidateParams
          { d.defCryptingParams with MTU := toInt d.IntSize (digitsValue mtuStr) } = none →
        (loadCryptingParams d params ackedParams).1 = Except.ok
          { d.defCryptingParams with MTU := toInt d.IntSize (digitsValue mtuStr) })) ∧
    (params.get bridgeParamMTU = none →
      ∀ cp, (loadCryptingParams d params ackedParams).1 = Except.ok cp →
        cp = d.defCryptingParams ∧ (loadCryptingParams d params ackedParams).2 = ackedParams) := by
  constructor
  · intro mtuStr hget
    constructor
    · intro cp hok
      unfold loadCryptingParams at hok ⊢
      rw [hget] at hok ⊢
      simp only [] at hok ⊢
      cases hpu : ParseUint mtuStr d.IntSize with
      | error err => rw [hpu] at hok; exact absurd hok (by simp)
      | ok mtu =>
        rw [hpu] at hok
        simp only [] at hok ⊢
        obtain ⟨p1, p2, p3, p4⟩ := ParseUint_inv mtuStr d.IntSize mtu hpu
        cases hv : d.ValidateParams
            { d.defCryptingParams with MTU := toInt d.IntSize mtu } with
        | some err => rw [hv] at hok; exact absurd hok (by simp)
        | none =>
          rw [hv] at hok
          simp only [Except.ok.injEq] at hok
          subst hok
          subst p3
          refine ⟨p1, p2, p4, rfl, ?_, hv, rfl, ?_⟩
          · intro hsmall
            exact toInt_small _ _ hsmall
          · rw [GoMap.get_set]
            simp
    · intro hne hd hlt hv
      unfold loadCryptingParams
      rw [hget]
      simp only []
      rw [ParseUint_digits mtuStr d.IntSize hne hd hlt]
      simp only []
      rw [hv]
  · intro hget cp hok
    unfold loadCryptingParams at hok ⊢
    rw [hget] at hok ⊢
    simp only [] at hok ⊢
    cases hv : d.ValidateParams d.defCryptingParams with
    | some err => rw [hv] at hok; exact absurd hok (by simp)
    | none =>
      rw [hv] at hok
      simp only [Except.ok.injEq] at hok
      exact ⟨hok.symm, rfl⟩

/-! ## Bridge-line emission -/

theorem subEntries_get (topKey : Str) (l : GoMap Str) (k : Str) :
    GoMap.get (subEntries topKey l) (topKey ++ ['.'] ++ k) = GoMap.get l k := by
  induction l with
  | nil => rfl
  | cons kv l ih =>
    obtain ⟨k1, v1⟩ := kv
    show GoMap.get ((topKey ++ ['.'] ++ k1, v1) :: subEntries topKey l) _ = _
    simp only [GoMap.get]
    by_cases hk : k1 = k
    · rw [if_pos hk, if_pos (by rw [hk])]
    · have hne : ¬ topKey ++ ['.'] ++ k1 = topKey ++ ['.'] ++ k := by
        intro h
        exact hk (List.append_cancel_left h)
      rw [if_neg hk, if_neg hne]
      exact ih

theorem toUint64_nonneg (i : Int) (h0 : 0 ≤ i) (h64 : i < 2 ^ 64) :
    FormatUint (toUint64 i) = Itoa i := by
  unfold toUint64 Itoa
  rw [if_neg (by omega), Int.emod_eq_of_lt h0 h64]

/-- **C13** (bridge-line emission).  For a server public identity whose model
parameters are a map (no key twice) and whose MTU is a non-negative `int`,
the parameters of its bridge line contain `mtu` if and only if the MTU differs
from the default MTU, and then its value is the decimal text of the MTU; they
contain `p` with the text of the public key and `m` with the model name; they
contain `m.<k>` with value v for every model parameter (k, v); and they
contain no other key. -/
theorem bridge_line_emission (d : Deps) (spub : ServerPublic)
    (hnd : (GoMap.keys spub.endpointConfig.modelSpec.params).Nodup)
    (h0 : 0 ≤ spub.endpointConfig.cryptingParams.MTU)
    (h64 : spub.endpointConfig.cryptingParams.MTU < 2 ^ 64) :
    (spub.endpointConfig.cryptingParams.MTU ≠ d.defCryptingParams.MTU →
      (spub.BridgeLine d).Params.get bridgeParamMTU =
        some (Itoa spub.endpointConfig.cryptingParams.MTU)) ∧
    (spub.endpointConfig.cryptingParams.MTU = d.defCryptingParams.MTU →
      (spub.BridgeLine d).Params.get bridgeParamMTU = none) ∧
    (spub.BridgeLine d).Params.get bridgeParamPublicKey = some (spub.longtermPublic.Text d) ∧
    (spub.BridgeLine d).Params.get bridgeParamModel =
      some spub.endpointConfig.modelSpec.name ∧
    (∀ k v, spub.endpointConfig.modelSpec.params.get k = some v →
      (spub.BridgeLine d).Params.get (bridgeParamModel ++ ['.'] ++ k) = some v) ∧
    (∀ key ∈ GoMap.keys (spub.BridgeLine d).Params,
      key = bridgeParamPublicKey ∨ key = bridgeParamModel ∨
      (key = bridgeParamMTU ∧
        spub.endpointConfig.cryptingParams.MTU ≠ d.defCryptingParams.MTU) ∨
      ∃ k ∈ GoMap.keys spub.endpointConfig.modelSpec.params,
        key = bridgeParamModel ++ ['.'] ++ k) := by
  rw [BridgeLine_Params d spub hnd]
  have hbase : ∀ k, k = bridgeParamPublicKey ∨ k = bridgeParamMTU →
      GoMap.get (baseParams d spub ++ [(bridgeParamModel, spub.endpointConfig.modelSpec.name)] ++
        subEntries ['m'] spub.endpointConfig.modelSpec.params) k =
      GoMap.get (baseParams d spub) k := by
    intro k hk
    apply bridge_get_base
    · apply subEntries_not_mem
      rcases hk with hk | hk
      · exact Or.inl hk
      · exact Or.inr (Or.inl hk)
    · rcases hk with hk | hk <;> rw [hk] <;> decide
  refine ⟨?_, ?_, ?_, ?_, ?_, ?_⟩
  · intro hne
    rw [hbase _ (Or.inr rfl), ← toUint64_nonneg _ h0 h64]
    unfold baseParams
    rw [if_pos hne]
    rfl
  · intro heq
    rw [hbase _ (Or.inr rfl)]
    unfold baseParams
    rw [if_neg (by simpa using heq)]
    rfl
  · rw [hbase _ (Or.inl rfl)]
    unfold baseParams
    split <;> simp [GoMap.get, bridgeParamPublicKey]
  · rw [List.append_assoc, GoMap.get_append]
    have hnone : GoMap.get (baseParams d spub) bridgeParamModel = none := by
      unfold baseParams
      split <;> simp [GoMap.get, bridgeParamPublicKey, bridgeParamMTU, bridgeParamModel]
    rw [hnone]
    simp [GoMap.get]
  · intro k v hkv
    rw [GoMap.get_append]
    have hnone : GoMap.get (baseParams d spub ++
        [(bridgeParamModel, spub.endpointConfig.modelSpec.name)])
        (bridgeParamModel ++ ['.'] ++ k) = none := by
      apply GoMap.get_none
      intro hmem
      rw [GoMap.keys_append] at hmem
      rcases List.mem_append.1 hmem with hm | hm
      · rcases baseParams_keys d spub _ hm with h1 | h1
        · exact sub_key_ne k _ (Or.inl rfl) h1
        · exact sub_key_ne k _ (Or.inr (Or.inl rfl)) h1
      · simp only [GoMap.keys, List.map_cons, List.map_nil, List.mem_singleton] at hm
        exact sub_key_ne k _ (Or.inr (Or.inr rfl)) hm
    rw [hnone]
    simp only []
    rw [show (bridgeParamModel : Str) = ['m'] from rfl, subEntries_get]
    exact hkv
  · intro key hkey
    rw [GoMap.keys_append, GoMap.keys_append] at hkey
    rcases List.mem_append.1 hkey with hm | hm
    · rcases List.mem_append.1 hm with hb | hb
      · unfold baseParams at hb
        split at hb
        · rename_i hne
          simp only [GoMap.keys, List.map_cons, List.map_nil, List.mem_cons,
            List.mem_singleton, List.not_mem_nil, or_false] at hb
          rcases hb with hb | hb
          · exact Or.inl hb
          · exact Or.inr (Or.inr (Or.inl ⟨hb, hne⟩))
        · simp only [GoMap.keys, List.map_cons, List.map_nil, List.mem_singleton] at hb
          exact Or.inl hb
      · simp only [GoMap.keys, List.map_cons, List.map_nil, List.mem_singleton] at hb
        exact Or.inr (Or.inl hb)
    · obtain ⟨sub, hs, e⟩ := subEntries_keys _ _ _ hm
      exact Or.inr (Or.inr (Or.inr ⟨sub, hs, e⟩))

set_option maxRecDepth 100000 in
theorem bridge_line_emission_witness :
    (GoMap.keys samplePublic.endpointConfig.modelSpec.params).Nodup ∧
    0 ≤ samplePublic.endpointConfig.cryptingParams.MTU ∧
    samplePublic.endpointConfig.cryptingParams.MTU < 2 ^ 64 ∧
    samplePublic.endpointConfig.cryptingParams.MTU ≠ sampleDeps.defCryptingParams.MTU ∧
    (samplePublic.BridgeLine sampleDeps).Params.get bridgeParamMTU =
      some (Itoa samplePublic.endpointConfig.cryptingParams.MTU) ∧
    Itoa samplePublic.endpointConfig.cryptingParams.MTU = "1400".toList :=
  ⟨by decide, by decide, by decide, by decide,
    (bridge_line_emission sampleDeps samplePublic (by decide) (by decide) (by decide)).1
      (by decide),
    by decide⟩

/-! ## The format of a saved private identity file -/

theorem JoinLF_terminated (ls : List Str) : JoinLF (ls ++ [[]]) = terminated ls := by
  induction ls with
  | nil => rfl
  | cons l ls ih =>
    cases ls with
    | nil => simp [JoinLF, terminated]
    | cons l1 ls1 =>
      show JoinLF (l :: (l1 :: ls1 ++ [[]])) = _
      have : JoinLF (l :: (l1 :: ls1 ++ [[]])) = l ++ '\n' :: JoinLF (l1 :: ls1 ++ [[]]) := rfl
      rw [this, ih]
      simp [terminated]

theorem saveParamLines_eq (entries : List (Str × Str)) :
    ∀ acc : List Str, saveParamLines entries acc =
      if entries.any (fun kv => ContainsCRLF kv.1 || ContainsCRLF kv.2) then
        Except.error Error.ErrSyntax
      else Except.ok (acc ++ paramLinesOf entries) := by
  induction entries with
  | nil => intro acc; simp [saveParamLines, paramLinesOf]
  | cons kv entries ih =>
    intro acc
    obtain ⟨key, val⟩ := kv
    simp only [saveParamLines, List.any_cons]
    by_cases hbad : (ContainsCRLF key || ContainsCRLF val) = true
    · rw [if_pos hbad, if_pos (by rw [hbad]; rfl)]
    · rw [if_neg hbad]
      have hf : (ContainsCRLF key || ContainsCRLF val) = false := by simpa using hbad
      simp only [hf, Bool.false_or]
      by_cases hp : key = bridgeParamPublicKey
      · rw [if_pos hp, ih]
        simp [paramLinesOf, hp]
      · rw [if_neg hp, ih]
        simp [paramLinesOf, hp]

/-! ## Extraction and insertion of a model spec -/

theorem HasPrefix_split (k p : Str) (h : HasPrefix k p = true) :
    k = p ++ k.drop p.length := by
  simp only [HasPrefix, List.isPrefixOf_iff_prefix] at h
  obtain ⟨t, ht⟩ := h
  rw [← ht, List.drop_left]

theorem HasPrefix_longer (topKey : Str) : HasPrefix topKey (topKey ++ ['.']) = false := by
  cases h : HasPrefix topKey (topKey ++ ['.'])
  · rfl
  · have e := congrArg List.length (HasPrefix_split _ _ h)
    simp only [List.length_append, List.length_drop, List.length_cons, List.length_nil] at e
    omega

theorem strippedEntries_get ( subprefix : Str) (entries : GoMap Str) (k : Str) :
    GoMap.get (strippedEntries subprefix entries) k = GoMap.get entries ( subprefix ++ k) := by
  induction entries with
  | nil => rfl
  | cons e entries ih =>
    obtain ⟨k1, v1⟩ := e
    by_cases hp : HasPrefix k1 subprefix = true
    · have hs : strippedEntries subprefix ((k1, v1) :: entries) =
          (k1.drop subprefix.length, v1) :: strippedEntries subprefix entries := by
        simp [strippedEntries, hp]
      rw [hs]
      simp only [GoMap.get]
      by_cases hk : k1 = subprefix ++ k
      · rw [if_pos hk, if_pos (by rw [hk, List.drop_left])]
      · have hne : ¬ k1.drop subprefix.length = k := by
          intro h
          apply hk
          rw [← h]
          exact HasPrefix_split k1 subprefix hp
        rw [if_neg hk, if_neg hne]
        exact ih
    · have hs : strippedEntries subprefix ((k1, v1) :: entries) =
          strippedEntries subprefix entries := by
        simp [strippedEntries, hp]
      rw [hs]
      simp only [GoMap.get]
      have hk : ¬ k1 = subprefix ++ k := by
        intro h
        apply hp
        rw [h]
        exact HasPrefix_append subprefix k
      rw [if_neg hk]
      exact ih

theorem strippedEntries_keys_nodup ( subprefix : Str) (entries : GoMap Str)
    (h : (GoMap.keys entries).Nodup) :
    (GoMap.keys (strippedEntries subprefix entries)).Nodup := by
  induction entries with
  | nil => exact List.nodup_nil
  | cons e entries ih =>
    obtain ⟨k1, v1⟩ := e
    have hk : GoMap.keys ((k1, v1) :: entries) = k1 :: GoMap.keys entries := rfl
    rw [hk] at h
    obtain ⟨hk1, hnd⟩ := List.nodup_cons.mp h
    by_cases hp : HasPrefix k1 subprefix = true
    · have hs : strippedEntries subprefix ((k1, v1) :: entries) =
          (k1.drop subprefix.length, v1) :: strippedEntries subprefix entries := by
        simp [strippedEntries, hp]
      rw [hs]
      show (k1.drop subprefix.length :: GoMap.keys (strippedEntries subprefix entries)).Nodup
      refine List.nodup_cons.mpr ⟨?_, ih hnd⟩
      intro hmem
      have hsome : (GoMap.get (strippedEntries subprefix entries)
          (k1.drop subprefix.length)).isSome = true := (GoMap.get_isSome _ _).2 hmem
      rw [strippedEntries_get, ← HasPrefix_split k1 subprefix hp] at hsome
      exact hk1 ((GoMap.get_isSome _ _).1 hsome)
    · have hs : strippedEntries subprefix ((k1, v1) :: entries) =
          strippedEntries subprefix entries := by
        simp [strippedEntries, hp]
      rw [hs]
      exact ih hnd

theorem insertModelSpec_get (topKey : Str) (l : GoMap Str) (k : Str)
    (hk : ∀ sub ∈ GoMap.keys l, k ≠ topKey ++ ['.'] ++ sub) :
    ∀ acc : GoMap Str,
      GoMap.get (l.foldl (fun acc kv => acc.set (topKey ++ ['.'] ++ kv.1) kv.2) acc) k =
        GoMap.get acc k := by
  induction l with
  | nil => intro acc; rfl
  | cons e l ih =>
    intro acc
    obtain ⟨k1, v1⟩ := e
    simp only [List.foldl_cons]
    rw [ih (fun sub hs => hk sub (List.mem_cons_of_mem _ hs)), GoMap.get_set]
    rw [if_neg]
    intro h
    exact hk k1 (List.mem_cons_self _ _) h.symm

theorem insertModelSpec_eq (ms : modelSpec) (bag : GoMap Str) (topKey : Str)
    (hnd : (GoMap.keys ms.params).Nodup) (hm : topKey ∉ GoMap.keys bag)
    (hsub : ∀ k ∈ GoMap.keys bag, HasPrefix k (topKey ++ ['.']) = false) :
    insertModelSpec ms bag topKey = bag ++ [(topKey, ms.name)] ++ subEntries topKey ms.params := by
  unfold insertModelSpec
  rw [GoMap.set_fresh bag topKey ms.name hm]
  apply insert_fold topKey ms.params _ hnd
  intro sub _ hmem
  rw [GoMap.keys_append, List.mem_append] at hmem
  rcases hmem with hmem | hmem
  · have := hsub _ hmem
    rw [HasPrefix_append] at this
    cases this
  · simp only [GoMap.keys, List.map_cons, List.map_nil, List.mem_singleton] at hmem
    have e := congrArg List.length hmem
    simp only [List.length_append, List.length_cons, List.length_nil] at e
    omega

/-- **C18** (model-spec extraction and insertion are inverse).  For every
parameter bag, `extractModelSpec` fails, with `ErrNoModelName` and the
acknowledged set unchanged, exactly when the top key is absent.  Otherwise it
returns the value of the top key as the name, it adds to the acknowledged set
exactly the top key and every key of the bag that begins with the top key and
a dot, and, the bag being a map (no key twice), the model parameters are a map
in which k has the value the bag has for the top key, a dot and k.  For every
model spec whose parameters are a map and every bag without the top key and
without keys that begin with the top key and a dot, `extractModelSpec` after
`insertModelSpec` returns the model spec; and `insertModelSpec` changes the
value of no key other than the top key and the keys that begin with the top
key and a dot. -/
theorem model_spec_inverse (topKey : Str) :
    (∀ (params : GoMap Str) (ak : GoMap Bool),
      (params.get topKey = none ↔
        extractModelSpec params ak topKey = (Except.error ErrNoModelName, ak)) ∧
      (params.get topKey = none ↔
        ∃ e, (extractModelSpec params ak topKey).1 = Except.error e)) ∧
    (∀ (params : GoMap Str) (ak : GoMap Bool) (name : Str), params.get topKey = some name →
      ∃ ms acked, extractModelSpec params ak topKey = (Except.ok ms, acked) ∧
        ms.name = name ∧
        (∀ k, acked.get k = some true ↔
          ak.get k = some true ∨ k = topKey ∨
            (k ∈ GoMap.keys params ∧ HasPrefix k (topKey ++ ['.']) = true)) ∧
        ((GoMap.keys params).Nodup →
          (GoMap.keys ms.params).Nodup ∧
          ∀ k, ms.params.get k = params.get (topKey ++ ['.'] ++ k))) ∧
    (∀ (ms : modelSpec) (bag : GoMap Str) (ak : GoMap Bool),
      (GoMap.keys ms.params).Nodup → topKey ∉ GoMap.keys bag →
      (∀ k ∈ GoMap.keys bag, HasPrefix k (topKey ++ ['.']) = false) →
      (extractModelSpec (insertModelSpec ms bag topKey) ak topKey).1 = Except.ok ms) ∧
    (∀ (ms : modelSpec) (bag : GoMap Str) (k : Str), k ≠ topKey →
      HasPrefix k (topKey ++ ['.']) = false →
      (insertModelSpec ms bag topKey).get k = bag.get k) := by
  refine ⟨?_, ?_, ?_, ?_⟩
  · intro params ak
    cases hg : params.get topKey with
    | none =>
      have he : extractModelSpec params ak topKey = (Except.error ErrNoModelName, ak) := by
        simp only [extractModelSpec, hg]
      exact ⟨⟨fun _ => he, fun _ => rfl⟩, ⟨fun _ => ⟨ErrNoModelName, by rw [he]⟩, fun _ => rfl⟩⟩
    | some name =>
      have he := extractModelSpec_ok params ak topKey name hg
      constructor
      · constructor
        · intro h; cases h
        · intro h
          rw [he] at h
          cases h
      · constructor
        · intro h; cases h
        · rintro ⟨e, h⟩
          rw [he] at h
          cases h
  · intro params ak name hg
    refine ⟨_, _, extractModelSpec_ok params ak topKey name hg, rfl, ?_, ?_⟩
    · intro k
      rw [extractLoop_acked, GoMap.get_set]
      by_cases hk : topKey = k
      · rw [if_pos hk]
        constructor
        · intro _; exact Or.inr (Or.inl hk.symm)
        · intro _; exact Or.inl rfl
      · rw [if_neg hk]
        constructor
        · rintro (h | h)
          · exact Or.inl h
          · exact Or.inr (Or.inr h)
        · rintro (h | h | h)
          · exact Or.inl h
          · exact absurd h.symm hk
          · exact Or.inr h
    · intro hnd
      have hs := strippedEntries_keys_nodup (topKey ++ ['.']) params hnd
      have he := extractLoop_stripped (topKey ++ ['.']) params [] (ak.set topKey true)
        (by simpa using hs)
      simp only [List.nil_append] at he
      show (GoMap.keys (extractLoop (topKey ++ ['.']) params [] (ak.set topKey true)).1).Nodup ∧
        ∀ k, GoMap.get (extractLoop (topKey ++ ['.']) params [] (ak.set topKey true)).1 k = _
      rw [he]
      exact ⟨hs, fun k => strippedEntries_get _ _ k⟩
  · intro ms bag ak hnd hm hsub
    rw [insertModelSpec_eq ms bag topKey hnd hm hsub]
    have hg : GoMap.get (bag ++ [(topKey, ms.name)] ++ subEntries topKey ms.params) topKey =
        some ms.name := by
      rw [List.append_assoc, GoMap.get_append, GoMap.get_none bag topKey hm]
      simp [GoMap.get]
    rw [extractModelSpec_ok _ ak topKey ms.name hg]
    have hskip : ∀ kv ∈ bag ++ [(topKey, ms.name)], HasPrefix kv.1 (topKey ++ ['.']) = false := by
      intro kv hkv
      rcases List.mem_append.1 hkv with h | h
      · exact hsub kv.1 (List.mem_map_of_mem Prod.fst h)
      · simp only [List.mem_singleton] at h
        rw [h]
        exact HasPrefix_longer topKey
    show Except.ok _ = Except.ok ms
    rw [extractLoop_skip _ _ _ hskip, extractLoop_subEntries topKey ms.params [] _ hnd
      (fun _ _ h => by cases h)]
    rfl
  · intro ms bag k hk hp
    unfold insertModelSpec
    rw [insertModelSpec_get topKey ms.params k, GoMap.get_set, if_neg (Ne.symm hk)]
    intro sub _ h
    rw [h, HasPrefix_append] at hp
    cases hp

set_option maxRecDepth 100000 in
theorem model_spec_inverse_witness :
    GoMap.get [("m".toList, "sillyHex".toList), ("m.rate".toList, "3".toList),
      ("mtu".toList, "1400".toList)] ['m'] = some "sillyHex".toList ∧
    (extractModelSpec [("m".toList, "sillyHex".toList), ("m.rate".toList, "3".toList),
      ("mtu".toList, "1400".toList)] [] ['m']).1 =
      Except.ok { name := "sillyHex".toList, params := [("rate".toList, "3".toList)] } ∧
    (extractModelSpec (insertModelSpec
      { name := "sillyHex".toList, params := [("rate".toList, "3".toList)] }
      [("mtu".toList, "1400".toList)] ['m']) [] ['m']).1 =
      Except.ok { name := "sillyHex".toList, params := [("rate".toList, "3".toList)] } :=
  ⟨by decide, by decide,
    (model_spec_inverse ['m']).2.2.1
      { name := "sillyHex".toList, params := [("rate".toList, "3".toList)] }
      [("mtu".toList, "1400".toList)] [] (by decide) (by decide) (by decide)⟩

/-! ## The range of the MTU parameter -/

theorem toInt_nonneg (size u : Nat) (hu : u < 2 ^ size) (h : 0 ≤ toInt size u) :
    toInt size u = (u : Int) := by
  have hmod : u % 2 ^ size = u := Nat.mod_eq_of_lt hu
  unfold toInt at h ⊢
  rw [hmod] at h ⊢
  split
  · rfl
  · rename_i hge
    rw [if_neg hge] at h
    have : ((u : Nat) : Int) < ((2 ^ size : Nat) : Int) := by exact_mod_cast hu
    push_cast at this
    omega

/-- **C12** (MTU parameter range).  Let `crypting.ValidateParams` accept only
MTUs that are unsigned and at most 2^32, as the spec has it.  For every
parameter bag in which `mtu` is present, `loadCryptingParams` succeeds only if
the value is a non-empty string of decimal digits that denotes a number no
greater than 2^32; on success the resulting MTU is that number and `mtu` is
marked acknowledged.  When `mtu` is absent and the call succeeds, the result
carries the default MTU and the acknowledged set is unchanged, so that `mtu`
is not marked acknowledged by the call. -/
theorem mtu_parameter_range (d : Deps) (hv : ValidatesMTU d) (params : GoMap Str)
    (ackedParams : GoMap Bool) :
    (∀ mtuStr, params.get bridgeParamMTU = some mtuStr →
      ∀ cp, (loadCryptingParams d params ackedParams).1 = Except.ok cp →
        mtuStr ≠ [] ∧ (∀ c ∈ mtuStr, isDigit c = true) ∧
        digitsValue mtuStr ≤ 2 ^ 32 ∧
        cp.MTU = (digitsValue mtuStr : Int) ∧
        (loadCryptingParams d params ackedParams).2.get bridgeParamMTU = some true) ∧
    (params.get bridgeParamMTU = none →
      ∀ cp, (loadCryptingParams d params ackedParams).1 = Except.ok cp →
        cp.MTU = d.defCryptingParams.MTU ∧
        (loadCryptingParams d params ackedParams).2 = ackedParams ∧
        (loadCryptingParams d params ackedParams).2.get bridgeParamMTU =
          ackedParams.get bridgeParamMTU) := by
  obtain ⟨hpresent, habsent⟩ := loadCryptingParams_spec d params ackedParams
  constructor
  · intro mtuStr hget cp hok
    obtain ⟨p1, p2, p3, p4, _, p6, _, p8⟩ := (hpresent mtuStr hget).1 cp hok
    obtain ⟨v0, v1⟩ := hv cp p6
    have hmtu : cp.MTU = toInt d.IntSize (digitsValue mtuStr) := by rw [p4]
    have heq : cp.MTU = (digitsValue mtuStr : Int) := by
      rw [hmtu]
      apply toInt_nonneg _ _ p3
      rw [← hmtu]
      exact v0
    refine ⟨p1, p2, ?_, heq, p8⟩
    rw [heq] at v1
    exact_mod_cast v1
  · intro hget cp hok
    obtain ⟨q1, q2⟩ := habsent hget cp hok
    exact ⟨by rw [q1], q2, by rw [q2]⟩

set_option maxRecDepth 100000 in
theorem mtu_parameter_range_witness :
    ValidatesMTU cappedDeps ∧
    GoMap.get [("mtu".toList, "1400".toList)] bridgeParamMTU = some "1400".toList ∧
    (loadCryptingParams cappedDeps [("mtu".toList, "1400".toList)] []).1 =
      Except.ok { MTU := 1400 } ∧
    ("1400".toList ≠ [] ∧ (∀ c ∈ "1400".toList, isDigit c = true) ∧
      digitsValue "1400".toList ≤ 2 ^ 32 ∧
      ({ MTU := 1400 } : Params).MTU = (digitsValue "1400".toList : Int) ∧
      (loadCryptingParams cappedDeps [("mtu".toList, "1400".toList)] []).2.get bridgeParamMTU =
        some true) :=
  ⟨fun p h => by
      simp only [cappedDeps] at h
      split at h
      · cases h
      · omega,
    by decide, by decide,
    (mtu_parameter_range cappedDeps
      (fun p h => by
        simp only [cappedDeps] at h
        split at h
        · cases h
        · omega)
      [("mtu".toList, "1400".toList)] []).1 "1400".toList (by decide) { MTU := 1400 }
      (by decide)⟩

/-! ## The scanner of the private identity file, and the lines that are missing -/

theorem utf8Len_append (xs ys : Str) : utf8Len (xs ++ ys) = utf8Len xs + utf8Len ys := by
  simp [utf8Len]

theorem utf8Len_replicate (n : Nat) (c : Char) :
    utf8Len (List.replicate n c) = n * c.utf8Size := by
  simp [utf8Len]

theorem utf8Len_pos (s : Str) (h : s ≠ []) : 0 < utf8Len s := by
  cases s with
  | nil => exact absurd rfl h
  | cons c cs =>
    have : 0 < c.utf8Size := Char.utf8Size_pos c
    simp only [utf8Len, List.map_cons, List.sum_cons]
    omega

/-- Once the bytes of the current line fill the buffer the scan ends with
`bufio.ErrTooLong`, whatever follows. -/
theorem scanLinesFrom_full (readErr : Option Error) (rest : Str) :
    ∀ cur : Str, MaxScanTokenSize ≤ utf8Len cur →
      scanLinesFrom readErr rest cur = ([], some Error.ErrTooLong) := by
  induction rest with
  | nil =>
    intro cur h
    have hne : cur ≠ [] := by
      intro hc
      rw [hc] at h
      exact absurd h (by decide)
    simp only [scanLinesFrom]
    rw [if_neg hne, if_pos h]
  | cons c rest ih =>
    intro cur h
    simp only [scanLinesFrom]
    by_cases hc : c = '\n'
    · rw [if_pos hc, if_pos h]
    · rw [if_neg hc]
      apply ih
      rw [utf8Len_append]
      omega

/-- The scan of a line that ends with LF. -/
theorem scanLinesFrom_line (readErr : Option Error) (l rest : Str) (hl : '\n' ∉ l) :
    ∀ cur : Str, scanLinesFrom readErr (l ++ '\n' :: rest) cur =
      if MaxScanTokenSize ≤ utf8Len (cur ++ l) then ([], some Error.ErrTooLong)
      else (dropCR (cur ++ l) :: (scanLinesFrom readErr rest []).1,
        (scanLinesFrom readErr rest []).2) := by
  induction l with
  | nil =>
    intro cur
    simp only [List.nil_append, List.append_nil, scanLinesFrom, if_true]
  | cons c l ih =>
    intro cur
    have hc : c ≠ '\n' := by
      intro h
      exact hl (by rw [h]; exact List.mem_cons_self _ _)
    have hl1 : '\n' ∉ l := fun h => hl (List.mem_cons_of_mem _ h)
    have e : scanLinesFrom readErr (c :: (l ++ '\n' :: rest)) cur =
        scanLinesFrom readErr (l ++ '\n' :: rest) (cur ++ [c]) := by
      simp only [scanLinesFrom]
      rw [if_neg hc]
    rw [List.cons_append, e, ih hl1]
    simp only [List.append_assoc, List.singleton_append]

/-- The scan of a last line without LF. -/
theorem scanLinesFrom_last (readErr : Option Error) (l : Str) (hl : '\n' ∉ l) :
    ∀ cur : Str, scanLinesFrom readErr l cur =
      if cur ++ l = [] then ([], readErr)
      else if MaxScanTokenSize ≤ utf8Len (cur ++ l) then ([], some Error.ErrTooLong)
      else ([dropCR (cur ++ l)], readErr) := by
  induction l with
  | nil =>
    intro cur
    simp only [List.append_nil, scanLinesFrom]
  | cons c l ih =>
    intro cur
    have hc : c ≠ '\n' := by
      intro h
      exact hl (by rw [h]; exact List.mem_cons_self _ _)
    have hl1 : '\n' ∉ l := fun h => hl (List.mem_cons_of_mem _ h)
    simp only [scanLinesFrom]
    rw [if_neg hc, ih hl1]
    simp only [List.append_assoc, List.singleton_append]

/-- A first line of `MaxScanTokenSize` bytes or more ends the scan with
`bufio.ErrTooLong` before any line is found. -/
theorem scanLines_too_long (readErr : Option Error) (first rest : Str) (hl : '\n' ∉ first)
    (hlen : MaxScanTokenSize ≤ utf8Len first) :
    scanLines readErr (first ++ rest) = ([], some Error.ErrTooLong) := by
  unfold scanLines
  cases rest with
  | nil =>
    rw [List.append_nil, scanLinesFrom_last readErr first hl []]
    have hne : first ≠ [] := by
      intro hc
      rw [hc] at hlen
      exact absurd hlen (by decide)
    rw [List.nil_append, if_neg hne, if_pos hlen]
  | cons c rest =>
    by_cases hc : c = '\n'
    · rw [hc, scanLinesFrom_line readErr first rest hl [], List.nil_append, if_pos hlen]
    · have : first ++ c :: rest = (first ++ [c]) ++ rest := by simp
      rw [this]
      have hfull : ∀ l : Str, '\n' ∉ l → ∀ cur tail : Str,
          MaxScanTokenSize ≤ utf8Len (cur ++ l) →
          scanLinesFrom readErr (l ++ tail) cur = ([], some Error.ErrTooLong) := by
        intro l
        induction l with
        | nil =>
          intro _ cur tail h
          rw [List.append_nil] at h
          exact scanLinesFrom_full readErr tail cur h
        | cons x l ih =>
          intro hx cur tail h
          have hxc : x ≠ '\n' := by
            intro hh
            exact hx (by rw [hh]; exact List.mem_cons_self _ _)
          have e : scanLinesFrom readErr (x :: (l ++ tail)) cur =
              scanLinesFrom readErr (l ++ tail) (cur ++ [x]) := by
            simp only [scanLinesFrom]
            rw [if_neg hxc]
          rw [List.cons_append, e]
          apply ih (fun hh => hx (List.mem_cons_of_mem _ hh))
          simpa using h
      apply hfull (first ++ [c]) _ [] rest
      · rw [List.nil_append, utf8Len_append]
        omega
      · intro hmem
        rcases List.mem_append.1 hmem with h1 | h1
        · exact hl h1
        · simp only [List.mem_singleton] at h1
          exact hc h1.symm

/-- The lines of a content in which every line ends with LF, has no LF inside
and is shorter than `MaxScanTokenSize` bytes. -/
theorem scanLines_terminated (readErr : Option Error) (ls : List Str)
    (h : ∀ l ∈ ls, '\n' ∉ l ∧ utf8Len l < MaxScanTokenSize) :
    scanLines readErr (terminated ls) = (ls.map dropCR, readErr) := by
  unfold scanLines
  induction ls with
  | nil => simp [terminated, scanLinesFrom]
  | cons l ls ih =>
    obtain ⟨h1, h2⟩ := h l (List.mem_cons_self _ _)
    have ht : terminated (l :: ls) = l ++ '\n' :: terminated ls := by
      simp [terminated]
    rw [ht, scanLinesFrom_line readErr l _ h1 [], List.nil_append, if_neg (by omega),
      ih (fun x hx => h x (List.mem_cons_of_mem _ hx))]
    rfl

/-- The lines of a content whose lines are all shorter than
`MaxScanTokenSize` bytes: lines that end with LF, and a last line without LF,
which is a line if it is not empty. -/
theorem scanLines_short (readErr : Option Error) (ls : List Str) (last : Str)
    (h : ∀ l ∈ ls, '\n' ∉ l ∧ utf8Len l < MaxScanTokenSize)
    (hl : '\n' ∉ last) (hlen : utf8Len last < MaxScanTokenSize) :
    scanLines readErr (terminated ls ++ last) =
      (ls.map dropCR ++ (if last = [] then [] else [dropCR last]), readErr) := by
  unfold scanLines
  induction ls with
  | nil =>
    rw [show terminated [] = [] from rfl, List.nil_append, scanLinesFrom_last readErr last hl [],
      List.nil_append]
    by_cases he : last = []
    · rw [if_pos he, if_pos he]
      rfl
    · rw [if_neg he, if_neg he, if_neg (by omega)]
      rfl
  | cons l ls ih =>
    obtain ⟨h1, h2⟩ := h l (List.mem_cons_self _ _)
    have ht : terminated (l :: ls) ++ last = l ++ '\n' :: (terminated ls ++ last) := by
      simp [terminated]
    rw [ht, scanLinesFrom_line readErr l _ h1 [], List.nil_append, if_neg (by omega),
      ih (fun x hx => h x (List.mem_cons_of_mem _ hx))]
    rfl

/-- The lines of a content with a line of `MaxScanTokenSize` bytes or more:
the lines before the first such line, and the error `bufio.ErrTooLong`. -/
theorem scanLines_long (readErr : Option Error) (ls : List Str) (long tail : Str)
    (h : ∀ l ∈ ls, '\n' ∉ l ∧ utf8Len l < MaxScanTokenSize)
    (hl : '\n' ∉ long) (hlen : MaxScanTokenSize ≤ utf8Len long) :
    scanLines readErr (terminated ls ++ (long ++ tail)) =
      (ls.map dropCR, some Error.ErrTooLong) := by
  induction ls with
  | nil =>
    rw [show terminated [] = [] from rfl, List.nil_append]
    exact scanLines_too_long readErr long tail hl hlen
  | cons l ls ih =>
    obtain ⟨h1, h2⟩ := h l (List.mem_cons_self _ _)
    have ht : terminated (l :: ls) ++ (long ++ tail) =
        l ++ '\n' :: (terminated ls ++ (long ++ tail)) := by
      simp [terminated]
    have ih1 := ih (fun x hx => h x (List.mem_cons_of_mem _ hx))
    unfold scanLines at ih1 ⊢
    rw [ht, scanLinesFrom_line readErr l _ h1 [], List.nil_append, if_neg (by omega), ih1]
    rfl

theorem replicate_no_LF (n : Nat) : '\n' ∉ List.replicate n 'x' := by
  intro h
  have := List.eq_of_mem_replicate h
  exact absurd this (by decide)

theorem replicate_full : MaxScanTokenSize ≤ utf8Len (List.replicate 65536 'x') := by
  rw [utf8Len_replicate]
  decide

theorem LoadServerPrivateFile_too_long (d : Deps) (readErr : Option Error) (first tail : Str)
    (hl : '\n' ∉ first) (hlen : MaxScanTokenSize ≤ utf8Len first) :
    LoadServerPrivateFile d (first ++ tail) readErr = Except.error Error.ErrTooLong := by
  simp only [LoadServerPrivateFile, scanLines_too_long readErr first tail hl hlen]
  rfl

theorem replicate_ne (n : Nat) (s : Str) (h : n ≠ s.length) : List.replicate n 'x' ≠ s := by
  intro he
  apply h
  rw [← he, List.length_replicate]

/-- The claim C9 as stated fails.  The content with no lines at all, the empty
file, is rejected with `ErrSyntax`, not with `ErrNoMagic`; and a content whose
first line has 65536 bytes, which is not the magic line, is rejected with
`bufio.ErrTooLong`, not with `ErrNoMagic`. -/
theorem no_first_line_not_missing_magic :
    LoadServerPrivateFile sampleDeps [] none = Except.error Error.ErrSyntax ∧
    Error.ErrSyntax ≠ ErrNoMagic ∧
    List.replicate 65536 'x' ≠ sampleDeps.magicLine ∧
    LoadServerPrivateFile sampleDeps (List.replicate 65536 'x' ++ "\nbridge\n".toList) none =
      Except.error Error.ErrTooLong ∧
    Error.ErrTooLong ≠ ErrNoMagic :=
  ⟨rfl, by decide, replicate_ne 65536 sampleDeps.magicLine (by decide),
    LoadServerPrivateFile_too_long sampleDeps none (List.replicate 65536 'x')
      "\nbridge\n".toList (replicate_no_LF 65536) replicate_full,
    by decide⟩

/-- **C9** (missing magic, amended).  A private-identity file content whose
first line is read and is not the magic line is rejected with `ErrNoMagic`,
whatever the remaining lines contain; the first line is read when it is
shorter than the 65536 bytes of the scanner buffer.  A content of which no
first line is read is rejected with the error of the scanner, or with
`ErrSyntax` if the scanner has none: the empty content with `ErrSyntax` when
the reads ended without error, a content whose first line has 65536 bytes or
more with `bufio.ErrTooLong`. -/
theorem missing_magic (d : Deps) (content : Str) (readErr : Option Error) :
    (∀ first rest err, scanLines readErr content = (first :: rest, err) → first ≠ d.magicLine →
      LoadServerPrivateFile d content readErr = Except.error ErrNoMagic) ∧
    (∀ err, scanLines readErr content = ([], err) →
      LoadServerPrivateFile d content readErr =
        Except.error (scanErrorOr err Error.ErrSyntax)) ∧
    (∀ first tail, content = first ++ '\n' :: tail → '\n' ∉ first →
      utf8Len first < MaxScanTokenSize → dropCR first ≠ d.magicLine →
      LoadServerPrivateFile d content readErr = Except.error ErrNoMagic) ∧
    (content ≠ [] → '\n' ∉ content → utf8Len content < MaxScanTokenSize →
      dropCR content ≠ d.magicLine →
      LoadServerPrivateFile d content readErr = Except.error ErrNoMagic) ∧
    (content = [] → LoadServerPrivateFile d content readErr =
      Except.error (scanErrorOr readErr Error.ErrSyntax)) ∧
    (content = [] → readErr = none →
      LoadServerPrivateFile d content readErr = Except.error Error.ErrSyntax) ∧
    (∀ first tail, content = first ++ tail → '\n' ∉ first →
      MaxScanTokenSize ≤ utf8Len first →
      LoadServerPrivateFile d content readErr = Except.error Error.ErrTooLong) := by
  have hread : ∀ first rest err, scanLines readErr content = (first :: rest, err) →
      first ≠ d.magicLine →
      LoadServerPrivateFile d content readErr = Except.error ErrNoMagic := by
    intro first rest err h hne
    simp only [LoadServerPrivateFile, h]
    rw [if_pos hne]
  have hnone : ∀ err, scanLines readErr content = ([], err) →
      LoadServerPrivateFile d content readErr =
        Except.error (scanErrorOr err Error.ErrSyntax) := by
    intro err h
    simp only [LoadServerPrivateFile, h]
  refine ⟨hread, hnone, ?_, ?_, ?_, ?_, ?_⟩
  · intro first tail hc hl hlen hne
    have hs : scanLines readErr content =
        (dropCR first :: (scanLinesFrom readErr tail []).1, (scanLinesFrom readErr tail []).2) := by
      unfold scanLines
      rw [hc, scanLinesFrom_line readErr first tail hl [], List.nil_append, if_neg (by omega)]
    exact hread _ _ _ hs hne
  · intro hne hl hlen hmagic
    have hs : scanLines readErr content = ([dropCR content], readErr) := by
      unfold scanLines
      rw [scanLinesFrom_last readErr content hl [], List.nil_append, if_neg hne,
        if_neg (by omega)]
    exact hread _ _ _ hs hmagic
  · intro hc
    apply hnone
    rw [hc]
    rfl
  · intro hc hr
    rw [hnone readErr (by rw [hc]; rfl), hr]
    rfl
  · intro first tail hc hl hlen
    rw [hc]
    exact LoadServerPrivateFile_too_long d readErr first tail hl hlen

set_option maxRecDepth 100000 in
theorem missing_magic_witness :
    LoadServerPrivateFile sampleDeps "hello\nworld\n".toList none = Except.error ErrNoMagic ∧
    LoadServerPrivateFile sampleDeps [] none = Except.error Error.ErrSyntax ∧
    LoadServerPrivateFile sampleDeps (List.replicate 65536 'x') none =
      Except.error Error.ErrTooLong :=
  ⟨(missing_magic sampleDeps "hello\nworld\n".toList none).2.2.1 "hello".toList
      "world\n".toList (by decide) (by decide) (by decide) (by decide),
    (missing_magic sampleDeps [] none).2.2.2.2.2.1 rfl rfl,
    (missing_magic sampleDeps (List.replicate 65536 'x') none).2.2.2.2.2.2
      (List.replicate 65536 'x') [] (List.append_nil _).symm (replicate_no_LF 65536)
      replicate_full⟩

theorem terminated_two (m x : Str) : terminated [m, x] = terminated [m] ++ (x ++ ['\n']) := by
  simp [terminated]

theorem LoadServerPrivateFile_long_nickname (d : Deps) (readErr : Option Error) (long tail : Str)
    (hm : '\n' ∉ d.magicLine) (hmlen : utf8Len d.magicLine < MaxScanTokenSize)
    (hcr : dropCR d.magicLine = d.magicLine)
    (hl : '\n' ∉ long) (hlen : MaxScanTokenSize ≤ utf8Len long) :
    LoadServerPrivateFile d (terminated [d.magicLine] ++ (long ++ tail)) readErr =
      Except.error Error.ErrTooLong := by
  have hs := scanLines_long readErr [d.magicLine] long tail
    (by
      intro l hmem
      simp only [List.mem_singleton] at hmem
      rw [hmem]
      exact ⟨hm, hmlen⟩) hl hlen
  simp only [LoadServerPrivateFile, hs, List.map_cons, List.map_nil, hcr]
  simp [scanErrorOr]

/-- The claim C10 as stated fails.  The content has two lines, the magic line
and a nickname of 65536 bytes, and no third line: the load fails with
`bufio.ErrTooLong`, not with `ErrNoAddress`. -/
theorem long_nickname_not_missing_address :
    LoadServerPrivateFile sampleDeps
      (terminated [sampleDeps.magicLine, List.replicate 65536 'x']) none =
      Except.error Error.ErrTooLong ∧
    Error.ErrTooLong ≠ ErrNoAddress := by
  refine ⟨?_, by decide⟩
  rw [terminated_two]
  exact LoadServerPrivateFile_long_nickname sampleDeps none (List.replicate 65536 'x') ['\n']
    (by decide) (by decide) (by decide) (replicate_no_LF 65536) replicate_full

/-- **C10** (distinct error kinds for a truncated or malformed file,
amended).  Let the scanner read the magic line and a nickname as the first two
lines of the content.  If it reads no third line, the load fails with the
error of the scanner, or with `ErrNoAddress` if the scanner has none.  If the
third line is a valid address and no fourth line is read, the load fails with
the error of the scanner, or with `ErrNoPrivateKey` if the scanner has none.
If the first four lines are valid and a later line that is read has no `=`,
the load fails with `ErrSyntax`.  The scanner has no error, and reads every
line, when the reads end without error and every line is shorter than 65536
bytes; at the first line of 65536 bytes or more it stops with
`bufio.ErrTooLong`, having read the lines before it.  The errors are pairwise
distinct. -/
theorem truncated_file_errors (d : Deps) (content nickname : Str) (readErr : Option Error) :
    (∀ err, scanLines readErr content = ([d.magicLine, nickname], err) →
      LoadServerPrivateFile d content readErr =
        Except.error (scanErrorOr err ErrNoAddress)) ∧
    (scanLines readErr content = ([d.magicLine, nickname], none) →
      LoadServerPrivateFile d content readErr = Except.error ErrNoAddress) ∧
    (∀ addrLine ea err, scanLines readErr content = ([d.magicLine, nickname, addrLine], err) →
      parseEndpointAddress d addrLine = Except.ok ea →
      LoadServerPrivateFile d content readErr =
        Except.error (scanErrorOr err ErrNoPrivateKey)) ∧
    (∀ addrLine ea, scanLines readErr content = ([d.magicLine, nickname, addrLine], none) →
      parseEndpointAddress d addrLine = Except.ok ea →
      LoadServerPrivateFile d content readErr = Except.error ErrNoPrivateKey) ∧
    (∀ addrLine privateLine lines ea priv err,
      scanLines readErr content =
        (d.magicLine :: nickname :: addrLine :: privateLine :: lines, err) →
      parseEndpointAddress d addrLine = Except.ok ea →
      LoadPrivateText d privateLine = Except.ok priv →
      (∃ line ∈ lines, IndexRune line '=' = none) →
      LoadServerPrivateFile d content readErr = Except.error Error.ErrSyntax) ∧
    (∀ ls last, content = terminated ls ++ last →
      (∀ l ∈ ls, '\n' ∉ l ∧ utf8Len l < MaxScanTokenSize) →
      '\n' ∉ last → utf8Len last < MaxScanTokenSize →
      scanLines readErr content =
        (ls.map dropCR ++ (if last = [] then [] else [dropCR last]), readErr)) ∧
    (∀ ls long tail, content = terminated ls ++ (long ++ tail) →
      (∀ l ∈ ls, '\n' ∉ l ∧ utf8Len l < MaxScanTokenSize) →
      '\n' ∉ long → MaxScanTokenSize ≤ utf8Len long →
      scanLines readErr content = (ls.map dropCR, some Error.ErrTooLong)) ∧
    ErrNoAddress ≠ ErrNoPrivateKey ∧ ErrNoAddress ≠ Error.ErrSyntax ∧
    ErrNoPrivateKey ≠ Error.ErrSyntax ∧ ErrNoMagic ≠ ErrNoAddress ∧
    ErrNoMagic ≠ ErrNoPrivateKey ∧ ErrNoMagic ≠ Error.ErrSyntax ∧
    Error.ErrTooLong ≠ ErrNoAddress ∧ Error.ErrTooLong ≠ ErrNoPrivateKey ∧
    Error.ErrTooLong ≠ Error.ErrSyntax ∧ Error.ErrTooLong ≠ ErrNoMagic := by
  have h1 : ∀ err, scanLines readErr content = ([d.magicLine, nickname], err) →
      LoadServerPrivateFile d content readErr =
        Except.error (scanErrorOr err ErrNoAddress) := by
    intro err h
    simp only [LoadServerPrivateFile, h]
    simp
  have h2 : ∀ addrLine ea err,
      scanLines readErr content = ([d.magicLine, nickname, addrLine], err) →
      parseEndpointAddress d addrLine = Except.ok ea →
      LoadServerPrivateFile d content readErr =
        Except.error (scanErrorOr err ErrNoPrivateKey) := by
    intro addrLine ea err h ha
    simp only [LoadServerPrivateFile, h, ha]
    simp
  refine ⟨h1, ?_, h2, ?_, ?_, ?_, ?_, by decide, by decide, by decide, by decide, by decide,
    by decide, by decide, by decide, by decide, by decide⟩
  · intro h
    rw [h1 none h]
    rfl
  · intro addrLine ea h ha
    rw [h2 addrLine ea none h ha]
    rfl
  · intro addrLine privateLine lines ea priv err h ha hp hl
    simp only [LoadServerPrivateFile, h, ha, hp, paramLoop_syntax lines hl []]
    simp
  · intro ls last hc h hl hlen
    rw [hc]
    exact scanLines_short readErr ls last h hl hlen
  · intro ls long tail hc h hl hlen
    rw [hc]
    exact scanLines_long readErr ls long tail h hl hlen

set_option maxRecDepth 100000 in
theorem truncated_file_errors_witness :
    LoadServerPrivateFile sampleDeps "!!Dust-Server-Private!!\nbridge\n".toList none =
      Except.error ErrNoAddress ∧
    LoadServerPrivateFile sampleDeps
      "!!Dust-Server-Private!!\nbridge\n127.0.0.1:8080\n".toList none =
      Except.error ErrNoPrivateKey ∧
    LoadServerPrivateFile sampleDeps
      ("!!Dust-Server-Private!!\nbridge\n127.0.0.1:8080\n".toList ++ hexEncode sampleKey ++
        "\nm=sillyHex\nbad line\n".toList) none = Except.error Error.ErrSyntax :=
  ⟨(truncated_file_errors sampleDeps "!!Dust-Server-Private!!\nbridge\n".toList
      "bridge".toList none).2.1 (by decide),
    (truncated_file_errors sampleDeps
      "!!Dust-Server-Private!!\nbridge\n127.0.0.1:8080\n".toList
      "bridge".toList none).2.2.2.1 "127.0.0.1:8080".toList
      { tcpAddr := { IP := [127, 0, 0, 1], Port := 8080, Zone := [] }
        idBytes := [127, 0, 0, 1, 31, 144] } (by decide) (by decide),
    (truncated_file_errors sampleDeps
      ("!!Dust-Server-Private!!\nbridge\n127.0.0.1:8080\n".toList ++ hexEncode sampleKey ++
        "\nm=sillyHex\nbad line\n".toList) "bridge".toList none).2.2.2.2.1
      "127.0.0.1:8080".toList (hexEncode sampleKey)
      ["m=sillyHex".toList, "bad line".toList]
      { tcpAddr := { IP := [127, 0, 0, 1], Port := 8080, Zone := [] }
        idBytes := [127, 0, 0, 1, 31, 144] }
      { «private» := sampleKey, «public» := { uniform := sampleKey.reverse, derived := sampleKey } }
      none (by decide) (by decide) (by decide) ⟨"bad line".toList, by decide, by decide⟩⟩

/-! ## Saving a private identity file in any order of the parameter map -/

theorem savesAndLoads_spec (d : Deps) (spriv expected : ServerPrivate)
    (rangeOrder : List (Str × Str)) (h : savesAndLoads d spriv expected rangeOrder = true) :
    ∃ content, spriv.SavePrivateFile d rangeOrder = Except.ok content ∧
      LoadServerPrivateFile d content none = Except.ok expected := by
  unfold savesAndLoads at h
  cases hs : spriv.SavePrivateFile d rangeOrder with
  | error e =>
    rw [hs] at h
    cases h
  | ok content =>
    rw [hs] at h
    exact ⟨content, rfl, of_decide_eq_true h⟩

set_option maxRecDepth 1000000 in
theorem equalsKey_every_order :
    ∀ rangeOrder ∈ List.permutations' (equalsKeyPrivate.Public.BridgeLine sampleDeps).Params,
      savesAndLoads sampleDeps equalsKeyPrivate (samplePrivate [("a".toList, "b=c".toList)])
        rangeOrder = true := by
  decide

set_option maxRecDepth 100000 in
/-- **C7** (private identity round trip), at the input on which the code
fails it.  `SavePrivateFile` accepts the identity whose model parameter key is
`a=b` and writes the line `m.a=b=c`; `LoadServerPrivateFile` accepts the
content and splits that line at its first `=`: the loaded identity has the
model parameter `a` of value `b=c`, not the parameter bag that was saved.
This is so in whatever order the `range` of `SavePrivateFile` meets the
entries of the parameter map; the content shown is the one written when it
meets them in the order `p`, `mtu`, `m`, `m.a=b`. -/
theorem equals_in_key_breaks_round_trip :
    (∀ rangeOrder : List (Str × Str),
      rangeOrder.Perm (equalsKeyPrivate.Public.BridgeLine sampleDeps).Params →
      ∃ content, equalsKeyPrivate.SavePrivateFile sampleDeps rangeOrder = Except.ok content ∧
        LoadServerPrivateFile sampleDeps content none =
          Except.ok (samplePrivate [("a".toList, "b=c".toList)])) ∧
    equalsKeyPrivate.SavePrivateFile sampleDeps
        (equalsKeyPrivate.Public.BridgeLine sampleDeps).Params = Except.ok
      ("!!Dust-Server-Private!!\nbridge\n127.0.0.1:8080\n".toList ++ hexEncode sampleKey ++
        "\nmtu=1400\nm=sillyHex\nm.a=b=c\n".toList) ∧
    LoadServerPrivateFile sampleDeps
      ("!!Dust-Server-Private!!\nbridge\n127.0.0.1:8080\n".toList ++ hexEncode sampleKey ++
        "\nmtu=1400\nm=sillyHex\nm.a=b=c\n".toList) none =
      Except.ok (samplePrivate [("a".toList, "b=c".toList)]) ∧
    (samplePrivate [("a".toList, "b=c".toList)]).endpointConfig.modelSpec.params ≠
      equalsKeyPrivate.endpointConfig.modelSpec.params ∧
    GoMap.get equalsKeyPrivate.endpointConfig.modelSpec.params "a=b".toList = some "c".toList ∧
    GoMap.get (samplePrivate [("a".toList, "b=c".toList)]).endpointConfig.modelSpec.params
      "a=b".toList = none := by
  refine ⟨?_, by decide, by decide, by decide, by decide, by decide⟩
  intro rangeOrder hperm
  exact savesAndLoads_spec _ _ _ _
    (equalsKey_every_order rangeOrder (List.mem_permutations'.2 hperm))

theorem paramLinesOf_perm (xs ys : GoMap Str) (h : List.Perm xs ys) :
    List.Perm (paramLinesOf xs) (paramLinesOf ys) :=
  (h.filter _).map _

/-- **C14** (saved private-file format).  Let the `range` of `SavePrivateFile`
meet the parameters of `Public().BridgeLine()` in any order.
`SavePrivateFile` returns the syntax error exactly when one of the four header
lines (the magic line, the nickname, the address text, the private-key text)
or a key or value of a parameter contains CR or LF, and returns no other error
before the file is opened.  Otherwise the content it writes is the four header
lines in this order and then the parameter lines in the order of the `range`,
each line followed by LF; the parameter lines are, up to their order, one line
`key=value` for each parameter other than `p`. -/
theorem save_private_file_format (d : Deps) (spriv : ServerPrivate)
    (rangeOrder : List (Str × Str))
    (hperm : rangeOrder.Perm (spriv.Public.BridgeLine d).Params) :
    (spriv.SavePrivateFile d rangeOrder = Except.error Error.ErrSyntax ↔
      (∃ l ∈ headerLines d spriv, ContainsCRLF l = true) ∨
      ∃ kv ∈ (spriv.Public.BridgeLine d).Params,
        ContainsCRLF kv.1 = true ∨ ContainsCRLF kv.2 = true) ∧
    (∀ e, spriv.SavePrivateFile d rangeOrder = Except.error e → e = Error.ErrSyntax) ∧
    (∀ content, spriv.SavePrivateFile d rangeOrder = Except.ok content →
      content = terminated (headerLines d spriv ++ paramLinesOf rangeOrder)) ∧
    List.Perm (paramLinesOf rangeOrder) (paramLinesOf (spriv.Public.BridgeLine d).Params) ∧
    (∀ line, line ∈ paramLinesOf rangeOrder ↔
      ∃ kv ∈ (spriv.Public.BridgeLine d).Params,
        kv.1 ≠ bridgeParamPublicKey ∧ line = kv.1 ++ '=' :: kv.2) ∧
    (∀ l, ContainsCRLF l = true ↔ '\r' ∈ l ∨ '\n' ∈ l) := by
  have hsave : spriv.SavePrivateFile d rangeOrder =
      if (headerLines d spriv).any ContainsCRLF then Except.error Error.ErrSyntax
      else if rangeOrder.any (fun kv => ContainsCRLF kv.1 || ContainsCRLF kv.2) then
        Except.error Error.ErrSyntax
      else Except.ok (terminated (headerLines d spriv ++ paramLinesOf rangeOrder)) := by
    unfold ServerPrivate.SavePrivateFile
    simp only [saveParamLines_eq, List.nil_append]
    show (if (headerLines d spriv).any ContainsCRLF = true then _ else _) = _
    by_cases h1 : (headerLines d spriv).any ContainsCRLF = true
    · rw [if_pos h1, if_pos h1]
    · rw [if_neg h1, if_neg h1]
      by_cases h2 : rangeOrder.any (fun kv => ContainsCRLF kv.1 || ContainsCRLF kv.2) = true
      · rw [if_pos h2, if_pos h2]
      · rw [if_neg h2, if_neg h2]
        simp only []
        rw [← JoinLF_terminated]
        rfl
  refine ⟨?_, ?_, ?_, paramLinesOf_perm _ _ hperm, ?_, ?_⟩
  · rw [hsave]
    constructor
    · intro h
      split at h
      · rename_i h1
        left
        obtain ⟨l, hl, hc⟩ := List.any_eq_true.1 h1
        exact ⟨l, hl, hc⟩
      · split at h
        · rename_i h1 h2
          right
          obtain ⟨kv, hkv, hc⟩ := List.any_eq_true.1 h2
          exact ⟨kv, hperm.mem_iff.1 hkv, by simpa using hc⟩
        · cases h
    · intro h
      rcases h with ⟨l, hl, hc⟩ | ⟨kv, hkv, hc⟩
      · rw [if_pos (List.any_eq_true.2 ⟨l, hl, hc⟩)]
      · split
        · rfl
        · rw [if_pos (List.any_eq_true.2 ⟨kv, hperm.mem_iff.2 hkv, by simpa using hc⟩)]
  · intro e he
    rw [hsave] at he
    split at he
    · simp only [Except.error.injEq] at he
      exact he.symm
    · split at he
      · simp only [Except.error.injEq] at he
        exact he.symm
      · cases he
  · intro content hc
    rw [hsave] at hc
    split at hc
    · cases hc
    · split at hc
      · cases hc
      · simp only [Except.ok.injEq] at hc
        exact hc.symm
  · intro line
    simp only [paramLinesOf, List.mem_map, List.mem_filter, decide_eq_true_eq]
    constructor
    · rintro ⟨kv, ⟨hmem, hne⟩, rfl⟩
      exact ⟨kv, hperm.mem_iff.1 hmem, hne, rfl⟩
    · rintro ⟨kv, hmem, hne, rfl⟩
      exact ⟨kv, ⟨hperm.mem_iff.2 hmem, hne⟩, rfl⟩
  · intro l
    simp [ContainsCRLF, List.any_eq_true]
    constructor
    · rintro ⟨c, hc, h | h⟩
      · left; rw [← h]; exact hc
      · right; rw [← h]; exact hc
    · rintro (h | h)
      · exact ⟨_, h, Or.inl rfl⟩
      · exact ⟨_, h, Or.inr rfl⟩

set_option maxRecDepth 100000 in
theorem save_private_file_format_witness :
    (((samplePrivate [("rate".toList, "3".toList)]).Public.BridgeLine sampleDeps).Params.reverse).Perm
      ((samplePrivate [("rate".toList, "3".toList)]).Public.BridgeLine sampleDeps).Params ∧
    (samplePrivate [("rate".toList, "3".toList)]).SavePrivateFile sampleDeps
      ((samplePrivate [("rate".toList, "3".toList)]).Public.BridgeLine sampleDeps).Params.reverse =
      Except.ok
        ("!!Dust-Server-Private!!\nbridge\n127.0.0.1:8080\n" ++
          "000102030405060708090a0b0c0d0e0f101112131415161718191a1b1c1d1e1f\n" ++
          "m.rate=3\nm=sillyHex\nmtu=1400\n").toList ∧
    ("!!Dust-Server-Private!!\nbridge\n127.0.0.1:8080\n" ++
        "000102030405060708090a0b0c0d0e0f101112131415161718191a1b1c1d1e1f\n" ++
        "m.rate=3\nm=sillyHex\nmtu=1400\n").toList =
      terminated (headerLines sampleDeps (samplePrivate [("rate".toList, "3".toList)]) ++
        paramLinesOf ((samplePrivate [("rate".toList, "3".toList)]).Public.BridgeLine
          sampleDeps).Params.reverse) :=
  ⟨List.reverse_perm _, by decide,
    (save_private_file_format sampleDeps (samplePrivate [("rate".toList, "3".toList)])
      ((samplePrivate [("rate".toList, "3".toList)]).Public.BridgeLine sampleDeps).Params.reverse
      (List.reverse_perm _)).2.2.1 _ (by decide)⟩

end Dust
